import Mathlib

/-!
files-organizer: a shallow embedding of `main.go`

The program walks a source directory, looks every visited path up in a fixed
extension table and renames matching entries into `<sourceDir>/<Category>`.

Modelling conventions.

* A path is the list of its components below the working directory; the empty
  list is the working directory itself and is printed as `.`.  The source
  directory is assumed to be given in clean form.
* The filesystem is an association list from paths to nodes (the first entry
  for a path wins).  Nodes are regular files, directories and symbolic links
  whose target does not resolve.  A directory is either an ordinary one
  (`Node.dir`: readable, writable, searchable, no mount point, of the default
  directory size of the state) or carries its own attributes (`Node.dirWith`):
  its size as `os.Stat` reports it, whether the process may list it, write
  into it and pass through it, and whether a filesystem is mounted on it.
* `renameat` is rename(2) with its failures: a missing source, a path that
  cannot be resolved (`ENOENT`, `ENOTDIR`, `EACCES`), a directory moved into
  itself (`EINVAL`), a parent directory that may not be written (`EACCES`), a
  directory put onto an existing entry (`ENOTDIR`), a source and destination
  on different mounted filesystems (`EXDEV`), a mount point (`EBUSY`).
  `Rename` is Go `os.Rename` on top of it.  `readDirNames` fails on a
  directory that may not be listed.
* `filepath.Ext`, `filepath.Base`, `strings.TrimSuffix`, `time.Format`,
  `os.Stat`, `os.Lstat`, `os.MkdirAll`, `os.Rename` and `filepath.Walk` are
  library code; they are modelled after the Go standard library.
* The clock is a function from the number of `time.Now()` calls made so far to
  a broken-down time.
* The log is the list of lines written; the timestamp that `log.Printf` puts in
  front of every line is left out.  The file `organizer.log` that receives the
  lines (`logFile`) is not an entry of the modelled filesystem: statements
  that an entry is unchanged are made for paths other than `logFile`.
* A regular file carries an identity besides its size, so that statements can
  follow one file through the renames of a run; the program never reads it.
* `walkCalls`, `WalkCalls` and `OrganizeCalls` list the calls of the walk
  function that `walk`, `Walk` and `Organize` make, in order, each with the
  state before and after it (`Organize_calls`).
-/

namespace FilesOrganizer

/-! ## Strings and paths -/

/-- Backwards scan of `filepath.Ext`: the argument is the reversed string, the
accumulator holds the characters already passed. -/
def extScan : List Char → List Char → List Char
  | [], _ => []
  | c :: rest, acc =>
    if c = '/' then []
    else if c = '.' then '.' :: acc
    else extScan rest (c :: acc)

/-- Go `filepath.Ext`: the suffix beginning at the final dot in the final
element of the path; empty if there is no dot. -/
def filepathExt (path : String) : String :=
  ⟨extScan path.data.reverse []⟩

/-- Go `filepath.Base`: the last element of the path, trailing slashes removed;
`.` for the empty path and `/` for a path of slashes only. -/
def filepathBase (path : String) : String :=
  if path.data = [] then "."
  else
    let r := ((path.data.reverse.dropWhile (fun c => c == '/')).takeWhile
      (fun c => c != '/'))
    if r = [] then "/" else ⟨r.reverse⟩

/-- Go `strings.TrimSuffix`. -/
def trimSuffix (s suffix : String) : String :=
  if suffix.data.isSuffixOf s.data then
    ⟨s.data.take (s.data.length - suffix.data.length)⟩
  else s

/-- A broken-down wall-clock time. -/
structure Time where
  year : Nat
  month : Nat
  day : Nat
  hour : Nat
  minute : Nat
  second : Nat

/-- Decimal digits of `n`, zero-padded on the left to width `w`. -/
def padDigits (w n : Nat) : List Char :=
  let d := Nat.toDigits 10 n
  List.replicate (w - d.length) '0' ++ d

/-- Go `t.Format("20060102_150405")`. -/
def formatStamp (t : Time) : String :=
  ⟨padDigits 4 t.year ++ padDigits 2 t.month ++ padDigits 2 t.day ++ ['_'] ++
    padDigits 2 t.hour ++ padDigits 2 t.minute ++ padDigits 2 t.second⟩

/-- Source `generateNewFileName`, with the value of `time.Now()` passed in. -/
def generateNewFileName (path : String) (now : Time) : String :=
  let baseName := filepathBase path
  let extension := filepathExt baseName
  let nameWithoutExt := trimSuffix baseName extension
  let timestamp := formatStamp now
  nameWithoutExt ++ "_" ++ timestamp ++ extension

/-- A path below the working directory, as the list of its components. -/
abbrev Path := List String

/-- Characters of a path: components separated by slashes. -/
def renderChars : List String → List Char
  | [] => []
  | [a] => a.data
  | a :: b :: rest => a.data ++ '/' :: renderChars (b :: rest)

/-- The string form of a path; the working directory prints as a dot. -/
def render (p : Path) : String :=
  if p = [] then "." else ⟨renderChars p⟩

/-- Go `filepath.Join(dir, name)` for a single element `name`. -/
def filepathJoin (dir : Path) (name : String) : Path :=
  if name = "." ∨ name = "/" ∨ name = "" then dir
  else if name = ".." then dir.dropLast
  else dir ++ [name]

/-! ## The rule table -/

/-- Source `DefaultRules`. -/
def DefaultRules : List (String × String) :=
  [ (".jpg", "Images"), (".jpeg", "Images"), (".png", "Images"),
    (".pdf", "Documents"), (".doc", "Documents"), (".docx", "Documents"),
    (".txt", "Documents"),
    (".mp3", "Music"), (".wav", "Music"),
    (".mp4", "Video"), (".avi", "Video"),
    (".zip", "Archives"), (".rar", "Archives") ]

/-- Lookup in a Go `map[string]V` represented as an association list. -/
def mapGet {V : Type} : List (String × V) → String → Option V
  | [], _ => none
  | (k, v) :: rest, key => if k = key then some v else mapGet rest key

/-! ## The filesystem -/

/-- What the filesystem holds for a directory that is not an ordinary one: the
size `os.Stat` reports for it, whether the process may list it (`read`), make,
remove and rename entries in it (`write`) and pass through it (`search`), and
whether another filesystem is mounted on it. -/
structure DirAttr where
  size : Nat
  read : Bool
  write : Bool
  search : Bool
  mount : Bool
  deriving DecidableEq, Repr

/-- What a path can name: a regular file (with an identity for its content and
its size in bytes), an ordinary directory (of the default size, with all
permissions, on the filesystem of its parent), a symbolic link whose target
does not resolve, or a directory with attributes of its own. -/
inductive Node where
  | file (id size : Nat)
  | dir
  | brokenLink
  | dirWith (attr : DirAttr)
  deriving DecidableEq, Repr

/-- The filesystem below the working directory. -/
abbrev FS := List (Path × Node)

/-- First entry stored for a path. -/
def lookupEntry : FS → Path → Option Node
  | [], _ => none
  | (k, n) :: rest, p => if k = p then some n else lookupEntry rest p

/-- The node a path names; the working directory is always a directory. -/
def nodeAt (fs : FS) (p : Path) : Option Node :=
  if p = [] then some Node.dir else lookupEntry fs p

/-- The error numbers that occur. -/
inductive Errno where
  | ENOENT
  | ENOTDIR
  | EEXIST
  | EINVAL
  | EACCES
  | EXDEV
  | EBUSY
  deriving DecidableEq, Repr

/-- Text of an error number. -/
def Errno.text : Errno → String
  | .ENOENT => "no such file or directory"
  | .ENOTDIR => "not a directory"
  | .EEXIST => "file exists"
  | .EINVAL => "invalid argument"
  | .EACCES => "permission denied"
  | .EXDEV => "invalid cross-device link"
  | .EBUSY => "device or resource busy"

/-- Go error values: `*fs.PathError` and `*os.LinkError`. -/
inductive GoErr where
  | pathError (op path : String) (errno : Errno)
  | linkError (op old new : String) (errno : Errno)
  deriving DecidableEq, Repr

/-- The error number inside an error value. -/
def GoErr.errno : GoErr → Errno
  | .pathError _ _ e => e
  | .linkError _ _ _ e => e

/-- Go `err.Error()`. -/
def GoErr.Error : GoErr → String
  | .pathError op path e => op ++ " " ++ path ++ ": " ++ e.text
  | .linkError op old new e => op ++ " " ++ old ++ " " ++ new ++ ": " ++ e.text

/-- Go `os.IsNotExist`. -/
def isNotExist (e : GoErr) : Bool :=
  decide (e.errno = Errno.ENOENT)

/-- Go `FileInfo.IsDir`. -/
def Node.isDir : Node → Bool
  | .dir => true
  | .dirWith _ => true
  | _ => false

/-- Whether the process may pass through a node on the way to what is below
it. -/
def Node.canSearch : Node → Bool
  | .dir => true
  | .dirWith a => a.search
  | _ => false

/-- Whether the process may list the entries of a node. -/
def Node.canRead : Node → Bool
  | .dir => true
  | .dirWith a => a.read
  | _ => false

/-- Whether the process may make, remove and rename entries in a node. -/
def Node.canWrite : Node → Bool
  | .dir => true
  | .dirWith a => a.write
  | _ => false

/-- Whether another filesystem is mounted on a node. -/
def Node.isMount : Node → Bool
  | .dirWith a => a.mount
  | _ => false

/-- Resolution of the directories above the last component: `pre` is the part
already resolved, the list holds the components still to come. -/
def ancestorErr (fs : FS) : Path → List String → Option Errno
  | _, [] => none
  | _, [_] => none
  | pre, a :: b :: rest =>
    match nodeAt fs (pre ++ [a]) with
    | some Node.dir => ancestorErr fs (pre ++ [a]) (b :: rest)
    | some (Node.dirWith attr) =>
      if attr.search then ancestorErr fs (pre ++ [a]) (b :: rest) else some Errno.EACCES
    | some (Node.file _ _) => some Errno.ENOTDIR
    | _ => some Errno.ENOENT

/-- Go `os.Lstat`: the node itself, links not followed. -/
def Lstat (fs : FS) (p : Path) : Except GoErr Node :=
  match ancestorErr fs [] p with
  | some e => .error (.pathError "lstat" (render p) e)
  | none =>
    match nodeAt fs p with
    | some n => .ok n
    | none => .error (.pathError "lstat" (render p) Errno.ENOENT)

/-- Go `os.Stat`: links are followed, so a link without target does not exist. -/
def Stat (fs : FS) (p : Path) : Except GoErr Node :=
  match ancestorErr fs [] p with
  | some e => .error (.pathError "stat" (render p) e)
  | none =>
    match nodeAt fs p with
    | some Node.brokenLink => .error (.pathError "stat" (render p) Errno.ENOENT)
    | some n => .ok n
    | none => .error (.pathError "stat" (render p) Errno.ENOENT)

/-- Go `FileInfo.Size`; `dirSize` is what the filesystem reports for an
ordinary directory (a link without target is never reported by `os.Stat`). -/
def Node.size (dirSize : Nat) : Node → Nat
  | .file _ sz => sz
  | .dirWith a => a.size
  | _ => dirSize

/-- Whether the process may make, remove and rename entries in the directory
that holds the path `p`. -/
def parentWritable (fs : FS) (p : Path) : Bool :=
  match nodeAt fs p.dropLast with
  | some nd => nd.canWrite
  | none => false

/-- Go `os.Mkdir`. -/
def Mkdir (fs : FS) (p : Path) : Except GoErr FS :=
  match ancestorErr fs [] p with
  | some e => .error (.pathError "mkdir" (render p) e)
  | none =>
    match nodeAt fs p with
    | some _ => .error (.pathError "mkdir" (render p) Errno.EEXIST)
    | none =>
      if parentWritable fs p then .ok ((p, Node.dir) :: fs)
      else .error (.pathError "mkdir" (render p) Errno.EACCES)

/-- Body of Go `os.MkdirAll`; the list holds the path, then its parent, and so
on up to the first component. -/
def mkdirAllOn (fs : FS) : List Path → Except GoErr FS
  | [] => .ok fs
  | p :: parents =>
    match Stat fs p with
    | .ok nd =>
      if nd.isDir then .ok fs
      else .error (.pathError "mkdir" (render p) Errno.ENOTDIR)
    | .error _ =>
      match mkdirAllOn fs parents with
      | .error e => .error e
      | .ok fs1 =>
        match Mkdir fs1 p with
        | .ok fs2 => .ok fs2
        | .error e =>
          match Lstat fs1 p with
          | .ok nd => if nd.isDir then .ok fs1 else .error e
          | .error _ => .error e

/-- Go `os.MkdirAll`. -/
def MkdirAll (fs : FS) (p : Path) : Except GoErr FS :=
  mkdirAllOn fs p.inits.reverse.dropLast

/-- The filesystem after the subtree at `old` has been moved to `new`. -/
def moveKeys (fs : FS) (old new : Path) : FS :=
  (fs.filterMap fun e =>
      if old.isPrefixOf e.1 then some (new ++ e.1.drop old.length, e.2) else none)
    ++ fs.filter fun e => !(old.isPrefixOf e.1) && !(new.isPrefixOf e.1)

/-- The mount point whose filesystem holds the entries of the directory `d`:
the longest path at or above `d` on which a filesystem is mounted, the working
directory if there is none. -/
def mountOf (fs : FS) (d : Path) : Path :=
  (d.inits.reverse.find? fun q =>
    match nodeAt fs q with
    | some nd => nd.isMount
    | none => false).getD []

/-- The system call `rename(2)`: the directories above both paths are resolved
and must be on one filesystem; the entry must exist; renaming it to itself
does nothing; a directory cannot go below itself; both parent directories must
be writable; a directory replaces nothing but a directory (and none is left as
target by `Rename`); a directory that changes its parent must be writable; a
mount point stays where it is. -/
def renameat (fs : FS) (old new : Path) : Except Errno FS :=
  match ancestorErr fs [] old with
  | some e => .error e
  | none =>
    match ancestorErr fs [] new with
    | some e => .error e
    | none =>
      if mountOf fs old.dropLast ≠ mountOf fs new.dropLast then .error Errno.EXDEV
      else
        match nodeAt fs old with
        | none => .error Errno.ENOENT
        | some nd =>
          if old = new then .ok fs
          else if old.isPrefixOf new then .error Errno.EINVAL
          else if !(parentWritable fs old && parentWritable fs new) then
            .error Errno.EACCES
          else if nd.isDir && (nodeAt fs new).isSome then .error Errno.ENOTDIR
          else if nd.isDir && !nd.canWrite && decide (old.dropLast ≠ new.dropLast) then
            .error Errno.EACCES
          else if nd.isMount then .error Errno.EBUSY
          else .ok (moveKeys fs old new)

/-- Go `os.Rename` on Unix: the check that refuses an existing directory as
target, then `rename(2)`. -/
def Rename (fs : FS) (old new : Path) : Except GoErr FS :=
  let fail : Errno → Except GoErr FS := fun e =>
    .error (.linkError "rename" (render old) (render new) e)
  match Lstat fs new with
  | .ok nd =>
    if nd.isDir then
      match Lstat fs old with
      | .error e => fail e.errno
      | .ok _ => fail Errno.EEXIST
    else
      match renameat fs old new with
      | .error e => fail e
      | .ok fs2 => .ok fs2
  | .error _ =>
    match renameat fs old new with
    | .error e => fail e
    | .ok fs2 => .ok fs2

/-- Byte order of strings, as used by Go `sort.Strings`. -/
def charsLE : List Char → List Char → Bool
  | [], _ => true
  | _ :: _, [] => false
  | a :: as, b :: bs =>
    if a.toNat < b.toNat then true
    else if b.toNat < a.toNat then false
    else charsLE as bs

/-- Insertion of a name into a sorted list of names. -/
def insertName (x : String) : List String → List String
  | [] => [x]
  | y :: ys => if charsLE x.data y.data then x :: y :: ys else y :: insertName x ys

/-- Go `sort.Strings`. -/
def sortNames : List String → List String
  | [] => []
  | x :: xs => insertName x (sortNames xs)

/-- The name under which an entry appears in directory `dir`, if it does. -/
def childName (dir : Path) (e : Path × Node) : Option String :=
  if e.1 ≠ [] ∧ e.1.dropLast = dir then e.1.getLast? else none

/-- The function `readDirNames` of `path/filepath`: the sorted names of the
entries of a directory. -/
def readDirNames (fs : FS) (dir : Path) : Except GoErr (List String) :=
  match Stat fs dir with
  | .error e => .error (.pathError "open" (render dir) e.errno)
  | .ok nd =>
    if nd.isDir then
      if nd.canRead then .ok (sortNames (fs.filterMap (childName dir)).dedup)
      else .error (.pathError "open" (render dir) Errno.EACCES)
    else .error (.pathError "readdirent" (render dir) Errno.ENOTDIR)

/-! ## The organizer -/

/-- Source `FileStats`.  `Count` is a Go `int`, incremented once per moved
entry; `TotalSize` is an `int64` and is kept in range by `wrapInt64`. -/
structure FileStats where
  Count : Nat
  TotalSize : Int
  deriving DecidableEq, Repr

/-- Two-complement wrap-around of 64-bit signed arithmetic. -/
def wrapInt64 (x : Int) : Int :=
  (x + 2 ^ 63) % 2 ^ 64 - 2 ^ 63

/-- Assignment `m[key] = v` in a map represented as an association list. -/
def mapSet {V : Type} : List (String × V) → String → V → List (String × V)
  | [], key, v => [(key, v)]
  | (k, x) :: rest, key, v =>
    if k = key then (k, v) :: rest else (k, x) :: mapSet rest key v

/-- Source `FileOrganizer` together with the world it acts on: the filesystem
(with the size it reports for directories), the lines written to the log file
and to standard output, and the clock. -/
structure State where
  sourceDir : Path
  rulesMap : List (String × String)
  processedFiles : Nat
  statistics : List (String × FileStats)
  fs : FS
  dirSize : Nat
  log : List String
  stdout : List String
  clock : Nat → Time
  ticks : Nat

/-- Source `NewFileOrganizer`, started in a given world. -/
def NewFileOrganizer (sourceDir : Path) (fs : FS) (dirSize : Nat) (log : List String)
    (clock : Nat → Time) : State :=
  { sourceDir := sourceDir
    rulesMap := DefaultRules
    processedFiles := 0
    statistics := []
    fs := fs
    dirSize := dirSize
    log := log
    stdout := []
    clock := clock
    ticks := 0 }

/-- The log file that `main` opens (line 249): `organizer.log` in the working
directory.  What the run appends to it is the field `log` of the state; the
filesystem `fs` holds no content of it, so a statement that an entry of `fs`
is as it was is made for paths other than this one. -/
def logFile : Path := ["organizer.log"]

/-- One line of `log.Printf`: the text without the line end. -/
def logLine (text : String) : String :=
  if text.data.getLast? = some '\n' then ⟨text.data.dropLast⟩ else text

/-- Source `logSuccess`. -/
def logSuccess (fo : State) (message : String) : State :=
  { fo with log := fo.log ++ [logLine ("[SUCCESS] " ++ message)] }

/-- Source `logError`. -/
def logError (fo : State) (message : String) : State :=
  { fo with log := fo.log ++ [logLine ("[ERROR] " ++ message)] }

/-- Source `dirExists`.  When `os.Stat` fails with an error other than
"does not exist" the source calls `IsDir` on a nil `FileInfo`, which is a
run-time panic: the result is `none` then. -/
def dirExists (fs : FS) (path : Path) : Option Bool :=
  match Stat fs path with
  | .error e => if isNotExist e then some false else none
  | .ok info => some info.isDir

/-- Source `fileExists`. -/
def fileExists (fs : FS) (path : Path) : Bool :=
  match Stat fs path with
  | .error _ => false
  | .ok _ => true

/-- How a call ends: with a nil error, with an error value, or in a panic. -/
inductive Res where
  | nil
  | err (e : GoErr)
  | panic
  deriving DecidableEq, Repr

/-- Lines 116 to 122 of `moveFile`: the destination, and whether the clock was
read for it; `now` is what `time.Now()` returns. -/
def destination (fs : FS) (now : Time) (sourcePath targetDir : Path) : Path × Bool :=
  let newPath := filepathJoin targetDir (filepathBase (render sourcePath))
  if fileExists fs newPath then
    (filepathJoin targetDir (generateNewFileName (render sourcePath) now), true)
  else (newPath, false)

/-- Source `moveFile`. -/
def moveFile (fo : State) (sourcePath targetDir : Path) : State × Res :=
  let fo := { fo with stdout := fo.stdout ++ [render targetDir] }
  match dirExists fo.fs targetDir with
  | none => (fo, Res.panic)
  | some hasTargetDir =>
    match (if hasTargetDir = false then MkdirAll fo.fs targetDir else .ok fo.fs) with
    | .error err => (logError fo err.Error, Res.err err)
    | .ok fs1 =>
      let fo := { fo with fs := fs1 }
      let dest := destination fo.fs (fo.clock fo.ticks) sourcePath targetDir
      let newPath := dest.1
      let fo := if dest.2 then { fo with ticks := fo.ticks + 1 } else fo
      let fo := logSuccess fo ("Исходный файл: " ++ render sourcePath)
      let fo := logSuccess fo ("Целевая директория: " ++ render targetDir)
      match Rename fo.fs sourcePath newPath with
      | .error err => (logError fo err.Error, Res.err err)
      | .ok fs2 =>
        let fo := { fo with fs := fs2 }
        let key := filepathExt (render newPath)
        let found := mapGet fo.statistics key
        let stats := found.getD ⟨0, 0⟩
        let fo := if found.isSome then fo
          else { fo with statistics := mapSet fo.statistics key stats }
        match Stat fo.fs newPath with
        | .error e =>
          (logError fo ("Ошибка получение информации о файле: " ++ render newPath),
            Res.err e)
        | .ok fileInfo =>
          let stats : FileStats :=
            ⟨stats.Count + 1, wrapInt64 (stats.TotalSize + fileInfo.size fo.dirSize)⟩
          let fo := { fo with statistics := mapSet fo.statistics key stats }
          (logSuccess fo ("Результат: " ++ render newPath), Res.nil)

/-- What `showStats` prints: the two totals and, for every key of the
statistics map, the label, the count and the size in bytes.  The conversion
to megabytes with one decimal is not modelled; Go iterates a map in no fixed
order, the model takes the order of the list. -/
structure Report where
  totalFiles : Nat
  totalSize : Int
  byExtension : List (String × Nat × Int)
  deriving DecidableEq, Repr

/-- Source `showStats`. -/
def showStats (fo : State) : Report :=
  { totalFiles := (fo.statistics.map fun kv => kv.2.Count).sum
    totalSize := fo.statistics.foldl (fun acc kv => wrapInt64 (acc + kv.2.TotalSize)) 0
    byExtension := fo.statistics.map fun kv =>
      ((mapGet DefaultRules kv.1).getD "", kv.2.Count, kv.2.TotalSize) }

/-- The function literal that `Organize` passes to `filepath.Walk`. -/
def organizeFn (fo : State) (path : Path) (_pathinfo : Option Node)
    (er : Option GoErr) : State × Res :=
  match er with
  | some e =>
    (logError fo ("Ошибка доступа к " ++ render path ++ ": " ++ e.Error ++ "\n"), Res.nil)
  | none =>
    match mapGet DefaultRules (filepathExt (render path)) with
    | some dir =>
      let dir := filepathJoin fo.sourceDir dir
      match moveFile fo path dir with
      | (fo1, Res.err err) => (logError fo1 err.Error, Res.err err)
      | (fo1, r) => (fo1, r)
    | none => (fo, Res.nil)

/-- The type of a walk function. -/
abbrev WalkFn := State → Path → Option Node → Option GoErr → State × Res

/-- The test `if err != nil { return err }` of the walk: after a nil error the
walk goes on with `next`, any other result ends it.  `none` is a walk that
ran out of recursion depth. -/
def onNil : Option (State × Res) → (State → Option (State × Res)) →
    Option (State × Res)
  | none, _ => none
  | some (fo, Res.nil), next => next fo
  | some (fo, r), _ => some (fo, r)

/-- The loop over the names of a directory in `walk` of `path/filepath`;
`descend` is the recursive call. -/
def walkNames (fn : WalkFn) (descend : Path → Node → State → Option (State × Res))
    (path : Path) : List String → State → Option (State × Res)
  | [], fo => some (fo, Res.nil)
  | name :: rest, fo =>
    let filename := path ++ [name]
    match Lstat fo.fs filename with
    | .error e =>
      onNil (some (fn fo filename none (some e))) (walkNames fn descend path rest)
    | .ok fileInfo =>
      onNil (descend filename fileInfo fo) (walkNames fn descend path rest)

/-- The function `walk` of `path/filepath`.  The first argument bounds the
depth of the recursion; `none` means the bound was too small. -/
def walk (fn : WalkFn) : Nat → Path → Node → State → Option (State × Res)
  | 0, _, _, _ => none
  | fuel + 1, path, info, fo =>
    if !info.isDir then some (fn fo path (some info) none)
    else
      match readDirNames fo.fs path with
      | .error e => some (fn fo path (some info) (some e))
      | .ok names =>
        onNil (some (fn fo path (some info) none)) (walkNames fn (walk fn fuel) path names)

/-- Go `filepath.Walk`. -/
def Walk (fn : WalkFn) (fuel : Nat) (root : Path) (fo : State) : Option (State × Res) :=
  match Lstat fo.fs root with
  | .error e => some (fn fo root none (some e))
  | .ok info => walk fn fuel root info fo

/-- Source `Organize`: the walk, then the report, then the error of the walk.
A panic ends the process before the report. -/
def Organize (fuel : Nat) (fo : State) : Option (State × Res × Option Report) :=
  match Walk organizeFn fuel fo.sourceDir fo with
  | none => none
  | some (fo1, Res.panic) => some (fo1, Res.panic, none)
  | some (fo1, r) => some (fo1, r, some (showStats fo1))

/-! ## Vocabulary of the statements -/

/-- The shape of an extension: empty, or a dot followed by characters that are
neither dots nor slashes. -/
def IsExt (e : List Char) : Prop :=
  e = [] ∨ ∃ tail, e = '.' :: tail ∧ ∀ c ∈ tail, c ≠ '.' ∧ c ≠ '/'

/-- The filesystem in which `moveFile` goes on after lines 104 to 114: the
target directory was there, or `os.MkdirAll` made it. -/
def Prepared (fs : FS) (targetDir : Path) (fs1 : FS) : Prop :=
  (dirExists fs targetDir = some true ∧ fs1 = fs) ∨
  (dirExists fs targetDir = some false ∧ MkdirAll fs targetDir = .ok fs1)

/-- The state in which `moveFile` calls `os.Rename`, the target directory being
present in `fs1`. -/
def beforeRename (fo : State) (fs1 : FS) (sourcePath targetDir : Path) : State :=
  { fo with
    stdout := fo.stdout ++ [render targetDir]
    fs := fs1
    ticks := if (destination fs1 (fo.clock fo.ticks) sourcePath targetDir).2
      then fo.ticks + 1 else fo.ticks
    log := fo.log ++ [logLine ("[SUCCESS] " ++ ("Исходный файл: " ++ render sourcePath)),
      logLine ("[SUCCESS] " ++ ("Целевая директория: " ++ render targetDir))] }

/-- The statistics map after lines 136 to 141: the entry for `key` is there. -/
def withEntry (m : List (String × FileStats)) (key : String) : List (String × FileStats) :=
  if (mapGet m key).isSome then m else mapSet m key ⟨0, 0⟩

/-- The statistics map after a move to a path with extension `key` of an entry
of `size` bytes. -/
def bump (m : List (String × FileStats)) (key : String) (size : Nat) :
    List (String × FileStats) :=
  mapSet m key ⟨((mapGet m key).getD ⟨0, 0⟩).Count + 1,
    wrapInt64 (((mapGet m key).getD ⟨0, 0⟩).TotalSize + size)⟩

/-- One call of the walk function: the state before, the arguments, the state
after and the result. -/
structure Event where
  pre : State
  path : Path
  info : Option Node
  er : Option GoErr
  post : State
  res : Res

/-- A run of calls of the walk function `fn`, each starting in the state the
call before it left, each but the last returning a nil error. -/
inductive Run (fn : WalkFn) : State → List Event → State → Res → Prop
  | start (s : State) : Run fn s [] s Res.nil
  | call {s s1 s2 : State} {evs : List Event} {p : Path} {i : Option Node}
      {er : Option GoErr} {r : Res} :
      Run fn s evs s1 Res.nil → fn s1 p i er = (s2, r) →
      Run fn s (evs ++ [⟨s1, p, i, er, s2, r⟩]) s2 r

/-- The call moved its entry: no traversal error, an extension of the rule
table, a nil result. -/
def Event.moved (ev : Event) : Bool :=
  ev.er.isNone && (mapGet DefaultRules (filepathExt (render ev.path))).isSome &&
    decide (ev.res = Res.nil)

/-- The path the mover renames to when called in state `fo`, if it gets that
far. -/
def moveTarget (fo : State) (sourcePath targetDir : Path) : Option Path :=
  match dirExists fo.fs targetDir with
  | none => none
  | some true => some (destination fo.fs (fo.clock fo.ticks) sourcePath targetDir).1
  | some false =>
    match MkdirAll fo.fs targetDir with
    | .error _ => none
    | .ok fs1 => some (destination fs1 (fo.clock fo.ticks) sourcePath targetDir).1

/-- The final destination of the entry a call moved. -/
def Event.dest (ev : Event) : Option Path :=
  match mapGet DefaultRules (filepathExt (render ev.path)) with
  | none => none
  | some c => moveTarget ev.pre ev.path (filepathJoin ev.pre.sourceDir c)

/-- The size `os.Stat` reports for the moved entry at its destination, in the
state the call left. -/
def Event.postSize (ev : Event) : Nat :=
  match ev.dest with
  | none => 0
  | some newPath =>
    match Stat ev.post.fs newPath with
    | .error _ => 0
    | .ok nd => nd.size ev.pre.dirSize

/-- Sum of the counts of all entries of the statistics map. -/
def sumCount (m : List (String × FileStats)) : Nat :=
  (m.map fun kv => kv.2.Count).sum

/-- Sum of the total sizes of all entries of the statistics map. -/
def sumSize (m : List (String × FileStats)) : Int :=
  (m.map fun kv => kv.2.TotalSize).sum

/-- The sizes of the entries moved by the calls of a run, in order. -/
def movedSizes (evs : List Event) : List Nat :=
  (evs.filter Event.moved).map Event.postSize

/-- All totals of the map are at least zero. -/
def NonNeg (m : List (String × FileStats)) : Prop :=
  ∀ kv ∈ m, 0 ≤ kv.2.TotalSize

/-- Filesystem `fs1` keeps every node of `fs`. -/
def Keeps (fs fs1 : FS) : Prop :=
  ∀ q n, nodeAt fs q = some n → nodeAt fs1 q = some n

/-- A run all of whose calls are for paths at or below `root`. -/
def RunUnder (fn : WalkFn) (root : Path) (s s2 : State) (r : Res) : Prop :=
  ∃ evs, Run fn s evs s2 r ∧ ∀ ev ∈ evs, root <+: ev.path

/-- Whether a path lies strictly below `root` and its first component below
`root` has an extension of the rule table. -/
def topMatched (root k : Path) : Bool :=
  root.isPrefixOf k &&
    match k.drop root.length with
    | [] => false
    | x :: _ => (mapGet DefaultRules (filepathExt x)).isSome

/-- The depth a path has or can still get: its length, and one more when the
walk can move it into a category directory. -/
def weight (root k : Path) : Nat :=
  k.length + (if topMatched root k then 1 else 0)

/-- Every path of the filesystem has weight at most `bound`. -/
def Bounded (root : Path) (bound : Nat) (fs : FS) : Prop :=
  ∀ k n, lookupEntry fs k = some n → weight root k ≤ bound

/-- A bound on the weight of the paths of a filesystem. -/
def depthBound (root : Path) (fs : FS) : Nat :=
  (fs.map fun e => weight root e.1).foldr max (root.length + 1)

/-- The state of a walk that is known to return: the source directory, the
bound on the weights. -/
def WalkInv (root : Path) (bound : Nat) (s : State) : Prop :=
  s.sourceDir = root ∧ Bounded root bound s.fs

/-- The call renamed its entry onto a path that held an entry already. -/
def Event.replaces (ev : Event) : Prop :=
  ev.moved = true ∧ ∃ d, ev.dest = some d ∧ nodeAt ev.pre.fs d ≠ none

/-- The node `F` is at path `L` and nowhere else. -/
def Track (F : Node) (fs : FS) (L : Path) : Prop :=
  nodeAt fs L = some F ∧ ∀ k, nodeAt fs k = some F → k = L

/-- The name `nm` comes from the file name `n` by collision renaming: not at
all, once, or several times. -/
inductive Stamped (n : String) : String → Prop
  | base : Stamped n n
  | again {nm : String} (t : Time) : Stamped n nm → Stamped n (generateNewFileName nm t)

/-- The file `F` is still at its path `f`, below directories, and nowhere
else. -/
def Intact (root f : Path) (F : Node) (s : State) : Prop :=
  s.sourceDir = root ∧ Track F s.fs f ∧
  ∀ d, d <+: f → d ≠ f → ∃ nd, nodeAt s.fs d = some nd ∧ nd.isDir = true

/-- The file `F`, which started as `q/n`, is in the category directory
`root/c`, reachable, under a name that comes from `n` by collision renaming,
and nowhere else; in particular it is not at `q/n`. -/
def Home (root q : Path) (n c : String) (F : Node) (s : State) : Prop :=
  s.sourceDir = root ∧
  ∃ nm, Lstat s.fs (root ++ [c] ++ [nm]) = .ok F ∧ Track F s.fs (root ++ [c] ++ [nm]) ∧
    Stamped n nm ∧ (q ≠ root ++ [c] ∨ nm ≠ n)

/-- The call was made for a traversal error, or it renamed its entry onto a
path that held an entry already. -/
def Event.bad (ev : Event) : Prop :=
  ev.er ≠ none ∨ ev.replaces

instance (ev : Event) : Decidable ev.replaces :=
  decidable_of_iff (ev.moved = true ∧ (ev.dest.bind (nodeAt ev.pre.fs)).isSome = true) (by
    unfold Event.replaces
    cases ev.dest with
    | none => simp
    | some d => simp [Option.isSome_iff_ne_none])

/-- The record of one call of the walk function. -/
def callEvent (fn : WalkFn) (fo : State) (p : Path) (i : Option Node)
    (er : Option GoErr) : Event :=
  ⟨fo, p, i, er, (fn fo p i er).1, (fn fo p i er).2⟩

/-- The calls that follow a part of the walk: those of `next` after a nil
error, none otherwise. -/
def thenCalls (x : Option (State × Res)) (next : State → List Event) : List Event :=
  match x with
  | some (fo, Res.nil) => next fo
  | _ => []

/-- The calls of the walk function that `walkNames` makes, in order;
`descendCalls` gives the calls of the recursive call. -/
def walkNamesCalls (fn : WalkFn) (descend : Path → Node → State → Option (State × Res))
    (descendCalls : Path → Node → State → List Event) (path : Path) :
    List String → State → List Event
  | [], _ => []
  | name :: rest, fo =>
    let filename := path ++ [name]
    match Lstat fo.fs filename with
    | .error e =>
      callEvent fn fo filename none (some e) ::
        thenCalls (some (fn fo filename none (some e)))
          (walkNamesCalls fn descend descendCalls path rest)
    | .ok fileInfo =>
      descendCalls filename fileInfo fo ++
        thenCalls (descend filename fileInfo fo)
          (walkNamesCalls fn descend descendCalls path rest)

/-- The calls of the walk function that `walk` makes, in order. -/
def walkCalls (fn : WalkFn) : Nat → Path → Node → State → List Event
  | 0, _, _, _ => []
  | fuel + 1, path, info, fo =>
    if !info.isDir then [callEvent fn fo path (some info) none]
    else
      match readDirNames fo.fs path with
      | .error e => [callEvent fn fo path (some info) (some e)]
      | .ok names =>
        callEvent fn fo path (some info) none ::
          thenCalls (some (fn fo path (some info) none))
            (walkNamesCalls fn (walk fn fuel) (walkCalls fn fuel) path names)

/-- The calls of the walk function that `filepath.Walk` makes, in order. -/
def WalkCalls (fn : WalkFn) (fuel : Nat) (root : Path) (fo : State) : List Event :=
  match Lstat fo.fs root with
  | .error e => [callEvent fn fo root none (some e)]
  | .ok info => walkCalls fn fuel root info fo

/-- The calls of the walk function in a run of `Organize`, in order. -/
def OrganizeCalls (fuel : Nat) (fo : State) : List Event :=
  WalkCalls organizeFn fuel fo.sourceDir fo

/-- The calls `evs` are a run of the walk function from `s` to `s2` with the
result `r`, all for paths at or below `root`. -/
def Calls (fn : WalkFn) (root : Path) (s : State) (evs : List Event) (s2 : State)
    (r : Res) : Prop :=
  Run fn s evs s2 r ∧ ∀ ev ∈ evs, root <+: ev.path

/-- The calls `evs` are a run of the walk function from `s` to `s2`, all for
paths at or below `root` and all returning nil, in which a call was made for a
traversal error or renamed onto an existing entry, or which ends in a state
with the property `G`. -/
def Ends (root : Path) (G : State → Prop) (s : State) (evs : List Event) (s2 : State) :
    Prop :=
  Calls organizeFn root s evs s2 Res.nil ∧ ((∃ ev ∈ evs, ev.bad) ∨ G s2)

/-! ## Example worlds -/

/-- A clock that stays within one second, 2024-01-15 14:30:22. -/
def oneSecond : Nat → Time :=
  fun _ => ⟨2024, 1, 15, 14, 30, 22⟩

/-- A source directory `r` with three pictures of 100, 200 and 300 bytes. -/
def threePictures : FS :=
  [ (["r"], Node.dir), (["r", "a.jpg"], Node.file 1 100),
    (["r", "b.jpg"], Node.file 2 200), (["r", "c.jpg"], Node.file 3 300) ]

/-- A source directory `r` that holds a picture name pointing nowhere. -/
def danglingPicture : FS :=
  [ (["r"], Node.dir), (["r", "l.jpg"], Node.brokenLink) ]

/-- A source directory `r` with a picture and a file of notes. -/
def pictureAndNotes : FS :=
  [ (["r"], Node.dir), (["r", "a.jpg"], Node.file 1 100),
    (["r", "notes.md"], Node.file 2 50) ]

/-- A source directory `r` with a directory named `p.zip` that holds a file
`readme.md`. -/
def zipFolder : FS :=
  [ (["r"], Node.dir), (["r", "p.zip"], Node.dir),
    (["r", "p.zip", "readme.md"], Node.file 7 10) ]

/-- A source directory `r` with a file of notes and a directory `b` that holds
a picture. -/
def pictureBelow : FS :=
  [ (["r"], Node.dir), (["r", "b"], Node.dir), (["r", "b", "a.jpg"], Node.file 2 200),
    (["r", "notes.md"], Node.file 5 50) ]

/-- A source directory `r` with a directory `private` that may be passed
through and written to but not listed (mode 0300), and a picture in it. -/
def privatePicture : FS :=
  [ (["r"], Node.dir), (["r", "private"], Node.dirWith ⟨4096, false, true, true, false⟩),
    (["r", "private", "a.jpg"], Node.file 4 40) ]

/-- A source directory `r` with three pictures of the same name `a.jpg`, one
in `r` itself and one in each of the directories `b` and `c`. -/
def sameNames : FS :=
  [ (["r"], Node.dir), (["r", "a.jpg"], Node.file 1 100),
    (["r", "b"], Node.dir), (["r", "b", "a.jpg"], Node.file 2 200),
    (["r", "c"], Node.dir), (["r", "c", "a.jpg"], Node.file 3 300) ]

/-- A source directory `r` with two pictures of the same name `a.jpg`, one in
`r` itself and one in the directory `b`. -/
def twoNames : FS :=
  [ (["r"], Node.dir), (["r", "a.jpg"], Node.file 1 100),
    (["r", "b"], Node.dir), (["r", "b", "a.jpg"], Node.file 2 200) ]

/-- Whether a line of the log is an ERROR line. -/
def isErrorLine (line : String) : Bool :=
  "[ERROR]".data.isPrefixOf line.data

/-- A source directory `r` with two pictures of the name `a.jpg`, one in `r`
and one in the directory `b`, and a picture whose name is the collision name
of `a.jpg` at 2024-01-15 14:30:22. -/
def stampTaken : FS :=
  [ (["r"], Node.dir), (["r", "a.jpg"], Node.file 1 100),
    (["r", "a_20240115_143022.jpg"], Node.file 3 300),
    (["r", "b"], Node.dir), (["r", "b", "a.jpg"], Node.file 2 200) ]

/-- A source directory `r` after a run: a picture in `r/Images`, and a picture
of the same name still in the directory `b`. -/
def oneMoved : FS :=
  [ (["r", "Images", "a.jpg"], Node.file 1 100), (["r", "Images"], Node.dir),
    (["r"], Node.dir), (["r", "b"], Node.dir), (["r", "b", "a.jpg"], Node.file 2 200) ]

/-- A clock that stays within one second, 2024-01-15 14:31:07. -/
def oneSecondLater : Nat → Time :=
  fun _ => ⟨2024, 1, 15, 14, 31, 7⟩

/-- The filesystem that the run over `threePictures` leaves. -/
def threeMoved : FS :=
  [ (["r", "Images", "c.jpg"], Node.file 3 300), (["r", "Images", "b.jpg"], Node.file 2 200),
    (["r", "Images", "a.jpg"], Node.file 1 100), (["r", "Images"], Node.dir),
    (["r"], Node.dir) ]

/-- A source directory `r` that holds the category directory `Images` already,
and one picture `A.jpg`, whose name sorts before `Images`. -/
def visitedTwice : FS :=
  [ (["r"], Node.dir), (["r", "Images"], Node.dir), (["r", "A.jpg"], Node.file 1 100) ]

/-- A source directory `r` with two pictures, of 2^63 - 1 bytes (the largest
size an `int64` holds) and of 1 byte. -/
def hugePictures : FS :=
  [ (["r"], Node.dir), (["r", "a.jpg"], Node.file 1 (2 ^ 63 - 1)),
    (["r", "b.jpg"], Node.file 2 1) ]

/-- A source directory `r` with two directories whose names have extensions of
the rule table and for which `os.Stat` reports the sizes 100 and 60. -/
def sizedFolders : FS :=
  [ (["r"], Node.dir), (["r", "x.rar"], Node.dirWith ⟨100, true, true, true, false⟩),
    (["r", "y.zip"], Node.dirWith ⟨60, true, true, true, false⟩) ]

/-- A source directory `r` with a picture, and with another filesystem mounted
on `r/Images`. -/
def mountedImages : FS :=
  [ (["r"], Node.dir), (["r", "Images"], Node.dirWith ⟨4096, true, true, true, true⟩),
    (["r", "a.jpg"], Node.file 1 100) ]

/-- A source directory `r` with a picture in a directory `b` that may be
listed and passed through but not written. -/
def lockedFolder : FS :=
  [ (["r"], Node.dir), (["r", "b"], Node.dirWith ⟨4096, true, false, true, false⟩),
    (["r", "b", "a.jpg"], Node.file 1 100) ]

/-! ## Lemmas on maps -/

theorem mapGet_eq_none {V : Type} (m : List (String × V)) (key : String) :
    mapGet m key = none ↔ key ∉ m.map Prod.fst := by
  induction m with
  | nil => simp [mapGet]
  | cons kv rest ih =>
    obtain ⟨k, v⟩ := kv
    by_cases h : k = key
    · simp [mapGet, h]
    · simp [mapGet, h, ih, Ne.symm h]

theorem mapGet_eq_some {V : Type} (m : List (String × V)) (key : String) (v : V)
    (hnd : (m.map Prod.fst).Nodup) :
    mapGet m key = some v ↔ (key, v) ∈ m := by
  induction m with
  | nil => simp [mapGet]
  | cons kv rest ih =>
    obtain ⟨k, x⟩ := kv
    simp only [List.map_cons, List.nodup_cons] at hnd
    by_cases h : k = key
    · subst h
      simp only [mapGet, if_true, List.mem_cons, Prod.mk.injEq, true_and, Option.some.injEq]
      constructor
      · intro hx; exact Or.inl hx.symm
      · rintro (hx | hx)
        · exact hx.symm
        · exact absurd (List.mem_map_of_mem Prod.fst hx) hnd.1
    · simp only [mapGet, if_neg h, List.mem_cons, Prod.mk.injEq, ih hnd.2]
      constructor
      · intro hx; exact Or.inr hx
      · rintro (hx | hx)
        · exact absurd hx.1.symm h
        · exact hx

theorem rules_nodup : (DefaultRules.map Prod.fst).Nodup := by decide

/-! ## Lemmas on extensions and base names -/

/-- The scan never looks past a slash. -/
theorem extScan_append_slash (n xs acc : List Char) :
    extScan (n ++ '/' :: xs) acc = extScan n acc := by
  induction n generalizing acc with
  | nil => simp [extScan]
  | cons c n ih =>
    simp only [List.cons_append, extScan]
    split_ifs
    · rfl
    · rfl
    · exact ih _

/-- What the scan returns: nothing, or the dot it stopped at followed by the
characters passed before. -/
theorem extScan_cases (rev acc : List Char) :
    (extScan rev acc = [] ∧ (∀ c ∈ rev, c ≠ '/') → ∀ c ∈ rev, c ≠ '.') ∧
    (extScan rev acc = [] ∨
      ∃ pre rest, rev = pre ++ '.' :: rest ∧ (∀ c ∈ pre, c ≠ '.' ∧ c ≠ '/') ∧
        extScan rev acc = '.' :: (pre.reverse ++ acc)) := by
  induction rev generalizing acc with
  | nil => simp [extScan]
  | cons c rev ih =>
    by_cases h1 : c = '/'
    · subst h1
      refine ⟨?_, Or.inl (by simp [extScan])⟩
      rintro ⟨-, h⟩
      exact absurd rfl (h '/' (List.mem_cons_self _ _))
    · by_cases h2 : c = '.'
      · subst h2
        refine ⟨?_, Or.inr ⟨[], rev, rfl, by simp, by simp [extScan]⟩⟩
        rintro ⟨h, -⟩
        simp [extScan] at h
      · have hstep : extScan (c :: rev) acc = extScan rev (c :: acc) := by
          simp [extScan, h1, h2]
        obtain ⟨ih1, ih2⟩ := ih (c :: acc)
        refine ⟨?_, ?_⟩
        · rintro ⟨h, hs⟩ d hd
          rcases List.mem_cons.1 hd with rfl | hd
          · exact h2
          · exact ih1 ⟨hstep ▸ h, fun x hx => hs x (List.mem_cons_of_mem _ hx)⟩ d hd
        · rcases ih2 with h | ⟨pre, rest, hrev, hpre, hres⟩
          · exact Or.inl (hstep.trans h)
          · refine Or.inr ⟨c :: pre, rest, by simp [hrev], ?_, ?_⟩
            · intro d hd
              rcases List.mem_cons.1 hd with rfl | hd
              · exact ⟨h2, h1⟩
              · exact hpre d hd
            · rw [hstep, hres]; simp

/-- The extension is a suffix of the string, of the shape `IsExt`. -/
theorem filepathExt_suffix (s : String) :
    ∃ stem, s.data = stem ++ (filepathExt s).data ∧ IsExt (filepathExt s).data := by
  rcases (extScan_cases s.data.reverse []).2 with h | ⟨pre, rest, hrev, hpre, hres⟩
  · exact ⟨s.data, by simp [filepathExt, h], Or.inl (by simp [filepathExt, h])⟩
  · refine ⟨rest.reverse, ?_, Or.inr ⟨pre.reverse, ?_, ?_⟩⟩
    · have := congrArg List.reverse hrev
      simp only [List.reverse_reverse, List.reverse_append, List.reverse_cons,
        List.append_assoc, List.singleton_append] at this
      simp only [filepathExt, hres, List.append_nil]
      exact this
    · simp [filepathExt, hres]
    · intro c hc
      exact hpre c (List.mem_reverse.1 hc)

/-- A string that ends in something of extension shape has that extension. -/
theorem filepathExt_append (x tail : List Char) (h : ∀ c ∈ tail, c ≠ '.' ∧ c ≠ '/') :
    filepathExt ⟨x ++ '.' :: tail⟩ = ⟨'.' :: tail⟩ := by
  have key : ∀ (t acc rest : List Char), (∀ c ∈ t, c ≠ '.' ∧ c ≠ '/') →
      extScan (t ++ '.' :: rest) acc = '.' :: (t.reverse ++ acc) := by
    intro t
    induction t with
    | nil => intro acc rest _; simp [extScan]
    | cons c t ih =>
      intro acc rest ht
      have hc := ht c (List.mem_cons_self _ _)
      have hstep : extScan (c :: t ++ '.' :: rest) acc = extScan (t ++ '.' :: rest) (c :: acc) := by
        simp only [List.cons_append, extScan, if_neg hc.2, if_neg hc.1]
        rfl
      rw [hstep, ih _ _ (fun d hd => ht d (List.mem_cons_of_mem _ hd))]
      simp
  have := key tail.reverse [] x.reverse (fun c hc => h c (List.mem_reverse.1 hc))
  simp only [filepathExt, List.reverse_append, List.reverse_cons, List.append_assoc,
    List.singleton_append]
  rw [this]
  simp

/-- Trimming a suffix that is there removes it. -/
theorem trimSuffix_append (stem e : List Char) :
    trimSuffix ⟨stem ++ e⟩ ⟨e⟩ = ⟨stem⟩ := by
  have hs : e.isSuffixOf (stem ++ e) = true := by
    rw [ List.isSuffixOf_iff_suffix]
    exact List.suffix_append _ _
  simp [trimSuffix, hs]

/-- The new name is the stem, an underscore, the time stamp and the extension. -/
theorem generateNewFileName_eq (path : String) (now : Time) :
    ∃ stem, (filepathBase path).data = stem ++ (filepathExt (filepathBase path)).data ∧
      (generateNewFileName path now).data =
        stem ++ '_' :: (formatStamp now).data ++ (filepathExt (filepathBase path)).data := by
  obtain ⟨stem, hstem, -⟩ := filepathExt_suffix (filepathBase path)
  refine ⟨stem, hstem, ?_⟩
  have ht : trimSuffix (filepathBase path) (filepathExt (filepathBase path)) = ⟨stem⟩ := by
    have := trimSuffix_append stem (filepathExt (filepathBase path)).data
    rw [← hstem] at this
    exact this
  simp only [generateNewFileName, ht]
  simp [String.data_append]

/-- A base name is the single slash or contains no slash. -/
theorem filepathBase_no_slash (path : String) :
    filepathBase path = "/" ∨ ∀ c ∈ (filepathBase path).data, c ≠ '/' := by
  unfold filepathBase
  by_cases h0 : path.data = []
  · right
    simp only [h0, if_true]
    decide
  · simp only [h0, if_false]
    split_ifs with hr
    · exact Or.inl rfl
    · right
      intro c hc
      have hc1 := List.mem_takeWhile_imp (List.mem_reverse.1 hc)
      simpa using hc1

/-! ## The paths through `moveFile` -/

theorem mapGet_mapSet_self {V : Type} (m : List (String × V)) (key : String) (v : V) :
    mapGet (mapSet m key v) key = some v := by
  induction m with
  | nil => simp [mapSet, mapGet]
  | cons kv rest ih =>
    obtain ⟨k, x⟩ := kv
    by_cases h : k = key
    · simp [mapSet, mapGet, h]
    · simp [mapSet, mapGet, h, ih]

theorem mapSet_mapSet {V : Type} (m : List (String × V)) (key : String) (v w : V) :
    mapSet (mapSet m key v) key w = mapSet m key w := by
  induction m with
  | nil => simp [mapSet]
  | cons kv rest ih =>
    obtain ⟨k, x⟩ := kv
    by_cases h : k = key
    · simp [mapSet, h]
    · simp [mapSet, h, ih]

/-- Counting a move in the map with the entry put in is `bump`. -/
theorem bump_withEntry (m : List (String × FileStats)) (key : String) (size : Nat) :
    mapSet (withEntry m key) key
      ⟨((mapGet m key).getD ⟨0, 0⟩).Count + 1,
        wrapInt64 (((mapGet m key).getD ⟨0, 0⟩).TotalSize + size)⟩ = bump m key size := by
  unfold withEntry bump
  split_ifs
  · rfl
  · exact mapSet_mapSet _ _ _ _

/-- The five ways through `moveFile`: the panic of `dirExists`, a failure of
`os.MkdirAll`, a failure of `os.Rename`, a failure of `os.Stat` after the
rename, and success. -/
theorem moveFile_cases (fo : State) (sourcePath targetDir : Path) :
    (dirExists fo.fs targetDir = none ∧
      moveFile fo sourcePath targetDir =
        ({ fo with stdout := fo.stdout ++ [render targetDir] }, Res.panic)) ∨
    (∃ e, dirExists fo.fs targetDir = some false ∧ MkdirAll fo.fs targetDir = .error e ∧
      moveFile fo sourcePath targetDir =
        (logError { fo with stdout := fo.stdout ++ [render targetDir] } e.Error,
          Res.err e)) ∨
    (∃ fs1 e, Prepared fo.fs targetDir fs1 ∧
      Rename fs1 sourcePath
        (destination fs1 (fo.clock fo.ticks) sourcePath targetDir).1 = .error e ∧
      moveFile fo sourcePath targetDir =
        (logError (beforeRename fo fs1 sourcePath targetDir) e.Error, Res.err e)) ∨
    (∃ fs1 fs2 e, Prepared fo.fs targetDir fs1 ∧
      Rename fs1 sourcePath
        (destination fs1 (fo.clock fo.ticks) sourcePath targetDir).1 = .ok fs2 ∧
      Stat fs2 (destination fs1 (fo.clock fo.ticks) sourcePath targetDir).1 = .error e ∧
      moveFile fo sourcePath targetDir =
        (logError
          { beforeRename fo fs1 sourcePath targetDir with
            fs := fs2
            statistics := withEntry fo.statistics (filepathExt (render
              (destination fs1 (fo.clock fo.ticks) sourcePath targetDir).1)) }
          ("Ошибка получение информации о файле: " ++ render
            (destination fs1 (fo.clock fo.ticks) sourcePath targetDir).1),
          Res.err e)) ∨
    (∃ fs1 fs2 nd, Prepared fo.fs targetDir fs1 ∧
      Rename fs1 sourcePath
        (destination fs1 (fo.clock fo.ticks) sourcePath targetDir).1 = .ok fs2 ∧
      Stat fs2 (destination fs1 (fo.clock fo.ticks) sourcePath targetDir).1 = .ok nd ∧
      moveFile fo sourcePath targetDir =
        (logSuccess
          { beforeRename fo fs1 sourcePath targetDir with
            fs := fs2
            statistics := bump fo.statistics (filepathExt (render
              (destination fs1 (fo.clock fo.ticks) sourcePath targetDir).1))
              (nd.size fo.dirSize) }
          ("Результат: " ++ render
            (destination fs1 (fo.clock fo.ticks) sourcePath targetDir).1),
          Res.nil)) := by
  cases hd : dirExists fo.fs targetDir with
  | none =>
    left
    exact ⟨rfl, by simp [moveFile, hd]⟩
  | some b =>
    right
    cases hm : (if b = false then MkdirAll fo.fs targetDir else Except.ok fo.fs) with
    | error e =>
      left
      have hb : b = false := by
        by_contra hb
        simp [hb] at hm
      subst hb
      simp only [if_true] at hm
      exact ⟨e, rfl, hm, by simp [moveFile, hd, hm]⟩
    | ok fs1 =>
      right
      have hprep : Prepared fo.fs targetDir fs1 := by
        cases b with
        | true =>
          left
          simp at hm
          exact ⟨hd, hm.symm⟩
        | false =>
          right
          simp at hm
          exact ⟨hd, hm⟩
      cases hr : Rename fs1 sourcePath
          (destination fs1 (fo.clock fo.ticks) sourcePath targetDir).1 with
      | error e =>
        left
        refine ⟨fs1, e, hprep, hr, ?_⟩
        cases hd2 : (destination fs1 (fo.clock fo.ticks) sourcePath targetDir).2 <;>
          simp [moveFile, hd, hm, hr, hd2, logSuccess, logError, beforeRename]
      | ok fs2 =>
        right
        cases hs : Stat fs2 (destination fs1 (fo.clock fo.ticks) sourcePath targetDir).1 with
        | error e =>
          left
          refine ⟨fs1, fs2, e, hprep, hr, hs, ?_⟩
          cases hf : mapGet fo.statistics (filepathExt (render
              (destination fs1 (fo.clock fo.ticks) sourcePath targetDir).1)) <;>
          cases hd2 : (destination fs1 (fo.clock fo.ticks) sourcePath targetDir).2 <;>
            simp [moveFile, hd, hm, hr, hs, hd2, hf, logSuccess, logError, beforeRename,
              withEntry]
        | ok nd =>
          right
          refine ⟨fs1, fs2, nd, hprep, hr, hs, ?_⟩
          rw [← bump_withEntry]
          cases hf : mapGet fo.statistics (filepathExt (render
              (destination fs1 (fo.clock fo.ticks) sourcePath targetDir).1)) <;>
          cases hd2 : (destination fs1 (fo.clock fo.ticks) sourcePath targetDir).2 <;>
            simp [moveFile, hd, hm, hr, hs, hd2, hf, logSuccess, logError, beforeRename,
              withEntry]

/-! ## The walk as a run of calls -/

theorem Run.single (fn : WalkFn) (s : State) (p : Path) (i : Option Node)
    (er : Option GoErr) :
    Run fn s [⟨s, p, i, er, (fn s p i er).1, (fn s p i er).2⟩] (fn s p i er).1
      (fn s p i er).2 :=
  Run.call (Run.start s) rfl

theorem Run.append {fn : WalkFn} {s s1 s2 : State} {evs evs2 : List Event} {r : Res}
    (h1 : Run fn s evs s1 Res.nil) (h2 : Run fn s1 evs2 s2 r) :
    Run fn s (evs ++ evs2) s2 r := by
  induction h2 with
  | start => simpa using h1
  | call _ hfn ih =>
    rw [← List.append_assoc]
    exact Run.call ih hfn

/-- Every call before the last returned nil, the last one gives the result of
the run, and the run ends in the state the last call left. -/
theorem Run.last {fn : WalkFn} {s s2 : State} {evs : List Event} {r : Res}
    (h : Run fn s evs s2 r) :
    (∀ ev ∈ evs.dropLast, ev.res = Res.nil) ∧
    (evs = [] → s2 = s ∧ r = Res.nil) ∧
    (∀ ev, evs.getLast? = some ev → ev.post = s2 ∧ ev.res = r) := by
  induction h with
  | start => simp
  | call hrun hfn ih =>
    rename_i s1 s3 evs p i er r
    refine ⟨?_, by simp, by simp⟩
    intro ev hev
    rw [List.dropLast_concat] at hev
    rcases List.eq_nil_or_concat evs with h0 | ⟨l, a, h0⟩
    · simp [h0] at hev
    · rw [List.concat_eq_append] at h0
      subst h0
      have ha : a.res = Res.nil := (ih.2.2 a (by simp)).2
      rcases List.mem_append.1 hev with hl | hl
      · exact ih.1 ev (by simpa [List.dropLast_concat] using hl)
      · rw [List.mem_singleton.1 hl]; exact ha

/-- Every event of a run is a call of the walk function. -/
theorem Run.calls {fn : WalkFn} {s s2 : State} {evs : List Event} {r : Res}
    (h : Run fn s evs s2 r) :
    ∀ ev ∈ evs, fn ev.pre ev.path ev.info ev.er = (ev.post, ev.res) := by
  induction h with
  | start => simp
  | call _ hfn ih =>
    intro ev hev
    rcases List.mem_append.1 hev with hl | hl
    · exact ih ev hl
    · rw [List.mem_singleton.1 hl]; exact hfn

/-- Every call of a run ends a run of its own: the calls up to it. -/
theorem Run.upto {fn : WalkFn} {s s2 : State} {evs : List Event} {r : Res}
    (h : Run fn s evs s2 r) :
    ∀ ev ∈ evs, ∃ pre, pre ++ [ev] <+: evs ∧ Run fn s (pre ++ [ev]) ev.post ev.res := by
  induction h with
  | start => simp
  | call hrun hfn ih =>
    intro ev hev
    rcases List.mem_append.1 hev with hl | hl
    · obtain ⟨pre, hpre, hr⟩ := ih ev hl
      exact ⟨pre, hpre.trans (List.prefix_append _ _), hr⟩
    · rw [List.mem_singleton.1 hl]
      exact ⟨_, List.prefix_refl _, Run.call hrun hfn⟩

theorem onNil_eq_some {x : Option (State × Res)} {next : State → Option (State × Res)}
    {s2 : State} {r : Res} (h : onNil x next = some (s2, r)) :
    (∃ s1, x = some (s1, Res.nil) ∧ next s1 = some (s2, r)) ∨
    (x = some (s2, r) ∧ r ≠ Res.nil) := by
  cases x with
  | none => simp [onNil] at h
  | some pr =>
    obtain ⟨s1, r1⟩ := pr
    cases r1 with
    | nil => exact Or.inl ⟨s1, rfl, h⟩
    | err e =>
      simp only [onNil, Option.some.injEq, Prod.mk.injEq] at h
      obtain ⟨rfl, rfl⟩ := h
      exact Or.inr ⟨rfl, by simp⟩
    | panic =>
      simp only [onNil, Option.some.injEq, Prod.mk.injEq] at h
      obtain ⟨rfl, rfl⟩ := h
      exact Or.inr ⟨rfl, by simp⟩

theorem RunUnder.mono {fn : WalkFn} {root root2 : Path} {s s2 : State} {r : Res}
    (h : RunUnder fn root s s2 r) (hr : root2 <+: root) : RunUnder fn root2 s s2 r := by
  obtain ⟨evs, hrun, hp⟩ := h
  exact ⟨evs, hrun, fun ev hev => hr.trans (hp ev hev)⟩

/-- A run followed, after a nil result, by another run is a run. -/
theorem onNil_run {fn : WalkFn} {root : Path} {x : Option (State × Res)}
    {next : State → Option (State × Res)} {s s2 : State} {r : Res}
    (hx : ∀ s1 r1, x = some (s1, r1) → RunUnder fn root s s1 r1)
    (hnext : ∀ s1, next s1 = some (s2, r) → RunUnder fn root s1 s2 r)
    (h : onNil x next = some (s2, r)) : RunUnder fn root s s2 r := by
  rcases onNil_eq_some h with ⟨s1, hx1, hn⟩ | ⟨hx1, -⟩
  · obtain ⟨evs1, h1, hp1⟩ := hx _ _ hx1
    obtain ⟨evs2, h2, hp2⟩ := hnext _ hn
    refine ⟨_, Run.append h1 h2, ?_⟩
    intro ev hev
    rcases List.mem_append.1 hev with hev | hev
    · exact hp1 ev hev
    · exact hp2 ev hev
  · exact hx _ _ hx1

theorem call_run (fn : WalkFn) (root : Path) (s : State) (p : Path) (i : Option Node)
    (er : Option GoErr) (hp : root <+: p) (s1 : State) (r1 : Res)
    (h : some (fn s p i er) = some (s1, r1)) : RunUnder fn root s s1 r1 := by
  simp only [Option.some.injEq] at h
  refine ⟨_, Run.call (Run.start s) h, ?_⟩
  intro ev hev
  simp only [List.nil_append, List.mem_singleton] at hev
  subst hev
  exact hp

theorem walkNames_run (fn : WalkFn)
    (descend : Path → Node → State → Option (State × Res))
    (hd : ∀ p i s s2 r, descend p i s = some (s2, r) → RunUnder fn p s s2 r)
    (path : Path) (names : List String) :
    ∀ s s2 r, walkNames fn descend path names s = some (s2, r) →
      RunUnder fn path s s2 r := by
  induction names with
  | nil =>
    intro s s2 r h
    simp only [walkNames, Option.some.injEq, Prod.mk.injEq] at h
    obtain ⟨rfl, rfl⟩ := h
    exact ⟨[], Run.start s, by simp⟩
  | cons name rest ih =>
    intro s s2 r h
    simp only [walkNames] at h
    cases hl : Lstat s.fs (path ++ [name]) with
    | error e =>
      simp only [hl] at h
      exact onNil_run (call_run fn path s _ _ _ (List.prefix_append _ _))
        (fun s1 => ih s1 s2 r) h
    | ok info =>
      simp only [hl] at h
      exact onNil_run
        (fun s1 r1 hx => (hd _ _ _ s1 r1 hx).mono (List.prefix_append _ _))
        (fun s1 => ih s1 s2 r) h

theorem walk_run (fn : WalkFn) (fuel : Nat) :
    ∀ path info s s2 r, walk fn fuel path info s = some (s2, r) →
      RunUnder fn path s s2 r := by
  induction fuel with
  | zero => intro path info s s2 r h; simp [walk] at h
  | succ fuel ih =>
    intro path info s s2 r h
    simp only [walk] at h
    by_cases hdir : info.isDir = true
    · simp only [hdir, Bool.not_true, Bool.false_eq_true, if_false] at h
      cases hn : readDirNames s.fs path with
      | error e =>
        simp only [hn] at h
        exact call_run fn path s _ _ _ (List.prefix_refl _) _ _ h
      | ok names =>
        simp only [hn] at h
        exact onNil_run (call_run fn path s _ _ _ (List.prefix_refl _))
          (fun s1 => walkNames_run fn (walk fn fuel) ih path names s1 s2 r) h
    · simp only [hdir, Bool.not_false, if_true] at h
      exact call_run fn path s _ _ _ (List.prefix_refl _) _ _ h

theorem Walk_run (fn : WalkFn) (fuel : Nat) (root : Path) (s s2 : State) (r : Res)
    (h : Walk fn fuel root s = some (s2, r)) : RunUnder fn root s s2 r := by
  unfold Walk at h
  cases hl : Lstat s.fs root with
  | error e =>
    simp only [hl] at h
    exact call_run fn root s _ _ _ (List.prefix_refl _) _ _ h
  | ok info =>
    simp only [hl] at h
    exact walk_run fn fuel _ _ _ _ _ h

theorem Organize_run_under (fuel : Nat) (s s2 : State) (r : Res) (rep : Option Report)
    (h : Organize fuel s = some (s2, r, rep)) :
    RunUnder organizeFn s.sourceDir s s2 r ∧ (r ≠ Res.panic → rep = some (showStats s2)) := by
  unfold Organize at h
  cases hw : Walk organizeFn fuel s.sourceDir s with
  | none => simp [hw] at h
  | some pr =>
    obtain ⟨s1, r1⟩ := pr
    have hrun := Walk_run organizeFn fuel _ _ _ _ hw
    cases r1 with
    | nil =>
      simp only [hw, Option.some.injEq, Prod.mk.injEq] at h
      obtain ⟨rfl, rfl, rfl⟩ := h
      exact ⟨hrun, fun _ => rfl⟩
    | err e =>
      simp only [hw, Option.some.injEq, Prod.mk.injEq] at h
      obtain ⟨rfl, rfl, rfl⟩ := h
      exact ⟨hrun, fun _ => rfl⟩
    | panic =>
      simp only [hw, Option.some.injEq, Prod.mk.injEq] at h
      obtain ⟨rfl, rfl, rfl⟩ := h
      exact ⟨hrun, fun hp => absurd rfl hp⟩

theorem Organize_run (fuel : Nat) (s s2 : State) (r : Res) (rep : Option Report)
    (h : Organize fuel s = some (s2, r, rep)) :
    (∃ evs, Run organizeFn s evs s2 r) ∧ (r ≠ Res.panic → rep = some (showStats s2)) := by
  obtain ⟨⟨evs, hrun, -⟩, hrep⟩ := Organize_run_under fuel s s2 r rep h
  exact ⟨⟨evs, hrun⟩, hrep⟩

/-- A call that did not return nil is the last call of its run. -/
theorem Run.failure_last {fn : WalkFn} {s s2 : State} {evs : List Event} {r : Res}
    (h : Run fn s evs s2 r) (ev : Event) (hev : ev ∈ evs) (hres : ev.res ≠ Res.nil) :
    evs.getLast? = some ev ∧ s2 = ev.post ∧ r = ev.res := by
  obtain ⟨h1, -, h3⟩ := Run.last h
  rcases List.eq_nil_or_concat evs with h0 | ⟨l, a, h0⟩
  · simp [h0] at hev
  · rw [List.concat_eq_append] at h0
    subst h0
    rcases List.mem_append.1 hev with hl | hl
    · exact absurd (h1 ev (by simpa [List.dropLast_concat] using hl)) hres
    · have := List.mem_singleton.1 hl
      subst this
      have hlast := h3 ev (by simp)
      exact ⟨by simp, hlast.1.symm, hlast.2.symm⟩

/-! ## The walk function -/

theorem logLine_newline (a : String) : logLine (a ++ "\n") = a := by
  have hd : (a ++ "\n").data = a.data ++ ['\n'] := by
    simp [String.data_append]
  unfold logLine
  rw [hd]
  simp

theorem organizeFn_error (fo : State) (path : Path) (info : Option Node) (er : GoErr) :
    organizeFn fo path info (some er) =
      ({ fo with log := fo.log ++
          ["[ERROR] " ++ ("Ошибка доступа к " ++ render path ++ ": " ++ er.Error)] },
        Res.nil) := by
  have h : logLine ("[ERROR] " ++ ("Ошибка доступа к " ++ render path ++ ": " ++ er.Error ++ "\n"))
      = "[ERROR] " ++ ("Ошибка доступа к " ++ render path ++ ": " ++ er.Error) := by
    rw [← String.append_assoc]
    exact logLine_newline _
  simp only [organizeFn, logError, h]

theorem organizeFn_unmatched (fo : State) (path : Path) (info : Option Node)
    (h : mapGet DefaultRules (filepathExt (render path)) = none) :
    organizeFn fo path info none = (fo, Res.nil) := by
  simp only [organizeFn, h]

theorem organizeFn_matched (fo : State) (path : Path) (info : Option Node) (c : String)
    (h : mapGet DefaultRules (filepathExt (render path)) = some c) :
    organizeFn fo path info none =
      match (moveFile fo path (filepathJoin fo.sourceDir c)).2 with
      | Res.err e =>
        (logError (moveFile fo path (filepathJoin fo.sourceDir c)).1 e.Error, Res.err e)
      | r => ((moveFile fo path (filepathJoin fo.sourceDir c)).1, r) := by
  simp only [organizeFn, h]
  cases hm : moveFile fo path (filepathJoin fo.sourceDir c) with
  | mk fo1 r => cases r <;> rfl

/-! ## The sums of the statistics -/

theorem wrapInt64_of_range (x : Int) (h0 : 0 ≤ x) (h1 : x < 2 ^ 63) : wrapInt64 x = x := by
  unfold wrapInt64
  omega

theorem wrapInt64_sub_emod (x : Int) : (wrapInt64 x - x) % 2 ^ 64 = 0 := by
  unfold wrapInt64
  omega

theorem sumCount_mapSet (m : List (String × FileStats)) (key : String) (v : FileStats) :
    sumCount (mapSet m key v) + ((mapGet m key).getD ⟨0, 0⟩).Count = sumCount m + v.Count := by
  induction m with
  | nil => simp [mapSet, mapGet, sumCount]
  | cons kv rest ih =>
    obtain ⟨k, x⟩ := kv
    by_cases h : k = key
    · simp only [mapSet, mapGet, if_pos h, sumCount, List.map_cons, List.sum_cons,
        Option.getD_some]
      omega
    · simp only [mapSet, mapGet, if_neg h, sumCount, List.map_cons, List.sum_cons] at ih ⊢
      omega

theorem sumSize_mapSet (m : List (String × FileStats)) (key : String) (v : FileStats) :
    sumSize (mapSet m key v) + ((mapGet m key).getD ⟨0, 0⟩).TotalSize =
      sumSize m + v.TotalSize := by
  induction m with
  | nil => simp [mapSet, mapGet, sumSize]
  | cons kv rest ih =>
    obtain ⟨k, x⟩ := kv
    by_cases h : k = key
    · simp only [mapSet, mapGet, if_pos h, sumSize, List.map_cons, List.sum_cons,
        Option.getD_some]
      omega
    · simp only [mapSet, mapGet, if_neg h, sumSize, List.map_cons, List.sum_cons] at ih ⊢
      omega

theorem sumCount_withEntry (m : List (String × FileStats)) (key : String) :
    sumCount (withEntry m key) = sumCount m := by
  unfold withEntry
  split_ifs with h
  · rfl
  · have hn : mapGet m key = none := by
      cases hg : mapGet m key with
      | none => rfl
      | some v => simp [hg] at h
    have := sumCount_mapSet m key ⟨0, 0⟩
    simp only [hn, Option.getD_none] at this
    omega

theorem sumSize_withEntry (m : List (String × FileStats)) (key : String) :
    sumSize (withEntry m key) = sumSize m := by
  unfold withEntry
  split_ifs with h
  · rfl
  · have hn : mapGet m key = none := by
      cases hg : mapGet m key with
      | none => rfl
      | some v => simp [hg] at h
    have := sumSize_mapSet m key ⟨0, 0⟩
    simp only [hn, Option.getD_none] at this
    omega

theorem sumCount_bump (m : List (String × FileStats)) (key : String) (size : Nat) :
    sumCount (bump m key size) = sumCount m + 1 := by
  have := sumCount_mapSet m key ⟨((mapGet m key).getD ⟨0, 0⟩).Count + 1,
    wrapInt64 (((mapGet m key).getD ⟨0, 0⟩).TotalSize + size)⟩
  unfold bump
  simp only at this
  omega

theorem sumSize_bump_emod (m : List (String × FileStats)) (key : String) (size : Nat) :
    (sumSize (bump m key size) - (sumSize m + size)) % 2 ^ 64 = 0 := by
  have h1 := sumSize_mapSet m key ⟨((mapGet m key).getD ⟨0, 0⟩).Count + 1,
    wrapInt64 (((mapGet m key).getD ⟨0, 0⟩).TotalSize + size)⟩
  have h2 := wrapInt64_sub_emod (((mapGet m key).getD ⟨0, 0⟩).TotalSize + size)
  unfold bump
  simp only at h1
  omega

theorem mapGet_le_sumSize (m : List (String × FileStats)) (key : String) (h : NonNeg m) :
    0 ≤ ((mapGet m key).getD ⟨0, 0⟩).TotalSize ∧
    ((mapGet m key).getD ⟨0, 0⟩).TotalSize ≤ sumSize m := by
  induction m with
  | nil => simp [mapGet, sumSize]
  | cons kv rest ih =>
    obtain ⟨k, x⟩ := kv
    have hx : 0 ≤ x.TotalSize := h (k, x) (List.mem_cons_self _ _)
    have hrest : NonNeg rest := fun kv hkv => h kv (List.mem_cons_of_mem _ hkv)
    have ihr := ih hrest
    by_cases hk : k = key
    · simp only [mapGet, if_pos hk, Option.getD_some, sumSize, List.map_cons, List.sum_cons]
      have h0 : 0 ≤ sumSize rest := le_trans ihr.1 ihr.2
      unfold sumSize at h0
      omega
    · simp only [mapGet, if_neg hk, sumSize, List.map_cons, List.sum_cons]
      unfold sumSize at ihr
      omega

theorem NonNeg_mapSet (m : List (String × FileStats)) (key : String) (v : FileStats)
    (h : NonNeg m) (hv : 0 ≤ v.TotalSize) : NonNeg (mapSet m key v) := by
  induction m with
  | nil =>
    intro kv hkv
    simp only [mapSet, List.mem_singleton] at hkv
    subst hkv
    exact hv
  | cons kv rest ih =>
    obtain ⟨k, x⟩ := kv
    have hrest : NonNeg rest := fun kv hkv => h kv (List.mem_cons_of_mem _ hkv)
    intro kv hkv
    by_cases hk : k = key
    · simp only [mapSet, if_pos hk, List.mem_cons] at hkv
      rcases hkv with rfl | hkv
      · exact hv
      · exact hrest kv hkv
    · simp only [mapSet, if_neg hk, List.mem_cons] at hkv
      rcases hkv with rfl | hkv
      · exact h (k, x) (List.mem_cons_self _ _)
      · exact ih hrest kv hkv

theorem NonNeg_withEntry (m : List (String × FileStats)) (key : String) (h : NonNeg m) :
    NonNeg (withEntry m key) := by
  unfold withEntry
  split_ifs
  · exact h
  · exact NonNeg_mapSet m key _ h (le_refl _)

/-- Without overflow a move adds the size exactly. -/
theorem sumSize_bump_exact (m : List (String × FileStats)) (key : String) (size : Nat)
    (h : NonNeg m) (hb : sumSize m + size < 2 ^ 63) :
    sumSize (bump m key size) = sumSize m + size ∧ NonNeg (bump m key size) := by
  have h1 := sumSize_mapSet m key ⟨((mapGet m key).getD ⟨0, 0⟩).Count + 1,
    wrapInt64 (((mapGet m key).getD ⟨0, 0⟩).TotalSize + size)⟩
  have h2 := mapGet_le_sumSize m key h
  have h3 : wrapInt64 (((mapGet m key).getD ⟨0, 0⟩).TotalSize + size) =
      ((mapGet m key).getD ⟨0, 0⟩).TotalSize + size :=
    wrapInt64_of_range _ (by omega) (by omega)
  unfold bump
  simp only [h3] at h1 ⊢
  refine ⟨by omega, NonNeg_mapSet m key _ h ?_⟩
  simp only
  omega

theorem moveTarget_of_prepared (fo : State) (sourcePath targetDir : Path) (fs1 : FS)
    (h : Prepared fo.fs targetDir fs1) :
    moveTarget fo sourcePath targetDir =
      some (destination fs1 (fo.clock fo.ticks) sourcePath targetDir).1 := by
  rcases h with ⟨h1, h2⟩ | ⟨h1, h2⟩
  · subst h2
    simp [moveTarget, h1]
  · simp [moveTarget, h1, h2]

/-- What one call of the walk function does to the statistics: a call that
moved its entry counts it under the extension of its destination with the size
found there afterwards; any other call leaves the map as it is or puts in an
entry of zeros. -/
theorem organizeFn_stats (fo : State) (path : Path) (info : Option Node)
    (er : Option GoErr) (post : State) (res : Res)
    (h : organizeFn fo path info er = (post, res)) :
    (Event.moved ⟨fo, path, info, er, post, res⟩ = true ∧
      ∃ newPath nd, Event.dest ⟨fo, path, info, er, post, res⟩ = some newPath ∧
        Stat post.fs newPath = .ok nd ∧
        post.statistics =
          bump fo.statistics (filepathExt (render newPath)) (nd.size fo.dirSize)) ∨
    (Event.moved ⟨fo, path, info, er, post, res⟩ = false ∧
      (post.statistics = fo.statistics ∨
        ∃ key, post.statistics = withEntry fo.statistics key)) := by
  cases er with
  | some e =>
    rw [organizeFn_error] at h
    simp only [Prod.mk.injEq] at h
    obtain ⟨rfl, rfl⟩ := h
    exact Or.inr ⟨by simp [Event.moved], Or.inl rfl⟩
  | none =>
    cases hrule : mapGet DefaultRules (filepathExt (render path)) with
    | none =>
      rw [organizeFn_unmatched fo path info hrule] at h
      simp only [Prod.mk.injEq] at h
      obtain ⟨rfl, rfl⟩ := h
      exact Or.inr ⟨by simp [Event.moved, hrule], Or.inl rfl⟩
    | some c =>
      rw [organizeFn_matched fo path info c hrule] at h
      rcases moveFile_cases fo path (filepathJoin fo.sourceDir c) with
        ⟨-, hm⟩ | ⟨e1, -, hmk, hm⟩ | ⟨fs1, e1, hp, hr, hm⟩ | ⟨fs1, fs2, e1, hp, hr, hs, hm⟩ |
        ⟨fs1, fs2, nd, hp, hr, hs, hm⟩
      · rw [hm] at h
        simp only [Prod.mk.injEq] at h
        obtain ⟨rfl, rfl⟩ := h
        exact Or.inr ⟨by simp [Event.moved], Or.inl rfl⟩
      · rw [hm] at h
        simp only [Prod.mk.injEq] at h
        obtain ⟨rfl, rfl⟩ := h
        exact Or.inr ⟨by simp [Event.moved], Or.inl rfl⟩
      · rw [hm] at h
        simp only [Prod.mk.injEq] at h
        obtain ⟨rfl, rfl⟩ := h
        exact Or.inr ⟨by simp [Event.moved], Or.inl rfl⟩
      · rw [hm] at h
        simp only [Prod.mk.injEq] at h
        obtain ⟨rfl, rfl⟩ := h
        exact Or.inr ⟨by simp [Event.moved], Or.inr ⟨_, rfl⟩⟩
      · rw [hm] at h
        simp only [Prod.mk.injEq] at h
        obtain ⟨rfl, rfl⟩ := h
        refine Or.inl ⟨by simp [Event.moved, hrule], _, nd, ?_, hs, rfl⟩
        simp only [Event.dest, hrule]
        exact moveTarget_of_prepared fo path _ fs1 hp

theorem organizeFn_dirSize (fo : State) (path : Path) (info : Option Node)
    (er : Option GoErr) : (organizeFn fo path info er).1.dirSize = fo.dirSize := by
  cases er with
  | some e => rw [organizeFn_error]
  | none =>
    cases hrule : mapGet DefaultRules (filepathExt (render path)) with
    | none => rw [organizeFn_unmatched fo path info hrule]
    | some c =>
      rw [organizeFn_matched fo path info c hrule]
      rcases moveFile_cases fo path (filepathJoin fo.sourceDir c) with
        ⟨-, hm⟩ | ⟨e1, -, hmk, hm⟩ | ⟨fs1, e1, hp, hr, hm⟩ | ⟨fs1, fs2, e1, hp, hr, hs, hm⟩ |
        ⟨fs1, fs2, nd, hp, hr, hs, hm⟩ <;> rw [hm] <;> rfl

theorem movedSizes_append (evs : List Event) (ev : Event) :
    movedSizes (evs ++ [ev]) =
      movedSizes evs ++ (if ev.moved then [ev.postSize] else []) := by
  unfold movedSizes
  by_cases h : ev.moved = true
  · simp [List.filter_append, h]
  · simp [List.filter_append, h]

/-- The sums of the statistics along a run. -/
theorem Run.sums {s s2 : State} {evs : List Event} {r : Res}
    (h : Run organizeFn s evs s2 r) :
    sumCount s2.statistics = sumCount s.statistics + (evs.filter Event.moved).length ∧
    (sumSize s2.statistics - (sumSize s.statistics + ((movedSizes evs).sum : Nat))) % 2 ^ 64
      = 0 ∧
    (NonNeg s.statistics →
      sumSize s.statistics + ((movedSizes evs).sum : Nat) < 2 ^ 63 →
      sumSize s2.statistics = sumSize s.statistics + ((movedSizes evs).sum : Nat) ∧
        NonNeg s2.statistics) := by
  induction h with
  | start =>
    refine ⟨by simp, by simp [movedSizes], ?_⟩
    intro hnn _
    exact ⟨by simp [movedSizes], hnn⟩
  | call hrun hfn ih =>
    rename_i s1 s3 evs p i er r
    obtain ⟨ih1, ih2, ih3⟩ := ih
    rw [movedSizes_append, List.filter_append]
    rcases organizeFn_stats _ _ _ _ _ _ hfn with
      ⟨hmv, newPath, nd, hdest, hst, hstats⟩ | ⟨hmv, hstats⟩
    · have hps : Event.postSize ⟨s1, p, i, er, s3, r⟩ = nd.size s1.dirSize := by
        simp only [Event.postSize, hdest, hst]
      simp only [hmv, if_true, hps, List.sum_append, List.sum_singleton, List.filter_cons,
        List.filter_nil, List.length_append, List.length_singleton, Nat.cast_add]
      rw [hstats]
      have hc := sumCount_bump s1.statistics (filepathExt (render newPath)) (nd.size s1.dirSize)
      have he := sumSize_bump_emod s1.statistics (filepathExt (render newPath))
        (nd.size s1.dirSize)
      refine ⟨by omega, by omega, ?_⟩
      intro hnn hb
      obtain ⟨ih3a, ih3b⟩ := ih3 hnn (by omega)
      have hx := sumSize_bump_exact s1.statistics (filepathExt (render newPath))
        (nd.size s1.dirSize) ih3b (by omega)
      exact ⟨by omega, hx.2⟩
    · have hsame : sumCount s3.statistics = sumCount s1.statistics ∧
          sumSize s3.statistics = sumSize s1.statistics ∧
          (NonNeg s1.statistics → NonNeg s3.statistics) := by
        rcases hstats with hstats | ⟨key, hstats⟩
        · rw [hstats]; exact ⟨rfl, rfl, id⟩
        · rw [hstats]
          exact ⟨sumCount_withEntry _ _, sumSize_withEntry _ _, NonNeg_withEntry _ _⟩
      have hmv2 : Event.moved ⟨s1, p, i, er, s3, r⟩ = false := hmv
      simp only [hmv2, Bool.false_eq_true, if_false, List.append_nil, List.filter_cons,
        List.filter_nil, List.length_append, List.length_nil]
      refine ⟨by omega, by omega, ?_⟩
      intro hnn hb
      obtain ⟨ih3a, ih3b⟩ := ih3 hnn hb
      exact ⟨by omega, hsame.2.2 ih3b⟩

theorem mapGet_mapSet_other {V : Type} (m : List (String × V)) (key k : String) (v : V)
    (h : k ≠ key) : mapGet (mapSet m key v) k = mapGet m k := by
  induction m with
  | nil => simp [mapSet, mapGet, Ne.symm h]
  | cons kv rest ih =>
    obtain ⟨k1, x⟩ := kv
    by_cases h1 : k1 = key
    · subst h1
      simp [mapSet, mapGet, Ne.symm h]
    · by_cases h2 : k1 = k
      · subst h2
        simp [mapSet, mapGet, h1]
      · simp [mapSet, mapGet, h1, h2, ih]

/-! ## Lemmas on the filesystem -/

theorem lookupEntry_append (a b : FS) (q : Path) :
    lookupEntry (a ++ b) q =
      match lookupEntry a q with
      | some n => some n
      | none => lookupEntry b q := by
  induction a with
  | nil => simp [lookupEntry]
  | cons e rest ih =>
    obtain ⟨k, n⟩ := e
    by_cases h : k = q
    · simp [lookupEntry, h]
    · simp [lookupEntry, h, ih]

theorem lookupEntry_filter (fs : FS) (keep : Path → Bool) (q : Path) :
    lookupEntry (fs.filter fun e => keep e.1) q =
      if keep q = true then lookupEntry fs q else none := by
  induction fs with
  | nil => simp [lookupEntry]
  | cons e rest ih =>
    obtain ⟨k, n⟩ := e
    by_cases hk : keep k = true
    · by_cases h : k = q
      · subst h
        simp [List.filter_cons, hk, lookupEntry]
      · simp [List.filter_cons, hk, lookupEntry, h, ih]
    · by_cases h : k = q
      · subst h
        simp [List.filter_cons, hk, lookupEntry, ih]
      · simp [List.filter_cons, hk, lookupEntry, h, ih]

theorem lookupEntry_rekeyed (fs : FS) (old new q : Path) :
    lookupEntry (fs.filterMap fun e =>
        if old.isPrefixOf e.1 then some (new ++ e.1.drop old.length, e.2) else none) q =
      if new <+: q then lookupEntry fs (old ++ q.drop new.length) else none := by
  induction fs with
  | nil => simp [lookupEntry]
  | cons e rest ih =>
    obtain ⟨k, n⟩ := e
    by_cases hk : old <+: k
    · have hkb : old.isPrefixOf k = true := List.isPrefixOf_iff_prefix.2 hk
      simp only [List.filterMap_cons, hkb, if_true, lookupEntry]
      by_cases hq : new ++ k.drop old.length = q
      · have hnq : new <+: q := ⟨_, hq⟩
        have hkq : old ++ q.drop new.length = k := by
          rw [← hq, List.drop_left]
          exact List.prefix_iff_eq_append.1 hk
        rw [if_pos hq, if_pos hnq, hkq]
        simp [lookupEntry]
      · rw [if_neg hq, ih]
        by_cases hnq : new <+: q
        · have hne : k ≠ old ++ q.drop new.length := by
            intro hkq
            apply hq
            rw [hkq, List.drop_left]
            exact List.prefix_iff_eq_append.1 hnq
          simp [hnq, hne]
        · simp [hnq]
    · have hkb : old.isPrefixOf k = false := by
        rw [Bool.eq_false_iff]
        intro h
        exact hk (List.isPrefixOf_iff_prefix.1 h)
      simp only [List.filterMap_cons, hkb, Bool.false_eq_true, if_false, ih]
      by_cases hnq : new <+: q
      · have hne : k ≠ old ++ q.drop new.length := by
          intro hkq
          exact hk ⟨_, hkq.symm⟩
        simp [hnq, lookupEntry, hne]
      · simp [hnq]

/-- Lookup after a move of the subtree at `old` to `new`. -/
theorem lookupEntry_moveKeys (fs : FS) (old new q : Path) :
    lookupEntry (moveKeys fs old new) q =
      if new <+: q then lookupEntry fs (old ++ q.drop new.length)
      else if old <+: q then none else lookupEntry fs q := by
  unfold moveKeys
  rw [lookupEntry_append, lookupEntry_rekeyed]
  have hf := lookupEntry_filter fs
    (fun k => !(old.isPrefixOf k) && !(new.isPrefixOf k)) q
  simp only at hf
  rw [hf]
  by_cases hnq : new <+: q
  · have hb : new.isPrefixOf q = true := List.isPrefixOf_iff_prefix.2 hnq
    simp only [hnq, if_true, hb]
    cases lookupEntry fs (old ++ q.drop new.length) <;> simp
  · have hb : new.isPrefixOf q = false := by
      rw [Bool.eq_false_iff]
      intro h
      exact hnq (List.isPrefixOf_iff_prefix.1 h)
    by_cases hoq : old <+: q
    · have hob : old.isPrefixOf q = true := List.isPrefixOf_iff_prefix.2 hoq
      simp [hnq, hoq, hb, hob]
    · have hob : old.isPrefixOf q = false := by
        rw [Bool.eq_false_iff]
        intro h
        exact hoq (List.isPrefixOf_iff_prefix.1 h)
      simp [hnq, hoq, hb, hob]

theorem nodeAt_moveKeys (fs : FS) (old new q : Path) (hq : q ≠ []) :
    nodeAt (moveKeys fs old new) q =
      if new <+: q then lookupEntry fs (old ++ q.drop new.length)
      else if old <+: q then none else nodeAt fs q := by
  simp only [nodeAt, if_neg hq]
  exact lookupEntry_moveKeys fs old new q

/-- When the directories above a path resolve, every path strictly above it is
a directory that the process may pass through. -/
theorem ancestorErr_none (fs : FS) (p : List String) :
    ∀ pre, ancestorErr fs pre p = none →
      ∀ q, q <+: p → q ≠ p → q ≠ [] →
        ∃ nd, nodeAt fs (pre ++ q) = some nd ∧ nd.canSearch = true := by
  induction p with
  | nil =>
    intro pre _ q hq hne
    exact absurd (List.prefix_nil.1 hq) hne
  | cons a rest ih =>
    intro pre h q hq hne hq0
    cases rest with
    | nil =>
      rcases List.prefix_concat_iff.1 (show q <+: [] ++ [a] from hq) with h1 | h1
      · exact absurd h1 hne
      · exact absurd (List.prefix_nil.1 h1) hq0
    | cons b rest2 =>
      simp only [ancestorErr] at h
      cases hn : nodeAt fs (pre ++ [a]) with
      | none => simp [hn] at h
      | some nd =>
        have hs : nd.canSearch = true ∧ ancestorErr fs (pre ++ [a]) (b :: rest2) = none := by
          cases nd with
          | file id sz => simp [hn] at h
          | brokenLink => simp [hn] at h
          | dir =>
            simp only [hn] at h
            exact ⟨rfl, h⟩
          | dirWith attr =>
            simp only [hn] at h
            by_cases hx : attr.search = true
            · simp only [hx, if_true] at h
              exact ⟨hx, h⟩
            · simp [hx] at h
        cases q with
        | nil => exact absurd rfl hq0
        | cons c q2 =>
          obtain ⟨rfl, hq2⟩ := List.cons_prefix_cons.1 hq
          by_cases hq20 : q2 = []
          · subst hq20
            exact ⟨nd, hn, hs.1⟩
          · have := ih (pre ++ [c]) hs.2 q2 hq2 (fun hx => hne (by rw [hx])) hq20
            simpa using this

theorem Lstat_ok {fs : FS} {p : Path} {nd : Node} (h : Lstat fs p = .ok nd) :
    ancestorErr fs [] p = none ∧ nodeAt fs p = some nd := by
  unfold Lstat at h
  cases ha : ancestorErr fs [] p with
  | some e => simp [ha] at h
  | none =>
    cases hn : nodeAt fs p with
    | none => simp [ha, hn] at h
    | some n =>
      simp only [ha, hn, Except.ok.injEq] at h
      exact ⟨rfl, by rw [h]⟩

theorem Lstat_of_nodeAt {fs : FS} {p : Path} {nd : Node}
    (ha : ancestorErr fs [] p = none) (hn : nodeAt fs p = some nd) : Lstat fs p = .ok nd := by
  simp [Lstat, ha, hn]

theorem Stat_ok {fs : FS} {p : Path} {nd : Node} (h : Stat fs p = .ok nd) :
    ancestorErr fs [] p = none ∧ nodeAt fs p = some nd ∧ nd ≠ Node.brokenLink := by
  unfold Stat at h
  cases ha : ancestorErr fs [] p with
  | some e => simp [ha] at h
  | none =>
    cases hn : nodeAt fs p with
    | none => simp [ha, hn] at h
    | some n =>
      cases n with
      | brokenLink => simp [ha, hn] at h
      | dir =>
        simp only [ha, hn, Except.ok.injEq] at h
        subst h
        exact ⟨rfl, rfl, by simp⟩
      | file id sz =>
        simp only [ha, hn, Except.ok.injEq] at h
        subst h
        exact ⟨rfl, rfl, by simp⟩
      | dirWith attr =>
        simp only [ha, hn, Except.ok.injEq] at h
        subst h
        exact ⟨rfl, rfl, by simp⟩

theorem Stat_of_nodeAt {fs : FS} {p : Path} {nd : Node}
    (ha : ancestorErr fs [] p = none) (hn : nodeAt fs p = some nd)
    (hb : nd ≠ Node.brokenLink) : Stat fs p = .ok nd := by
  cases nd with
  | brokenLink => exact absurd rfl hb
  | dir => simp [Stat, ha, hn]
  | file id sz => simp [Stat, ha, hn]
  | dirWith attr => simp [Stat, ha, hn]

/-- What a successful `rename(2)` did. -/
theorem renameat_ok {fs fs2 : FS} {old new : Path} (h : renameat fs old new = .ok fs2) :
    ∃ nd, Lstat fs old = .ok nd ∧ ancestorErr fs [] new = none ∧
      ((old = new ∧ fs2 = fs) ∨
        (old ≠ new ∧ ¬ old <+: new ∧ (nd.isDir = true → nodeAt fs new = none) ∧
          fs2 = moveKeys fs old new)) := by
  unfold renameat at h
  cases ha : ancestorErr fs [] old with
  | some e => simp [ha] at h
  | none =>
    cases hb : ancestorErr fs [] new with
    | some e => simp [ha, hb] at h
    | none =>
      simp only [ha, hb] at h
      split at h
      · simp at h
      · cases hn : nodeAt fs old with
        | none => simp [hn] at h
        | some nd =>
          simp only [hn] at h
          refine ⟨nd, Lstat_of_nodeAt ha hn, rfl, ?_⟩
          by_cases h1 : old = new
          · simp only [h1, if_true, Except.ok.injEq] at h
            exact Or.inl ⟨h1, h.symm⟩
          · simp only [h1, if_false] at h
            by_cases h2 : old.isPrefixOf new = true
            · simp [h2] at h
            · simp only [h2, Bool.false_eq_true, if_false] at h
              split at h
              · simp at h
              · by_cases h3 : (nd.isDir && (nodeAt fs new).isSome) = true
                · simp [h3] at h
                · simp only [h3, Bool.false_eq_true, if_false] at h
                  split at h
                  · simp at h
                  · split at h
                    · simp at h
                    · simp only [Except.ok.injEq] at h
                      refine Or.inr ⟨h1, fun hp => h2 (List.isPrefixOf_iff_prefix.2 hp), ?_,
                        h.symm⟩
                      intro hd
                      cases hx : nodeAt fs new with
                      | none => rfl
                      | some x => simp [hd, hx] at h3

/-- What a successful rename did. -/
theorem Rename_ok {fs fs2 : FS} {old new : Path} (h : Rename fs old new = .ok fs2) :
    ∃ nd, Lstat fs old = .ok nd ∧ ancestorErr fs [] new = none ∧
      (∀ n2, Lstat fs new = .ok n2 → n2.isDir = false) ∧
      ((old = new ∧ fs2 = fs) ∨
        (old ≠ new ∧ ¬ old <+: new ∧ (nd.isDir = true → nodeAt fs new = none) ∧
          fs2 = moveKeys fs old new)) := by
  have tail : renameat fs old new = .ok fs2 →
      (∀ n2, Lstat fs new = .ok n2 → n2.isDir = false) →
      ∃ nd, Lstat fs old = .ok nd ∧ ancestorErr fs [] new = none ∧
        (∀ n2, Lstat fs new = .ok n2 → n2.isDir = false) ∧
        ((old = new ∧ fs2 = fs) ∨
          (old ≠ new ∧ ¬ old <+: new ∧ (nd.isDir = true → nodeAt fs new = none) ∧
            fs2 = moveKeys fs old new)) := by
    intro hr hnew
    obtain ⟨nd, h1, h2, h3⟩ := renameat_ok hr
    exact ⟨nd, h1, h2, hnew, h3⟩
  unfold Rename at h
  cases hnew : Lstat fs new with
  | error e2 =>
    simp only [hnew] at h
    cases hr : renameat fs old new with
    | error e => simp [hr] at h
    | ok fs3 =>
      simp only [hr, Except.ok.injEq] at h
      subst h
      have key := tail hr (by intro n2 hn2; rw [hnew] at hn2; simp at hn2)
      rw [hnew] at key
      exact key
  | ok n2 =>
    simp only [hnew] at h
    by_cases hd : n2.isDir = true
    · simp only [hd, if_true] at h
      cases hold : Lstat fs old <;> simp [hold] at h
    · simp only [hd, Bool.false_eq_true, if_false] at h
      cases hr : renameat fs old new with
      | error e => simp [hr] at h
      | ok fs3 =>
        simp only [hr, Except.ok.injEq] at h
        subst h
        have key := tail hr (by
          intro n3 hn3
          rw [hnew] at hn3
          simp only [Except.ok.injEq] at hn3
          subst hn3
          simpa using hd)
        rw [hnew] at key
        exact key

theorem ancestorErr_of_dirs (fs : FS) (p : List String) :
    ∀ pre, (∀ q, q <+: p → q ≠ p → q ≠ [] →
        ∃ nd, nodeAt fs (pre ++ q) = some nd ∧ nd.canSearch = true) →
      ancestorErr fs pre p = none := by
  induction p with
  | nil => intro pre _; rfl
  | cons a rest ih =>
    intro pre h
    cases rest with
    | nil => rfl
    | cons b rest2 =>
      obtain ⟨nd, ha, hs⟩ :=
        h [a] (List.cons_prefix_cons.2 ⟨rfl, List.nil_prefix⟩) (by simp) (by simp)
      have hrest : ancestorErr fs (pre ++ [a]) (b :: rest2) = none := by
        apply ih
        intro q hq hne hq0
        have := h (a :: q) (List.cons_prefix_cons.2 ⟨rfl, hq⟩)
          (fun hx => hne (List.cons_injective hx)) (by simp)
        simpa using this
      simp only [ancestorErr, ha]
      cases nd with
      | file id sz => simp [Node.canSearch] at hs
      | brokenLink => simp [Node.canSearch] at hs
      | dir => exact hrest
      | dirWith attr =>
        have hx : attr.search = true := hs
        simp only [hx, if_true]
        exact hrest

/-- The directories above a path resolve exactly when every path strictly above
it is a directory that the process may pass through. -/
theorem ancestorErr_iff (fs : FS) (p : Path) :
    ancestorErr fs [] p = none ↔
      ∀ q, q <+: p → q ≠ p → q ≠ [] →
        ∃ nd, nodeAt fs q = some nd ∧ nd.canSearch = true := by
  constructor
  · intro h q hq hne hq0
    simpa using ancestorErr_none fs p [] h q hq hne hq0
  · intro h
    exact ancestorErr_of_dirs fs p [] (by simpa using h)

theorem Node.isDir_of_canSearch {nd : Node} (h : nd.canSearch = true) : nd.isDir = true := by
  cases nd <;> simp [Node.canSearch] at h <;> rfl

/-- Every path strictly above a path whose directories resolve names a
directory that the process may pass through. -/
theorem ancestor_dir {fs : FS} {p d : Path} (ha : ancestorErr fs [] p = none)
    (hd : d <+: p) (hne : d ≠ p) :
    ∃ nd, nodeAt fs d = some nd ∧ nd.canSearch = true ∧ nd.isDir = true := by
  by_cases h0 : d = []
  · exact ⟨Node.dir, by simp [h0, nodeAt], rfl, rfl⟩
  · obtain ⟨nd, hn, hs⟩ := (ancestorErr_iff fs p).1 ha d hd hne h0
    exact ⟨nd, hn, hs, Node.isDir_of_canSearch hs⟩

theorem ancestorErr_of_le (fs : FS) (p q : Path) (h : ancestorErr fs [] p = none)
    (hq : q <+: p) : ancestorErr fs [] q = none := by
  rw [ancestorErr_iff] at h ⊢
  intro x hx hne hx0
  apply h x (hx.trans hq) _ hx0
  intro hxp
  subst hxp
  exact hne (List.IsPrefix.eq_of_length hx
    (Nat.le_antisymm hx.length_le hq.length_le))

theorem Keeps.refl (fs : FS) : Keeps fs fs := fun _ _ h => h

theorem Keeps.trans {a b c : FS} (h1 : Keeps a b) (h2 : Keeps b c) : Keeps a c :=
  fun q n h => h2 q n (h1 q n h)

theorem Keeps.ancestorErr {fs fs1 : FS} (h : Keeps fs fs1) (p : Path)
    (ha : ancestorErr fs [] p = none) : ancestorErr fs1 [] p = none := by
  rw [ancestorErr_iff] at ha ⊢
  intro q hq hne hq0
  obtain ⟨nd, hn, hs⟩ := ha q hq hne hq0
  exact ⟨nd, h q _ hn, hs⟩

theorem Keeps.Lstat {fs fs1 : FS} (h : Keeps fs fs1) {p : Path} {nd : Node}
    (hl : Lstat fs p = .ok nd) : Lstat fs1 p = .ok nd := by
  obtain ⟨ha, hn⟩ := Lstat_ok hl
  exact Lstat_of_nodeAt (h.ancestorErr p ha) (h p nd hn)

theorem Keeps.Stat {fs fs1 : FS} (h : Keeps fs fs1) {p : Path} {nd : Node}
    (hl : Stat fs p = .ok nd) : Stat fs1 p = .ok nd := by
  obtain ⟨ha, hn, hb⟩ := Stat_ok hl
  exact Stat_of_nodeAt (h.ancestorErr p ha) (h p nd hn) hb

theorem nodeAt_cons (fs : FS) (p q : Path) (n : Node) :
    nodeAt ((p, n) :: fs) q =
      if q = [] then some Node.dir else if p = q then some n else nodeAt fs q := by
  unfold nodeAt
  by_cases hq : q = []
  · simp [hq]
  · simp [hq, lookupEntry]

theorem Mkdir_ok {fs fs1 : FS} {p : Path} (h : Mkdir fs p = .ok fs1) :
    nodeAt fs p = none ∧ fs1 = (p, Node.dir) :: fs := by
  unfold Mkdir at h
  cases ha : ancestorErr fs [] p with
  | some e => simp [ha] at h
  | none =>
    cases hn : nodeAt fs p with
    | some n => simp [ha, hn] at h
    | none =>
      simp only [ha, hn] at h
      split at h
      · simp only [Except.ok.injEq] at h
        exact ⟨rfl, h.symm⟩
      · simp at h

theorem Mkdir_keeps {fs fs1 : FS} {p : Path} (h : Mkdir fs p = .ok fs1) : Keeps fs fs1 := by
  obtain ⟨hn, rfl⟩ := Mkdir_ok h
  intro q n hq
  rw [nodeAt_cons]
  by_cases hq0 : q = []
  · simp only [hq0, if_true]
    rw [hq0] at hq
    simpa [nodeAt] using hq
  · simp only [hq0, if_false]
    by_cases hpq : p = q
    · subst hpq
      rw [hn] at hq
      simp at hq
    · simp only [hpq, if_false]
      exact hq

theorem mkdirAllOn_keeps (ps : List Path) :
    ∀ fs fs1, mkdirAllOn fs ps = .ok fs1 → Keeps fs fs1 := by
  induction ps with
  | nil =>
    intro fs fs1 h
    simp only [mkdirAllOn, Except.ok.injEq] at h
    subst h
    exact Keeps.refl fs
  | cons p parents ih =>
    intro fs fs1 h
    simp only [mkdirAllOn] at h
    cases hs : Stat fs p with
    | ok nd =>
      simp only [hs] at h
      by_cases hd : nd.isDir = true
      · simp only [hd, if_true, Except.ok.injEq] at h
        subst h
        exact Keeps.refl fs
      · simp [hd] at h
    | error e =>
      simp only [hs] at h
      cases hp : mkdirAllOn fs parents with
      | error e2 => simp [hp] at h
      | ok fs2 =>
        simp only [hp] at h
        have h12 := ih fs fs2 hp
        cases hm : Mkdir fs2 p with
        | ok fs3 =>
          simp only [hm, Except.ok.injEq] at h
          subst h
          exact h12.trans (Mkdir_keeps hm)
        | error e3 =>
          simp only [hm] at h
          cases hl : Lstat fs2 p with
          | error e4 => simp [hl] at h
          | ok n4 =>
            simp only [hl] at h
            split at h
            · simp only [Except.ok.injEq] at h
              subst h
              exact h12
            · simp at h

theorem Prepared.keeps {fs fs1 : FS} {dir : Path} (h : Prepared fs dir fs1) :
    Keeps fs fs1 := by
  rcases h with ⟨-, rfl⟩ | ⟨-, h⟩
  · exact Keeps.refl _
  · exact mkdirAllOn_keeps _ _ _ h

theorem dirExists_of_child {fs : FS} {dir : Path} {name : String}
    (ha : ancestorErr fs [] (dir ++ [name]) = none) : dirExists fs dir = some true := by
  have hd : ancestorErr fs [] dir = none :=
    ancestorErr_of_le fs _ dir ha (List.prefix_append _ _)
  obtain ⟨nd, hn, -, hdir⟩ := ancestor_dir ha (List.prefix_append dir [name]) (by simp)
  have := Stat_of_nodeAt hd hn (by intro hb; rw [hb] at hdir; simp [Node.isDir] at hdir)
  simp [dirExists, this, hdir]

theorem Prepared.eq_of_child {fs fs1 : FS} {dir : Path} {name : String}
    (h : Prepared fs dir fs1) (ha : ancestorErr fs [] (dir ++ [name]) = none) :
    fs1 = fs := by
  rcases h with ⟨-, h⟩ | ⟨h, -⟩
  · exact h
  · rw [dirExists_of_child ha] at h
    simp at h

/-! ## Names of matched entries -/

theorem renderChars_concat (q : List String) (n : String) (hq : q ≠ []) :
    renderChars (q ++ [n]) = renderChars q ++ '/' :: n.data := by
  induction q with
  | nil => exact absurd rfl hq
  | cons a rest ih =>
    cases rest with
    | nil => simp [renderChars]
    | cons b rest2 =>
      have h1 : renderChars (a :: b :: (rest2 ++ [n])) =
          a.data ++ '/' :: renderChars (b :: (rest2 ++ [n])) := rfl
      have h2 : renderChars (a :: b :: rest2) = a.data ++ '/' :: renderChars (b :: rest2) := rfl
      have h3 : renderChars (b :: (rest2 ++ [n])) =
          renderChars (b :: rest2) ++ '/' :: n.data := ih (by simp)
      rw [List.cons_append, List.cons_append, h1, h2, h3]
      simp

/-- The extension of a path is the extension of its last component. -/
theorem filepathExt_render_concat (q : Path) (n : String) :
    filepathExt (render (q ++ [n])) = filepathExt n := by
  by_cases hq : q = []
  · subst hq
    simp [render, renderChars]
  · have h1 : render (q ++ [n]) = ⟨renderChars q ++ '/' :: n.data⟩ := by
      simp [render, renderChars_concat q n hq]
    rw [h1]
    simp only [filepathExt, List.reverse_append, List.reverse_cons, List.append_assoc,
      List.singleton_append]
    rw [extScan_append_slash]

/-- The keys of the rule table: a dot followed by letters or digits; the
categories are plain names. -/
theorem rule_shape {e c : String} (h : mapGet DefaultRules e = some c) :
    (∃ tail, e.data = '.' :: tail ∧ tail ≠ [] ∧ ∀ ch ∈ tail, ch ≠ '.' ∧ ch ≠ '/') ∧
    (∀ d : Path, filepathJoin d c = d ++ [c]) ∧ filepathExt c = "" := by
  rw [mapGet_eq_some _ _ _ rules_nodup] at h
  simp only [DefaultRules, List.mem_cons, Prod.mk.injEq, List.mem_singleton,
    List.not_mem_nil, or_false] at h
  rcases h with h | h | h | h | h | h | h | h | h | h | h | h | h <;>
    obtain ⟨rfl, rfl⟩ := h <;>
    refine ⟨⟨_, rfl, by decide, by decide⟩, fun d => by simp [filepathJoin], by decide⟩

theorem extScan_nil_of_no_dot (rev acc : List Char) (h : ∀ c ∈ rev, c ≠ '.') :
    extScan rev acc = [] := by
  induction rev generalizing acc with
  | nil => rfl
  | cons c rest ih =>
    have hc := h c (List.mem_cons_self _ _)
    simp only [extScan, if_neg hc]
    split_ifs
    · rfl
    · exact ih _ (fun d hd => h d (List.mem_cons_of_mem _ hd))

/-- A base name keeps the extension of the path. -/
theorem filepathBase_shape (s : String) (tail : List Char)
    (h : (filepathExt s).data = '.' :: tail) (htail : ∀ c ∈ tail, c ≠ '.' ∧ c ≠ '/') :
    ∃ y, (filepathBase s).data = y ++ '.' :: tail := by
  obtain ⟨x, hx, -⟩ := filepathExt_suffix s
  rw [h] at hx
  have hrev : s.data.reverse = (tail.reverse ++ ['.']) ++ x.reverse := by
    rw [hx]; simp
  have hne : s.data ≠ [] := by rw [hx]; simp
  have hall : ∀ c ∈ tail.reverse ++ ['.'], c ≠ '/' := by
    intro c hc
    rcases List.mem_append.1 hc with hc | hc
    · exact (htail c (List.mem_reverse.1 hc)).2
    · rw [List.mem_singleton.1 hc]; decide
  have hdrop : (s.data.reverse.dropWhile fun c => c == '/') = s.data.reverse := by
    rw [hrev]
    cases htr : tail.reverse with
    | nil => simp [List.dropWhile]
    | cons c rest =>
      have hc : c ≠ '/' := hall c (by simp [htr])
      have hcb : (c == '/') = false := by simp [hc]
      simp [List.dropWhile, hcb]
  have htake : (s.data.reverse.takeWhile fun c => c != '/') =
      (tail.reverse ++ ['.']) ++ (x.reverse.takeWhile fun c => c != '/') := by
    rw [hrev]
    apply List.takeWhile_append_of_pos
    intro c hc
    simpa using hall c hc
  refine ⟨(x.reverse.takeWhile fun c => c != '/').reverse, ?_⟩
  unfold filepathBase
  simp only [hne, if_false, hdrop, htake]
  rw [if_neg (by simp)]
  simp

/-- A name that ends in an extension of the rule-table shape is joined to a
directory as one component. -/
theorem filepathJoin_plain (dir : Path) (n : String) (x tail : List Char)
    (hn : n.data = x ++ '.' :: tail) (htne : tail ≠ [])
    (htail : ∀ ch ∈ tail, ch ≠ '.' ∧ ch ≠ '/') : filepathJoin dir n = dir ++ [n] := by
  have hrev : n.data.reverse = tail.reverse ++ '.' :: x.reverse := by
    rw [hn]; simp
  cases htr : tail.reverse with
  | nil => exact absurd (List.reverse_eq_nil_iff.1 htr) htne
  | cons ch rest =>
    have hch := htail ch (List.mem_reverse.1 (by rw [htr]; exact List.mem_cons_self _ _))
    rw [htr] at hrev
    have h1 : n ≠ "." := by
      intro hx; rw [hx] at hrev
      have := List.head_eq_of_cons_eq hrev
      exact hch.1 this.symm
    have h2 : n ≠ "/" := by
      intro hx; rw [hx] at hrev
      have := List.head_eq_of_cons_eq hrev
      exact hch.2 this.symm
    have h3 : n ≠ "" := by
      intro hx; rw [hx] at hrev
      simp at hrev
    have h4 : n ≠ ".." := by
      intro hx; rw [hx] at hrev
      have := List.head_eq_of_cons_eq hrev
      exact hch.1 this.symm
    simp [filepathJoin, h1, h2, h3, h4]

/-- Base name and collision name of a path with an extension of the rule
table: both keep the extension and are plain names. -/
theorem matched_shapes (s c : String) (now : Time)
    (h : mapGet DefaultRules (filepathExt s) = some c) :
    filepathExt (filepathBase s) = filepathExt s ∧
    filepathExt (generateNewFileName s now) = filepathExt s ∧
    (∀ dir : Path, filepathJoin dir (filepathBase s) = dir ++ [filepathBase s]) ∧
    (∀ dir : Path, filepathJoin dir (generateNewFileName s now) =
      dir ++ [generateNewFileName s now]) := by
  obtain ⟨⟨tail, he, htne, htail⟩, -, -⟩ := rule_shape h
  obtain ⟨y, hy⟩ := filepathBase_shape s tail he htail
  have hext : filepathExt s = ⟨'.' :: tail⟩ := by
    rw [← he]
  have hbase : filepathExt (filepathBase s) = ⟨'.' :: tail⟩ := by
    have := filepathExt_append y tail htail
    rw [← hy] at this
    exact this
  obtain ⟨stem, -, hgen⟩ := generateNewFileName_eq s now
  rw [hbase] at hgen
  have hgen2 : (generateNewFileName s now).data =
      (stem ++ '_' :: (formatStamp now).data) ++ '.' :: tail := by
    rw [hgen]
  have hgext : filepathExt (generateNewFileName s now) = ⟨'.' :: tail⟩ := by
    have := filepathExt_append (stem ++ '_' :: (formatStamp now).data) tail htail
    rw [← hgen2] at this
    exact this
  exact ⟨by rw [hbase, hext], by rw [hgext, hext],
    fun dir => filepathJoin_plain dir _ y tail hy htne htail,
    fun dir => filepathJoin_plain dir _ _ tail hgen2 htne htail⟩

theorem destination_cases (fs : FS) (now : Time) (src dir : Path) :
    (fileExists fs (filepathJoin dir (filepathBase (render src))) = true ∧
      destination fs now src dir =
        (filepathJoin dir (generateNewFileName (render src) now), true)) ∨
    (fileExists fs (filepathJoin dir (filepathBase (render src))) = false ∧
      destination fs now src dir = (filepathJoin dir (filepathBase (render src)), false)) := by
  unfold destination
  cases h : fileExists fs (filepathJoin dir (filepathBase (render src))) <;> simp [h]

/-- The shape of the names the mover renames to, for an entry with an
extension of the rule table: the name keeps the extension and is joined to the
target directory as one component. -/
theorem destination_shape (fs : FS) (now : Time) (src dir : Path) (c : String)
    (h : mapGet DefaultRules (filepathExt (render src)) = some c) :
    ∃ name, (destination fs now src dir).1 = dir ++ [name] ∧
      filepathExt name = filepathExt (render src) ∧
      (name = filepathBase (render src) ∨
        name = generateNewFileName (render src) now) := by
  obtain ⟨h1, h2, h3, h4⟩ := matched_shapes (render src) c now h
  rcases destination_cases fs now src dir with ⟨-, hd⟩ | ⟨-, hd⟩
  · exact ⟨_, by rw [hd, h4], h2, Or.inr rfl⟩
  · exact ⟨_, by rw [hd, h3], h1, Or.inl rfl⟩

/-! ## What a call leaves in place -/

theorem organizeFn_fs (fo : State) (path : Path) (info : Option Node) (c : String)
    (h : mapGet DefaultRules (filepathExt (render path)) = some c) :
    (organizeFn fo path info none).1.fs =
      (moveFile fo path (filepathJoin fo.sourceDir c)).1.fs := by
  rw [organizeFn_matched fo path info c h]
  cases (moveFile fo path (filepathJoin fo.sourceDir c)).2 <;> rfl

theorem moveFile_sourceDir (fo : State) (src dir : Path) :
    (moveFile fo src dir).1.sourceDir = fo.sourceDir := by
  rcases moveFile_cases fo src dir with
    ⟨-, hm⟩ | ⟨e1, -, hmk, hm⟩ | ⟨fs1, e1, hp, hr, hm⟩ | ⟨fs1, fs2, e1, hp, hr, hs, hm⟩ |
    ⟨fs1, fs2, nd, hp, hr, hs, hm⟩ <;> rw [hm] <;> rfl

theorem organizeFn_sourceDir (fo : State) (path : Path) (info : Option Node)
    (er : Option GoErr) : (organizeFn fo path info er).1.sourceDir = fo.sourceDir := by
  cases er with
  | some e => rw [organizeFn_error]
  | none =>
    cases hrule : mapGet DefaultRules (filepathExt (render path)) with
    | none => rw [organizeFn_unmatched fo path info hrule]
    | some c =>
      rw [organizeFn_matched fo path info c hrule]
      have := moveFile_sourceDir fo path (filepathJoin fo.sourceDir c)
      cases (moveFile fo path (filepathJoin fo.sourceDir c)).2 <;> exact this

/-- A rename leaves in place what lies neither below its source nor below its
target. -/
theorem Rename_frame {fs fs2 : FS} {old new f : Path} {nd : Node}
    (h : Rename fs old new = .ok fs2) (hf : nodeAt fs f = some nd)
    (hold : ¬ old <+: f ∨ old <+: new) (hnew : ¬ new <+: f) :
    nodeAt fs2 f = some nd := by
  obtain ⟨n0, -, -, -, hcase⟩ := Rename_ok h
  rcases hcase with ⟨-, rfl⟩ | ⟨hne, hnp, -, rfl⟩
  · exact hf
  · by_cases hf0 : f = []
    · subst hf0
      simpa [nodeAt] using hf
    · rw [nodeAt_moveKeys _ _ _ _ hf0, if_neg hnew]
      rcases hold with hold | hold
      · rw [if_neg hold]; exact hf
      · exact absurd hold hnp

/-- The mover leaves a node in place when its source is not above the node, or
is above every target, and no target is above the node. -/
theorem moveFile_frame (fo : State) (src dir f : Path) (nd : Node)
    (hf : nodeAt fo.fs f = some nd)
    (hsrc : ¬ src <+: f ∨
      ∀ fs1, src <+: (destination fs1 (fo.clock fo.ticks) src dir).1)
    (hdst : ∀ fs1, ¬ (destination fs1 (fo.clock fo.ticks) src dir).1 <+: f) :
    nodeAt (moveFile fo src dir).1.fs f = some nd := by
  rcases moveFile_cases fo src dir with
    ⟨-, hm⟩ | ⟨e1, -, hmk, hm⟩ | ⟨fs1, e1, hp, hr, hm⟩ | ⟨fs1, fs2, e1, hp, hr, hs, hm⟩ |
    ⟨fs1, fs2, n2, hp, hr, hs, hm⟩
  · rw [hm]; exact hf
  · rw [hm]; exact hf
  · rw [hm]; exact hp.keeps f nd hf
  · rw [hm]
    exact Rename_frame hr (hp.keeps f nd hf) (hsrc.imp id (fun h => h fs1)) (hdst fs1)
  · rw [hm]
    exact Rename_frame hr (hp.keeps f nd hf) (hsrc.imp id (fun h => h fs1)) (hdst fs1)

/-- One call of the walk function leaves a node in place when no path below
the source directory and at or above the node has an extension of the rule
table, the call being for a path at or below the source directory. -/
theorem organizeFn_frame (fo : State) (path : Path) (info : Option Node)
    (er : Option GoErr) (f : Path) (nd : Node)
    (hf : nodeAt fo.fs f = some nd)
    (hpath : fo.sourceDir <+: path)
    (hclean : ∀ q, fo.sourceDir <+: q → q ≠ fo.sourceDir → q <+: f →
      mapGet DefaultRules (filepathExt (render q)) = none) :
    nodeAt (organizeFn fo path info er).1.fs f = some nd := by
  cases er with
  | some e => rw [organizeFn_error]; exact hf
  | none =>
    cases hrule : mapGet DefaultRules (filepathExt (render path)) with
    | none => rw [organizeFn_unmatched fo path info hrule]; exact hf
    | some c =>
      rw [organizeFn_fs fo path info c hrule]
      have hjoin : filepathJoin fo.sourceDir c = fo.sourceDir ++ [c] :=
        (rule_shape hrule).2.1 _
      rw [hjoin]
      have hshape := fun fs1 =>
        destination_shape fs1 (fo.clock fo.ticks) path (fo.sourceDir ++ [c]) c hrule
      apply moveFile_frame fo path _ f nd hf
      · by_cases hpf : path <+: f
        · right
          intro fs1
          obtain ⟨name, hd, -, -⟩ := hshape fs1
          rw [hd]
          have hps : path = fo.sourceDir := by
            by_contra hne
            have := hclean path hpath hne hpf
            rw [hrule] at this
            simp at this
          rw [hps, List.append_assoc]
          exact List.prefix_append _ _
        · exact Or.inl hpf
      · intro fs1 hcontra
        obtain ⟨name, hd, hext, -⟩ := hshape fs1
        rw [hd] at hcontra
        have := hclean (fo.sourceDir ++ [c] ++ [name])
          (by rw [List.append_assoc]; exact List.prefix_append _ _)
          (by
            intro hx
            have := congrArg List.length hx
            simp at this)
          hcontra
        rw [filepathExt_render_concat, hext, hrule] at this
        simp at this

/-- A run of calls for paths at or below the source directory leaves such a
node in place. -/
theorem Run.frame {s s2 : State} {evs : List Event} {r : Res}
    (h : Run organizeFn s evs s2 r) (hp : ∀ ev ∈ evs, s.sourceDir <+: ev.path)
    (f : Path) (nd : Node) (hf : nodeAt s.fs f = some nd)
    (hclean : ∀ q, s.sourceDir <+: q → q ≠ s.sourceDir → q <+: f →
      mapGet DefaultRules (filepathExt (render q)) = none) :
    nodeAt s2.fs f = some nd ∧ s2.sourceDir = s.sourceDir := by
  induction h with
  | start => exact ⟨hf, rfl⟩
  | call hrun hfn ih =>
    rename_i s1 s3 evs p i er r
    obtain ⟨ih1, ih2⟩ := ih (fun ev hev => hp ev (List.mem_append_left _ hev))
    have hpp : s1.sourceDir <+: p := by
      rw [ih2]
      exact hp ⟨s1, p, i, er, s3, r⟩ (by simp)
    have h3 : s3 = (organizeFn s1 p i er).1 := by rw [hfn]
    rw [h3]
    refine ⟨organizeFn_frame s1 p i er f nd ih1 hpp (by rw [ih2]; exact hclean), ?_⟩
    rw [organizeFn_sourceDir, ih2]

/-! ## Moves of files -/

/-- The base name of a path is its last component, when that is a file name. -/
theorem filepathBase_render_concat (q : Path) (n : String) (hn : ∀ c ∈ n.data, c ≠ '/')
    (hne : n.data ≠ []) : filepathBase (render (q ++ [n])) = n := by
  have hdata : ∃ x, (render (q ++ [n])).data.reverse = n.data.reverse ++ x ∧
      (x = [] ∨ ∃ y, x = '/' :: y) := by
    by_cases hq : q = []
    · subst hq
      exact ⟨[], by simp [render, renderChars], Or.inl rfl⟩
    · refine ⟨'/' :: (renderChars q).reverse, ?_, Or.inr ⟨_, rfl⟩⟩
      simp [render, renderChars_concat q n hq]
  obtain ⟨x, hrev, hx⟩ := hdata
  have hne2 : (render (q ++ [n])).data ≠ [] := by
    intro h0
    rw [h0] at hrev
    simp at hrev
    exact hne hrev.1
  have hall : ∀ c ∈ n.data.reverse, c ≠ '/' := fun c hc => hn c (List.mem_reverse.1 hc)
  have hdrop : ((render (q ++ [n])).data.reverse.dropWhile fun c => c == '/') =
      (render (q ++ [n])).data.reverse := by
    rw [hrev]
    cases hnr : n.data.reverse with
    | nil => exact absurd (List.reverse_eq_nil_iff.1 hnr) hne
    | cons c rest =>
      have hc : c ≠ '/' := hall c (by simp [hnr])
      have hcb : (c == '/') = false := by simp [hc]
      simp [List.dropWhile, hcb]
  have htake : ((render (q ++ [n])).data.reverse.takeWhile fun c => c != '/') =
      n.data.reverse := by
    rw [hrev, List.takeWhile_append_of_pos (fun c hc => by simpa using hall c hc)]
    rcases hx with rfl | ⟨y, rfl⟩
    · simp
    · simp [List.takeWhile]
  unfold filepathBase
  simp only [hne2, if_false, hdrop, htake]
  rw [if_neg (by simpa using hne)]
  simp

/-- The collision name differs from the base name. -/
theorem generateNewFileName_ne_base (path : String) (now : Time) :
    generateNewFileName path now ≠ filepathBase path := by
  obtain ⟨stem, hb, hg⟩ := generateNewFileName_eq path now
  intro h
  have := congrArg (fun x => x.data.length) h
  simp only [hb, hg] at this
  simp at this
  omega

theorem fileExists_of_Stat {fs : FS} {p : Path} {nd : Node} (h : Stat fs p = .ok nd) :
    fileExists fs p = true := by
  simp [fileExists, h]

/-- The names the mover can take for a matched entry whose last component is a
file name: the component itself, or its collision name, which is different;
both are joined to the target directory as one component. -/
theorem matched_names (q : Path) (n c : String) (now : Time)
    (hn : ∀ ch ∈ n.data, ch ≠ '/')
    (hrule : mapGet DefaultRules (filepathExt n) = some c) :
    mapGet DefaultRules (filepathExt (render (q ++ [n]))) = some c ∧
    filepathBase (render (q ++ [n])) = n ∧
    generateNewFileName (render (q ++ [n])) now ≠ n ∧
    filepathExt (generateNewFileName (render (q ++ [n])) now) = filepathExt n ∧
    (∀ dir : Path, filepathJoin dir n = dir ++ [n]) ∧
    (∀ dir : Path, filepathJoin dir (generateNewFileName (render (q ++ [n])) now) =
      dir ++ [generateNewFileName (render (q ++ [n])) now]) := by
  obtain ⟨⟨tail, he, -, -⟩, -, -⟩ := rule_shape hrule
  have hne : n.data ≠ [] := by
    obtain ⟨stem, hs, -⟩ := filepathExt_suffix n
    rw [hs, he]
    simp
  have hbase := filepathBase_render_concat q n hn hne
  have hrule2 : mapGet DefaultRules (filepathExt (render (q ++ [n]))) = some c := by
    rw [filepathExt_render_concat]; exact hrule
  have hgne := generateNewFileName_ne_base (render (q ++ [n])) now
  rw [hbase] at hgne
  obtain ⟨-, h2, h3, h4⟩ := matched_shapes (render (q ++ [n])) c now hrule2
  rw [hbase] at h3
  rw [filepathExt_render_concat] at h2
  exact ⟨hrule2, hbase, hgne, h2, h3, h4⟩

theorem moveFile_nil (fo : State) (src dir : Path)
    (h : (moveFile fo src dir).2 = Res.nil) :
    ∃ fs1 fs2 nd, Prepared fo.fs dir fs1 ∧
      Rename fs1 src (destination fs1 (fo.clock fo.ticks) src dir).1 = .ok fs2 ∧
      Stat fs2 (destination fs1 (fo.clock fo.ticks) src dir).1 = .ok nd ∧
      (moveFile fo src dir).1.fs = fs2 ∧
      (moveFile fo src dir).1.statistics =
        bump fo.statistics
          (filepathExt (render (destination fs1 (fo.clock fo.ticks) src dir).1))
          (nd.size fo.dirSize) := by
  rcases moveFile_cases fo src dir with
    ⟨-, hm⟩ | ⟨e1, -, hmk, hm⟩ | ⟨fs1, e1, hp, hr, hm⟩ | ⟨fs1, fs2, e1, hp, hr, hs, hm⟩ |
    ⟨fs1, fs2, n2, hp, hr, hs, hm⟩
  · rw [hm] at h; simp at h
  · rw [hm] at h; simp at h
  · rw [hm] at h; simp at h
  · rw [hm] at h; simp at h
  · exact ⟨fs1, fs2, n2, hp, hr, hs, by rw [hm]; rfl, by rw [hm]; rfl⟩

theorem organizeFn_nil (fo : State) (path : Path) (info : Option Node) (c : String)
    (hrule : mapGet DefaultRules (filepathExt (render path)) = some c)
    (h : (organizeFn fo path info none).2 = Res.nil) :
    (moveFile fo path (filepathJoin fo.sourceDir c)).2 = Res.nil ∧
    (organizeFn fo path info none).1 = (moveFile fo path (filepathJoin fo.sourceDir c)).1 := by
  rw [organizeFn_matched fo path info c hrule] at h ⊢
  cases hm : (moveFile fo path (filepathJoin fo.sourceDir c)).2 with
  | nil => exact ⟨rfl, rfl⟩
  | err e => rw [hm] at h; simp at h
  | panic => rw [hm] at h; simp at h

/-- What a successful rename of a file does: the file is at the new path and
its old path is empty. -/
theorem Rename_file {fs fs2 : FS} {old new : Path} {id sz : Nat}
    (h : Rename fs old new = .ok fs2) (hold : Lstat fs old = .ok (Node.file id sz))
    (hne : old ≠ new) :
    fs2 = moveKeys fs old new ∧ nodeAt fs2 new = some (Node.file id sz) ∧
      nodeAt fs2 old = none := by
  obtain ⟨n0, hl, ha, hnd, hcase⟩ := Rename_ok h
  obtain ⟨haold, hnold⟩ := Lstat_ok hold
  rcases hcase with ⟨heq, -⟩ | ⟨-, hnp, -, rfl⟩
  · exact absurd heq hne
  · have hold0 : old ≠ [] := by
      intro h0
      subst h0
      exact hnp List.nil_prefix
    have hnew0 : new ≠ [] := by
      intro h0
      subst h0
      have := hnd Node.dir (Lstat_of_nodeAt ha (by simp [nodeAt]))
      simp [Node.isDir] at this
    refine ⟨rfl, ?_, ?_⟩
    · rw [nodeAt_moveKeys _ _ _ _ hnew0, if_pos (List.prefix_refl _)]
      simp only [List.drop_length, List.append_nil]
      simpa [nodeAt, hold0] using hnold
    · rw [nodeAt_moveKeys _ _ _ _ hold0]
      by_cases hno : new <+: old
      · exfalso
        obtain ⟨nd, hdir, -, hisdir⟩ := ancestor_dir haold hno (fun hx => hne hx.symm)
        have := hnd _ (Lstat_of_nodeAt ha hdir)
        rw [hisdir] at this
        simp at this
      · rw [if_neg hno, if_pos (List.prefix_refl _)]

/-- A call of the walk function that moved a file: afterwards the file is in
the category directory, under its own name or its collision name, and its
original path is empty. -/
theorem organizeFn_relocates (fo : State) (q : Path) (n c : String) (info : Option Node)
    (id sz : Nat) (hn : ∀ ch ∈ n.data, ch ≠ '/')
    (hrule : mapGet DefaultRules (filepathExt n) = some c)
    (hfile : Lstat fo.fs (q ++ [n]) = .ok (Node.file id sz))
    (hres : (organizeFn fo (q ++ [n]) info none).2 = Res.nil) :
    ∃ name, (name = n ∨ name = generateNewFileName (render (q ++ [n])) (fo.clock fo.ticks)) ∧
      nodeAt (organizeFn fo (q ++ [n]) info none).1.fs (fo.sourceDir ++ [c, name]) =
        some (Node.file id sz) ∧
      nodeAt (organizeFn fo (q ++ [n]) info none).1.fs (q ++ [n]) = none := by
  obtain ⟨hrule2, hbase, hgne, -, hj1, hj2⟩ :=
    matched_names q n c (fo.clock fo.ticks) hn hrule
  obtain ⟨hmnil, hmeq⟩ := organizeFn_nil fo (q ++ [n]) info c hrule2 hres
  rw [hmeq]
  have hjoin : filepathJoin fo.sourceDir c = fo.sourceDir ++ [c] :=
    (rule_shape hrule).2.1 _
  rw [hjoin] at hmnil ⊢
  obtain ⟨fs1, fs2, nd, hp, hr, -, hfs, -⟩ := moveFile_nil fo (q ++ [n]) _ hmnil
  rw [hfs]
  have hfile1 : Lstat fs1 (q ++ [n]) = .ok (Node.file id sz) := hp.keeps.Lstat hfile
  rcases destination_cases fs1 (fo.clock fo.ticks) (q ++ [n]) (fo.sourceDir ++ [c]) with
    ⟨-, hd⟩ | ⟨hfe, hd⟩
  · rw [hd, hj2] at hr
    have hne : q ++ [n] ≠
        fo.sourceDir ++ [c] ++ [generateNewFileName (render (q ++ [n])) (fo.clock fo.ticks)] := by
      intro hx
      have := (List.append_inj' hx rfl).2
      simp only [List.cons.injEq, and_true] at this
      exact hgne this.symm
    obtain ⟨-, h1, h2⟩ := Rename_file hr hfile1 hne
    refine ⟨_, Or.inr rfl, ?_, h2⟩
    rw [show fo.sourceDir ++ [c, generateNewFileName (render (q ++ [n])) (fo.clock fo.ticks)] =
      fo.sourceDir ++ [c] ++ [generateNewFileName (render (q ++ [n])) (fo.clock fo.ticks)]
      from by simp]
    exact h1
  · rw [hbase] at hfe hd
    rw [hj1] at hfe
    rw [hd, hj1] at hr
    have hne : q ++ [n] ≠ fo.sourceDir ++ [c] ++ [n] := by
      intro hx
      obtain ⟨ha, hnode⟩ := Lstat_ok hfile1
      have hst : Stat fs1 (q ++ [n]) = .ok (Node.file id sz) :=
        Stat_of_nodeAt ha hnode (by simp)
      rw [hx] at hst
      rw [fileExists_of_Stat hst] at hfe
      simp at hfe
    obtain ⟨-, h1, h2⟩ := Rename_file hr hfile1 hne
    refine ⟨_, Or.inl rfl, ?_, h2⟩
    rw [show fo.sourceDir ++ [c, n] = fo.sourceDir ++ [c] ++ [n] from by simp]
    exact h1

/-- The mover called with success for a file whose name is taken in the target
directory: the file was renamed to the collision name, and it is counted. -/
theorem moveFile_collision (fo : State) (q dir : Path) (n c : String) (id sz : Nat)
    (ndA : Node) (hn : ∀ ch ∈ n.data, ch ≠ '/')
    (hrule : mapGet DefaultRules (filepathExt n) = some c)
    (htaken : Stat fo.fs (dir ++ [n]) = .ok ndA)
    (hfile : Lstat fo.fs (q ++ [n]) = .ok (Node.file id sz))
    (hres : (moveFile fo (q ++ [n]) dir).2 = Res.nil) :
    (moveFile fo (q ++ [n]) dir).1.fs = moveKeys fo.fs (q ++ [n])
      (dir ++ [generateNewFileName (render (q ++ [n])) (fo.clock fo.ticks)]) ∧
    (moveFile fo (q ++ [n]) dir).1.statistics = bump fo.statistics (filepathExt n) sz ∧
    nodeAt (moveFile fo (q ++ [n]) dir).1.fs
      (dir ++ [generateNewFileName (render (q ++ [n])) (fo.clock fo.ticks)]) =
        some (Node.file id sz) ∧
    nodeAt (moveFile fo (q ++ [n]) dir).1.fs (q ++ [n]) = none := by
  obtain ⟨hrule2, hbase, hgne, hgext, hj1, hj2⟩ :=
    matched_names q n c (fo.clock fo.ticks) hn hrule
  obtain ⟨hataken, -, -⟩ := Stat_ok htaken
  have hdest : ∀ fs1, Prepared fo.fs dir fs1 → fs1 = fo.fs :=
    fun fs1 hp => hp.eq_of_child hataken
  have hdest2 : (destination fo.fs (fo.clock fo.ticks) (q ++ [n]) dir).1 =
      dir ++ [generateNewFileName (render (q ++ [n])) (fo.clock fo.ticks)] := by
    rcases destination_cases fo.fs (fo.clock fo.ticks) (q ++ [n]) dir with ⟨-, hd⟩ | ⟨hfe, -⟩
    · rw [hd, hj2]
    · rw [hbase, hj1, fileExists_of_Stat htaken] at hfe
      simp at hfe
  have hne : q ++ [n] ≠
      dir ++ [generateNewFileName (render (q ++ [n])) (fo.clock fo.ticks)] := by
    intro hx
    have := (List.append_inj' hx rfl).2
    simp only [List.cons.injEq, and_true] at this
    exact hgne this.symm
  rcases moveFile_cases fo (q ++ [n]) dir with
    ⟨-, hm⟩ | ⟨e1, -, -, hm⟩ | ⟨fs1, e1, -, -, hm⟩ | ⟨fs1, fs2, e1, -, -, -, hm⟩ |
    ⟨fs1, fs2, n2, hp, hr, hs, hm⟩
  · rw [hm] at hres; simp at hres
  · rw [hm] at hres; simp at hres
  · rw [hm] at hres; simp at hres
  · rw [hm] at hres; simp at hres
  · have h1 := hdest fs1 hp
    subst h1
    rw [hdest2] at hr hs
    obtain ⟨hfs, hn1, hn2⟩ := Rename_file hr hfile hne
    have hn2eq : n2 = Node.file id sz := by
      have := (Stat_ok hs).2.1
      rw [hn1] at this
      simp only [Option.some.injEq] at this
      exact this.symm
    subst hn2eq
    rw [hm, hdest2, filepathExt_render_concat, hgext]
    exact ⟨hfs, rfl, hn1, hn2⟩

/-! ## The walk returns -/

theorem lookupEntry_mem {fs : FS} {k : Path} {n : Node} (h : lookupEntry fs k = some n) :
    (k, n) ∈ fs := by
  induction fs with
  | nil => simp [lookupEntry] at h
  | cons e rest ih =>
    obtain ⟨k1, n1⟩ := e
    by_cases hk : k1 = k
    · simp only [lookupEntry, if_pos hk, Option.some.injEq] at h
      subst hk; subst h
      exact List.mem_cons_self _ _
    · simp only [lookupEntry, if_neg hk] at h
      exact List.mem_cons_of_mem _ (ih h)

theorem depthBound_ge (root : Path) (fs : FS) :
    root.length + 1 ≤ depthBound root fs ∧
    ∀ e ∈ fs, weight root e.1 ≤ depthBound root fs := by
  induction fs with
  | nil => simp [depthBound]
  | cons e rest ih =>
    have hstep : depthBound root (e :: rest) = max (weight root e.1) (depthBound root rest) := by
      simp [depthBound]
    rw [hstep]
    refine ⟨le_trans ih.1 (le_max_right _ _), ?_⟩
    intro x hx
    rcases List.mem_cons.1 hx with rfl | hx
    · exact le_max_left _ _
    · exact le_trans (ih.2 x hx) (le_max_right _ _)

theorem Bounded_depthBound (root : Path) (fs : FS) : Bounded root (depthBound root fs) fs :=
  fun k n h => (depthBound_ge root fs).2 (k, n) (lookupEntry_mem h)

theorem mkdirAllOn_adds (ps : List Path) :
    ∀ fs fs1, mkdirAllOn fs ps = .ok fs1 →
      ∀ k n, lookupEntry fs1 k = some n → lookupEntry fs k = some n ∨ k ∈ ps := by
  induction ps with
  | nil =>
    intro fs fs1 h k n hk
    simp only [mkdirAllOn, Except.ok.injEq] at h
    subst h
    exact Or.inl hk
  | cons p parents ih =>
    intro fs fs1 h k n hk
    simp only [mkdirAllOn] at h
    cases hs : Stat fs p with
    | ok nd =>
      simp only [hs] at h
      by_cases hd : nd.isDir = true
      · simp only [hd, if_true, Except.ok.injEq] at h
        subst h
        exact Or.inl hk
      · simp [hd] at h
    | error e =>
      simp only [hs] at h
      cases hp : mkdirAllOn fs parents with
      | error e2 => simp [hp] at h
      | ok fs2 =>
        simp only [hp] at h
        have h12 := ih fs fs2 hp
        cases hm : Mkdir fs2 p with
        | ok fs3 =>
          simp only [hm, Except.ok.injEq] at h
          subst h
          obtain ⟨-, rfl⟩ := Mkdir_ok hm
          by_cases hpk : p = k
          · exact Or.inr (by rw [hpk]; exact List.mem_cons_self _ _)
          · simp only [lookupEntry, if_neg hpk] at hk
            exact (h12 k n hk).imp id (List.mem_cons_of_mem _)
        | error e3 =>
          simp only [hm] at h
          cases hl : Lstat fs2 p with
          | error e4 => simp [hl] at h
          | ok n4 =>
            simp only [hl] at h
            split at h
            · simp only [Except.ok.injEq] at h
              subst h
              exact (h12 k n hk).imp id (List.mem_cons_of_mem _)
            · simp at h

theorem Prepared.adds {fs fs1 : FS} {dir : Path} (h : Prepared fs dir fs1) :
    ∀ k n, lookupEntry fs1 k = some n → lookupEntry fs k = some n ∨ k <+: dir := by
  intro k n hk
  rcases h with ⟨-, rfl⟩ | ⟨-, h⟩
  · exact Or.inl hk
  · rcases mkdirAllOn_adds _ _ _ h k n hk with h1 | h1
    · exact Or.inl h1
    · right
      have := List.mem_of_mem_dropLast h1
      exact (List.mem_inits _ _).1 (List.mem_reverse.1 this)

theorem topMatched_category (root : Path) (c : String) (rest : List String)
    (hc : filepathExt c = "") : topMatched root (root ++ c :: rest) = false := by
  have hm : mapGet DefaultRules "" = none := by decide
  simp [topMatched, hc, hm]

theorem topMatched_short (root k : Path) (h : k.length ≤ root.length) :
    topMatched root k = false := by
  have : k.drop root.length = [] := List.drop_eq_nil_of_le h
  simp [topMatched, this]

theorem weight_le_of_prefix_category (root k : Path) (c : String)
    (hc : filepathExt c = "") (hk : k <+: root ++ [c]) : weight root k ≤ root.length + 1 := by
  rcases List.prefix_concat_iff.1 hk with h1 | h1
  · subst h1
    simp [weight, topMatched_category root c [] hc]
  · have hl := h1.length_le
    simp only [weight, topMatched_short root k hl]
    simp
    omega

/-- Moving a matched entry below `root` into a category directory does not
raise the weight of any path. -/
theorem moveKeys_bounded (root old : Path) (c name : String) (bound : Nat) (fs : FS)
    (hb : Bounded root bound fs) (hroot : root <+: old)
    (hnp : ¬ old <+: root ++ [c] ++ [name])
    (hm : (mapGet DefaultRules (filepathExt (render old))).isSome = true)
    (hc : filepathExt c = "") :
    Bounded root bound (moveKeys fs old (root ++ [c] ++ [name])) := by
  intro k n hk
  rw [lookupEntry_moveKeys] at hk
  by_cases hnew : (root ++ [c] ++ [name]) <+: k
  · rw [if_pos hnew] at hk
    obtain ⟨rest, hrest⟩ := hnew
    have hdrop : k.drop (root ++ [c] ++ [name]).length = rest := by
      rw [← hrest, List.drop_left]
    rw [hdrop] at hk
    have hw := hb _ _ hk
    obtain ⟨tl, htl⟩ := hroot
    have htl0 : tl ≠ [] := by
      intro h0
      apply hnp
      rw [← htl, h0, List.append_nil, List.append_assoc]
      exact List.prefix_append _ _
    have hwk : weight root k = root.length + 2 + rest.length := by
      have hk2 : k = root ++ c :: (name :: rest) := by
        rw [← hrest]; simp
      rw [hk2]
      simp only [weight, topMatched_category root c _ hc]
      simp
      omega
    rw [hwk]
    cases tl with
    | nil => exact absurd rfl htl0
    | cons x tl2 =>
      cases tl2 with
      | nil =>
        have hx : (mapGet DefaultRules (filepathExt x)).isSome = true := by
          rw [← htl, filepathExt_render_concat] at hm
          exact hm
        have htm : topMatched root (old ++ rest) = true := by
          rw [← htl]
          simp [topMatched, hx]
        have : weight root (old ++ rest) = root.length + 1 + rest.length + 1 := by
          simp only [weight, htm, if_true]
          rw [← htl]
          simp
          omega
        omega
      | cons y tl3 =>
        have : root.length + 2 + rest.length ≤ weight root (old ++ rest) := by
          simp only [weight]
          rw [← htl]
          simp
          omega
        omega
  · rw [if_neg hnew] at hk
    by_cases hold : old <+: k
    · rw [if_pos hold] at hk
      simp at hk
    · rw [if_neg hold] at hk
      exact hb _ _ hk

/-- One call of the walk function keeps the bound on the weights. -/
theorem organizeFn_bounded (fo : State) (path : Path) (info : Option Node)
    (er : Option GoErr) (bound : Nat) (hb : Bounded fo.sourceDir bound fo.fs)
    (hB : fo.sourceDir.length + 1 ≤ bound) (hpath : fo.sourceDir <+: path) :
    Bounded fo.sourceDir bound (organizeFn fo path info er).1.fs := by
  cases er with
  | some e => rw [organizeFn_error]; exact hb
  | none =>
    cases hrule : mapGet DefaultRules (filepathExt (render path)) with
    | none => rw [organizeFn_unmatched fo path info hrule]; exact hb
    | some c =>
      rw [organizeFn_fs fo path info c hrule]
      obtain ⟨-, hjoin, hc⟩ := rule_shape hrule
      rw [hjoin]
      have hprep : ∀ fs1, Prepared fo.fs (fo.sourceDir ++ [c]) fs1 →
          Bounded fo.sourceDir bound fs1 := by
        intro fs1 hp k n hk
        rcases hp.adds k n hk with h1 | h1
        · exact hb k n h1
        · exact le_trans (weight_le_of_prefix_category _ k c hc h1) hB
      have hren : ∀ fs1 fs2, Prepared fo.fs (fo.sourceDir ++ [c]) fs1 →
          Rename fs1 path (destination fs1 (fo.clock fo.ticks) path
            (fo.sourceDir ++ [c])).1 = .ok fs2 → Bounded fo.sourceDir bound fs2 := by
        intro fs1 fs2 hp hr
        obtain ⟨name, hd, -, -⟩ :=
          destination_shape fs1 (fo.clock fo.ticks) path (fo.sourceDir ++ [c]) c hrule
        rw [hd] at hr
        obtain ⟨n0, -, -, -, hcase⟩ := Rename_ok hr
        rcases hcase with ⟨-, h2⟩ | ⟨-, hnp, -, h2⟩
        · rw [h2]; exact hprep fs1 hp
        · rw [h2]
          exact moveKeys_bounded _ path c name bound fs1 (hprep fs1 hp) hpath hnp
            (by rw [hrule]; rfl) hc
      rcases moveFile_cases fo path (fo.sourceDir ++ [c]) with
        ⟨-, hm⟩ | ⟨e1, -, hmk, hm⟩ | ⟨fs1, e1, hp, hr, hm⟩ | ⟨fs1, fs2, e1, hp, hr, hs, hm⟩ |
        ⟨fs1, fs2, nd, hp, hr, hs, hm⟩
      · rw [hm]; exact hb
      · rw [hm]; exact hb
      · rw [hm]; exact hprep fs1 hp
      · rw [hm]; exact hren fs1 fs2 hp hr
      · rw [hm]; exact hren fs1 fs2 hp hr

theorem organizeFn_inv {root : Path} {bound : Nat} {s : State} (h : WalkInv root bound s)
    (hB : root.length + 1 ≤ bound) (path : Path) (info : Option Node) (er : Option GoErr)
    (hpath : root <+: path) : WalkInv root bound (organizeFn s path info er).1 := by
  obtain ⟨h1, h2⟩ := h
  subst h1
  exact ⟨organizeFn_sourceDir s path info er, organizeFn_bounded s path info er bound h2 hB hpath⟩

theorem onNil_returns {P : State → Prop} {x : Option (State × Res)}
    {next : State → Option (State × Res)}
    (hx : ∃ s1 r1, x = some (s1, r1) ∧ P s1)
    (hnext : ∀ s1, P s1 → ∃ s2 r2, next s1 = some (s2, r2) ∧ P s2) :
    ∃ s2 r2, onNil x next = some (s2, r2) ∧ P s2 := by
  obtain ⟨s1, r1, rfl, hp⟩ := hx
  cases r1 with
  | nil => exact hnext s1 hp
  | err e => exact ⟨s1, _, rfl, hp⟩
  | panic => exact ⟨s1, _, rfl, hp⟩

theorem walkNames_returns (root : Path) (bound : Nat) (hB : root.length + 1 ≤ bound)
    (descend : Path → Node → State → Option (State × Res)) (path : Path)
    (hpath : root <+: path)
    (hd : ∀ name info s, WalkInv root bound s → Lstat s.fs (path ++ [name]) = .ok info →
      ∃ s2 r2, descend (path ++ [name]) info s = some (s2, r2) ∧ WalkInv root bound s2)
    (names : List String) :
    ∀ s, WalkInv root bound s →
      ∃ s2 r2, walkNames organizeFn descend path names s = some (s2, r2) ∧
        WalkInv root bound s2 := by
  induction names with
  | nil => intro s hs; exact ⟨s, Res.nil, rfl, hs⟩
  | cons name rest ih =>
    intro s hs
    simp only [walkNames]
    cases hl : Lstat s.fs (path ++ [name]) with
    | error e =>
      simp only
      refine onNil_returns ⟨_, _, rfl, ?_⟩ ih
      exact organizeFn_inv hs hB (path ++ [name]) none (some e)
        (hpath.trans (List.prefix_append _ _))
    | ok info =>
      simp only
      exact onNil_returns (hd name info s hs hl) ih

theorem length_le_of_Lstat {root : Path} {bound : Nat} {fs : FS}
    (hb : Bounded root bound fs) {p : Path} {name : String} {info : Node}
    (h : Lstat fs (p ++ [name]) = .ok info) : (p ++ [name]).length ≤ bound := by
  have hn := (Lstat_ok h).2
  have hl : lookupEntry fs (p ++ [name]) = some info := by
    simpa [nodeAt] using hn
  have := hb _ _ hl
  simp only [weight] at this
  omega

/-- With recursion depth beyond the bound on the weights the walk returns. -/
theorem walk_returns (root : Path) (bound : Nat) (hB : root.length + 1 ≤ bound) :
    ∀ fuel path info s, WalkInv root bound s → root <+: path → path.length ≤ bound →
      bound + 1 ≤ path.length + fuel →
      ∃ s2 r2, walk organizeFn fuel path info s = some (s2, r2) ∧ WalkInv root bound s2 := by
  intro fuel
  induction fuel with
  | zero =>
    intro path info s _ _ h1 h2
    omega
  | succ fuel ih =>
    intro path info s hs hpath h1 h2
    simp only [walk]
    by_cases hdir : info.isDir = true
    · simp only [hdir, Bool.not_true, Bool.false_eq_true, if_false]
      cases hn : readDirNames s.fs path with
      | error e =>
        exact ⟨_, _, rfl, organizeFn_inv hs hB path (some info) (some e) hpath⟩
      | ok names =>
        simp only
        refine onNil_returns
          ⟨_, _, rfl, organizeFn_inv hs hB path (some info) none hpath⟩ ?_
        intro s1 hs1
        apply walkNames_returns root bound hB (walk organizeFn fuel) path hpath _ names s1 hs1
        intro name info2 s3 hs3 hl
        have hlen := length_le_of_Lstat hs3.2 hl
        apply ih _ _ _ hs3 (hpath.trans (List.prefix_append _ _)) hlen
        simp only [List.length_append, List.length_singleton] at hlen ⊢
        omega
    · simp only [hdir, Bool.not_false, if_true]
      exact ⟨_, _, rfl, organizeFn_inv hs hB path (some info) none hpath⟩

/-- More recursion depth does not change what a walk returns. -/
theorem walkNames_mono (fn : WalkFn)
    (d1 d2 : Path → Node → State → Option (State × Res))
    (hd : ∀ p i s x, d1 p i s = some x → d2 p i s = some x) (path : Path)
    (names : List String) :
    ∀ s x, walkNames fn d1 path names s = some x → walkNames fn d2 path names s = some x := by
  induction names with
  | nil => intro s x h; exact h
  | cons name rest ih =>
    intro s x h
    simp only [walkNames] at h ⊢
    cases hl : Lstat s.fs (path ++ [name]) with
    | error e =>
      simp only [hl] at h ⊢
      obtain ⟨s2, r⟩ := x
      rcases onNil_eq_some h with ⟨s1, h1, h2⟩ | ⟨h1, hne⟩
      · rw [h1]
        exact ih s1 _ h2
      · rw [h1] at h ⊢
        cases r with
        | nil => exact absurd rfl hne
        | err e2 => rfl
        | panic => rfl
    | ok info =>
      simp only [hl] at h ⊢
      obtain ⟨s2, r⟩ := x
      rcases onNil_eq_some h with ⟨s1, h1, h2⟩ | ⟨h1, hne⟩
      · rw [hd _ _ _ _ h1]
        exact ih s1 _ h2
      · rw [hd _ _ _ _ h1]
        cases r with
        | nil => exact absurd rfl hne
        | err e2 => rfl
        | panic => rfl

theorem walk_mono (fn : WalkFn) (fuel : Nat) :
    ∀ path info s x, walk fn fuel path info s = some x →
      walk fn (fuel + 1) path info s = some x := by
  induction fuel with
  | zero => intro path info s x h; simp [walk] at h
  | succ fuel ih =>
    intro path info s x h
    rw [walk] at h ⊢
    by_cases hdir : info.isDir = true
    · simp only [hdir, Bool.not_true, Bool.false_eq_true, if_false] at h ⊢
      cases hn : readDirNames s.fs path with
      | error e => simp only [hn] at h ⊢; exact h
      | ok names =>
        simp only [hn] at h ⊢
        obtain ⟨s2, r⟩ := x
        rcases onNil_eq_some h with ⟨s1, h1, h2⟩ | ⟨h1, hne⟩
        · rw [h1]
          exact walkNames_mono fn _ _ ih path names s1 _ h2
        · rw [h1]
          cases r with
          | nil => exact absurd rfl hne
          | err e2 => rfl
          | panic => rfl
    · simp only [hdir, Bool.not_false, if_true] at h ⊢
      exact h

theorem walk_mono_le (fn : WalkFn) (fuel extra : Nat) (path : Path) (info : Node)
    (s : State) (x : State × Res) (h : walk fn fuel path info s = some x) :
    walk fn (fuel + extra) path info s = some x := by
  induction extra with
  | zero => exact h
  | succ k ih => exact walk_mono fn _ _ _ _ _ ih

/-- `Organize` returns: with recursion depth beyond the depth bound of the
filesystem the walk ends, and more depth gives the same result. -/
theorem Organize_returns (s : State) :
    (∃ x, Organize (depthBound s.sourceDir s.fs + 1) s = some x) ∧
    (∀ fuel extra x, Organize fuel s = some x → Organize (fuel + extra) s = some x) := by
  constructor
  · have hB := (depthBound_ge s.sourceDir s.fs).1
    have hinv : WalkInv s.sourceDir (depthBound s.sourceDir s.fs) s :=
      ⟨rfl, Bounded_depthBound _ _⟩
    unfold Organize Walk
    cases hl : Lstat s.fs s.sourceDir with
    | error e =>
      simp only
      cases (organizeFn s s.sourceDir none (some e)).2 <;> exact ⟨_, rfl⟩
    | ok info =>
      simp only
      obtain ⟨s2, r2, hw, -⟩ := walk_returns s.sourceDir _ hB
        (depthBound s.sourceDir s.fs + 1) s.sourceDir info s hinv (List.prefix_refl _)
        (by omega) (by omega)
      rw [hw]
      cases r2 <;> exact ⟨_, rfl⟩
  · intro fuel extra x h
    unfold Organize Walk at h ⊢
    cases hl : Lstat s.fs s.sourceDir with
    | error e => simp only [hl] at h ⊢; exact h
    | ok info =>
      simp only [hl] at h ⊢
      cases hw : walk organizeFn fuel s.sourceDir info s with
      | none => simp [hw] at h
      | some y =>
        rw [walk_mono_le organizeFn fuel extra _ _ _ y hw]
        rw [hw] at h
        exact h

/-! ## Following one file through a run -/

theorem mkdirAllOn_adds_dir (ps : List Path) :
    ∀ fs fs1, mkdirAllOn fs ps = .ok fs1 →
      ∀ k n, lookupEntry fs1 k = some n → lookupEntry fs k = some n ∨ n = Node.dir := by
  induction ps with
  | nil =>
    intro fs fs1 h k n hk
    simp only [mkdirAllOn, Except.ok.injEq] at h
    subst h
    exact Or.inl hk
  | cons p parents ih =>
    intro fs fs1 h k n hk
    simp only [mkdirAllOn] at h
    cases hs : Stat fs p with
    | ok nd =>
      simp only [hs] at h
      by_cases hd : nd.isDir = true
      · simp only [hd, if_true, Except.ok.injEq] at h
        subst h
        exact Or.inl hk
      · simp [hd] at h
    | error e =>
      simp only [hs] at h
      cases hp : mkdirAllOn fs parents with
      | error e2 => simp [hp] at h
      | ok fs2 =>
        simp only [hp] at h
        have h12 := ih fs fs2 hp
        cases hm : Mkdir fs2 p with
        | ok fs3 =>
          simp only [hm, Except.ok.injEq] at h
          subst h
          obtain ⟨-, rfl⟩ := Mkdir_ok hm
          by_cases hpk : p = k
          · simp only [lookupEntry, if_pos hpk, Option.some.injEq] at hk
            exact Or.inr hk.symm
          · simp only [lookupEntry, if_neg hpk] at hk
            exact h12 k n hk
        | error e3 =>
          simp only [hm] at h
          cases hl : Lstat fs2 p with
          | error e4 => simp [hl] at h
          | ok n4 =>
            simp only [hl] at h
            split at h
            · simp only [Except.ok.injEq] at h
              subst h
              exact h12 k n hk
            · simp at h

theorem Prepared.track {fs fs1 : FS} {dir : Path} (h : Prepared fs dir fs1) {F : Node}
    (hF : F ≠ Node.dir) {L : Path} (ht : Track F fs L) : Track F fs1 L := by
  refine ⟨h.keeps L F ht.1, ?_⟩
  intro k hk
  apply ht.2
  by_cases hk0 : k = []
  · subst hk0
    simp only [nodeAt, if_true, Option.some.injEq] at hk
    exact absurd hk.symm hF
  · have hl : lookupEntry fs1 k = some F := by simpa [nodeAt, hk0] using hk
    have hadd : lookupEntry fs k = some F ∨ F = Node.dir := by
      rcases h with ⟨-, rfl⟩ | ⟨-, h⟩
      · exact Or.inl hl
      · exact mkdirAllOn_adds_dir _ _ _ h k F hl
    rcases hadd with h1 | h1
    · simpa [nodeAt, hk0] using h1
    · exact absurd h1 hF

theorem Track.ne_nil {F : Node} {fs : FS} {L : Path} (ht : Track F fs L)
    (hF : F ≠ Node.dir) : L ≠ [] := by
  intro h0
  have := ht.1
  rw [h0] at this
  simp only [nodeAt, if_true, Option.some.injEq] at this
  exact hF this.symm

/-- Where a tracked node is after a rename that did not replace it. -/
theorem moveKeys_track (fs : FS) (old new L : Path) (F : Node) (hF : F ≠ Node.dir)
    (ht : Track F fs L) (hold0 : old ≠ []) (hnew0 : new ≠ [])
    (hnew : ¬ old <+: L → ¬ new <+: L) :
    (¬ old <+: L → Track F (moveKeys fs old new) L) ∧
    (old <+: L → Track F (moveKeys fs old new) (new ++ L.drop old.length)) := by
  have hL0 := ht.ne_nil hF
  have key : ∀ k, nodeAt (moveKeys fs old new) k = some F →
      (new <+: k ∧ old ++ k.drop new.length = L) ∨ (¬ new <+: k ∧ ¬ old <+: k ∧ k = L) := by
    intro k hk
    have hk0 : k ≠ [] := by
      intro h0
      rw [h0] at hk
      simp only [nodeAt, if_true, Option.some.injEq] at hk
      exact hF hk.symm
    rw [nodeAt_moveKeys _ _ _ _ hk0] at hk
    by_cases h1 : new <+: k
    · rw [if_pos h1] at hk
      left
      refine ⟨h1, ht.2 _ ?_⟩
      have hne : old ++ k.drop new.length ≠ [] := by simp [hold0]
      simpa [nodeAt, hne] using hk
    · rw [if_neg h1] at hk
      by_cases h2 : old <+: k
      · rw [if_pos h2] at hk; simp at hk
      · rw [if_neg h2] at hk
        exact Or.inr ⟨h1, h2, ht.2 _ hk⟩
  constructor
  · intro hno
    have hnn := hnew hno
    refine ⟨?_, ?_⟩
    · rw [nodeAt_moveKeys _ _ _ _ hL0, if_neg hnn, if_neg hno]
      exact ht.1
    · intro k hk
      rcases key k hk with ⟨-, h2⟩ | ⟨-, -, h2⟩
      · exact absurd ⟨_, h2⟩ hno
      · exact h2
  · intro ho
    obtain ⟨rest, hrest⟩ := ho
    have hdrop : L.drop old.length = rest := by rw [← hrest, List.drop_left]
    rw [hdrop]
    refine ⟨?_, ?_⟩
    · have hne : new ++ rest ≠ [] := by simp [hnew0]
      rw [nodeAt_moveKeys _ _ _ _ hne, if_pos (List.prefix_append _ _), List.drop_left, hrest]
      simpa [nodeAt, hL0] using ht.1
    · intro k hk
      rcases key k hk with ⟨h1, h2⟩ | ⟨-, h3, h2⟩
      · rw [← hrest] at h2
        have := List.append_cancel_left h2
        rw [← this]
        exact (List.prefix_iff_eq_append.1 h1).symm
      · exact absurd ⟨rest, by rw [h2, hrest]⟩ h3

/-- What a call that moved its entry did, in the terms of the event. -/
theorem organizeFn_moved (pre : State) (old : Path) (info : Option Node) (c : String)
    (hrule : mapGet DefaultRules (filepathExt (render old)) = some c)
    (hres : (organizeFn pre old info none).2 = Res.nil) :
    ∃ fs1 name, Prepared pre.fs (pre.sourceDir ++ [c]) fs1 ∧
      filepathExt name = filepathExt (render old) ∧
      (name = filepathBase (render old) ∨
        name = generateNewFileName (render old) (pre.clock pre.ticks)) ∧
      (destination fs1 (pre.clock pre.ticks) old (pre.sourceDir ++ [c])).1 =
        pre.sourceDir ++ [c] ++ [name] ∧
      Rename fs1 old (pre.sourceDir ++ [c] ++ [name]) = .ok (organizeFn pre old info none).1.fs ∧
      Event.moved ⟨pre, old, info, none, (organizeFn pre old info none).1,
        (organizeFn pre old info none).2⟩ = true ∧
      Event.dest ⟨pre, old, info, none, (organizeFn pre old info none).1,
        (organizeFn pre old info none).2⟩ = some (pre.sourceDir ++ [c] ++ [name]) := by
  obtain ⟨hmnil, hmeq⟩ := organizeFn_nil pre old info c hrule hres
  have hjoin : filepathJoin pre.sourceDir c = pre.sourceDir ++ [c] :=
    (rule_shape hrule).2.1 _
  rw [hjoin] at hmnil hmeq
  obtain ⟨fs1, fs2, nd, hp, hr, -, hfs, -⟩ := moveFile_nil pre old _ hmnil
  obtain ⟨name, hd, hext, hname⟩ :=
    destination_shape fs1 (pre.clock pre.ticks) old (pre.sourceDir ++ [c]) c hrule
  refine ⟨fs1, name, hp, hext, hname, hd, ?_, ?_, ?_⟩
  · rw [hmeq, hfs, ← hd]; exact hr
  · simp [Event.moved, hrule, hres]
  · simp only [Event.dest, hrule, hjoin]
    rw [moveTarget_of_prepared pre old _ fs1 hp, hd]

/-- One call with a nil result that replaced nothing: a tracked node stays
where it is, or, when the call was for a path at or above it, goes with that
path into the category directory. -/
theorem organizeFn_track (pre : State) (old : Path) (info : Option Node)
    (er : Option GoErr) (F : Node) (L : Path) (hF : F ≠ Node.dir)
    (hres : (organizeFn pre old info er).2 = Res.nil)
    (hnr : ¬ Event.replaces ⟨pre, old, info, er, (organizeFn pre old info er).1,
      (organizeFn pre old info er).2⟩)
    (ht : Track F pre.fs L)
    (hex : ∀ d, d <+: L → d.length = pre.sourceDir.length + 2 → nodeAt pre.fs d ≠ none) :
    Track F (organizeFn pre old info er).1.fs L ∨
    ∃ c name, mapGet DefaultRules (filepathExt (render old)) = some c ∧
      filepathExt name = filepathExt (render old) ∧
      (name = filepathBase (render old) ∨
        name = generateNewFileName (render old) (pre.clock pre.ticks)) ∧
      old <+: L ∧ ¬ old <+: pre.sourceDir ++ [c] ++ [name] ∧
      Track F (organizeFn pre old info er).1.fs
        (pre.sourceDir ++ [c] ++ [name] ++ L.drop old.length) := by
  cases er with
  | some e => left; rw [organizeFn_error]; exact ht
  | none =>
    cases hrule : mapGet DefaultRules (filepathExt (render old)) with
    | none => left; rw [organizeFn_unmatched pre old info hrule]; exact ht
    | some c =>
      obtain ⟨fs1, name, hp, hext, hname, -, hr, hmv, hdest⟩ :=
        organizeFn_moved pre old info c hrule hres
      have hfree : nodeAt pre.fs (pre.sourceDir ++ [c] ++ [name]) = none := by
        by_contra hx
        exact hnr ⟨hmv, _, hdest, hx⟩
      have ht1 : Track F fs1 L := hp.track hF ht
      obtain ⟨n0, -, -, -, hcase⟩ := Rename_ok hr
      rcases hcase with ⟨-, h2⟩ | ⟨-, hnp, -, h2⟩
      · left; rw [h2]; exact ht1
      · have hold0 : old ≠ [] := by
          intro h0
          exact hnp (by rw [h0]; exact List.nil_prefix)
        have hnew : ¬ old <+: L → ¬ (pre.sourceDir ++ [c] ++ [name]) <+: L := by
          intro _ hx
          exact hex _ hx (by simp) hfree
        obtain ⟨m1, m2⟩ := moveKeys_track fs1 old (pre.sourceDir ++ [c] ++ [name]) L F hF ht1
          hold0 (by simp) hnew
        by_cases ho : old <+: L
        · right
          refine ⟨c, name, rfl, hext, hname, ho, hnp, ?_⟩
          rw [h2]
          exact m2 ho
        · left
          rw [h2]
          exact m1 ho

theorem digitChar_ne_slash (n : Nat) : Nat.digitChar (n % 10) ≠ '/' := by
  have h : n % 10 < 10 := Nat.mod_lt _ (by decide)
  generalize n % 10 = d at h
  interval_cases d <;> decide

theorem toDigitsCore_no_slash : ∀ fuel n acc, (∀ c ∈ acc, c ≠ '/') →
    ∀ c ∈ Nat.toDigitsCore 10 fuel n acc, c ≠ '/' := by
  intro fuel
  induction fuel with
  | zero => intro n acc h; simpa [Nat.toDigitsCore] using h
  | succ fuel ih =>
    intro n acc h
    simp only [Nat.toDigitsCore]
    split
    · intro c hc
      rcases List.mem_cons.1 hc with rfl | hc
      · exact digitChar_ne_slash _
      · exact h c hc
    · apply ih
      intro c hc
      rcases List.mem_cons.1 hc with rfl | hc
      · exact digitChar_ne_slash _
      · exact h c hc

theorem padDigits_no_slash (w n : Nat) : ∀ c ∈ padDigits w n, c ≠ '/' := by
  intro c hc
  simp only [padDigits, List.mem_append, List.mem_replicate] at hc
  rcases hc with ⟨-, rfl⟩ | hc
  · decide
  · exact toDigitsCore_no_slash _ _ _ (by simp) c hc

theorem formatStamp_no_slash (t : Time) : ∀ c ∈ (formatStamp t).data, c ≠ '/' := by
  intro c hc
  simp only [formatStamp, List.mem_append, List.mem_singleton] at hc
  rcases hc with ((((((h | h) | h) | h) | h) | h) | h)
  · exact padDigits_no_slash _ _ c h
  · exact padDigits_no_slash _ _ c h
  · exact padDigits_no_slash _ _ c h
  · rw [h]; decide
  · exact padDigits_no_slash _ _ c h
  · exact padDigits_no_slash _ _ c h
  · exact padDigits_no_slash _ _ c h

/-- The collision name of a file name is longer and is a file name. -/
theorem generateNewFileName_name (q : Path) (n : String) (now : Time)
    (hn : ∀ ch ∈ n.data, ch ≠ '/') (hne : n.data ≠ []) :
    n.length < (generateNewFileName (render (q ++ [n])) now).length ∧
    ∀ ch ∈ (generateNewFileName (render (q ++ [n])) now).data, ch ≠ '/' := by
  have hbase := filepathBase_render_concat q n hn hne
  obtain ⟨stem, hb, hg⟩ := generateNewFileName_eq (render (q ++ [n])) now
  rw [hbase] at hb hg
  constructor
  · have h1 : n.length = stem.length + (filepathExt n).data.length := by
      simp only [String.length]
      rw [hb]
      simp
    have h2 : (generateNewFileName (render (q ++ [n])) now).length =
        stem.length + 1 + (formatStamp now).data.length + (filepathExt n).data.length := by
      simp only [String.length]
      rw [hg]
      simp
      omega
    omega
  · intro ch hch
    rw [hg] at hch
    simp only [List.mem_append, List.mem_cons] at hch
    rcases hch with (h | h | h) | h
    · exact hn ch (by rw [hb]; exact List.mem_append_left _ h)
    · rw [h]; decide
    · exact formatStamp_no_slash now ch h
    · exact hn ch (by rw [hb]; exact List.mem_append_right _ h)

/-- One call with a nil result that replaced nothing keeps a node that does
not lie at or below the path of the call. -/
theorem organizeFn_keeps_node (pre post : State) (old : Path) (info : Option Node)
    (er : Option GoErr) (h : organizeFn pre old info er = (post, Res.nil))
    (hnr : ¬ Event.replaces ⟨pre, old, info, er, post, Res.nil⟩)
    (k : Path) (nd : Node) (hk : nodeAt pre.fs k = some nd) (hold : ¬ old <+: k)
    (hex : ∀ d, d <+: k → d.length = pre.sourceDir.length + 2 → nodeAt pre.fs d ≠ none) :
    nodeAt post.fs k = some nd := by
  have hp : post = (organizeFn pre old info er).1 := by rw [h]
  have hres : (organizeFn pre old info er).2 = Res.nil := by rw [h]
  subst hp
  cases er with
  | some e => rw [organizeFn_error]; exact hk
  | none =>
    cases hrule : mapGet DefaultRules (filepathExt (render old)) with
    | none => rw [organizeFn_unmatched pre old info hrule]; exact hk
    | some c =>
      obtain ⟨fs1, name, hprep, -, -, -, hr, hmv, hdest⟩ :=
        organizeFn_moved pre old info c hrule hres
      have hmv2 : Event.moved ⟨pre, old, info, none, (organizeFn pre old info none).1,
          Res.nil⟩ = true := by
        simp [Event.moved, hrule]
      have hfree : nodeAt pre.fs (pre.sourceDir ++ [c] ++ [name]) = none := by
        by_contra hx
        exact hnr ⟨hmv2, _, hdest, hx⟩
      refine Rename_frame hr (hprep.keeps k nd hk) (Or.inl hold) ?_
      intro hx
      exact hex _ hx (by simp) hfree

/-- After a rename the directories above the new path are in place. -/
theorem Rename_dest_ancestors {fs fs2 : FS} {old new : Path}
    (h : Rename fs old new = .ok fs2) : ancestorErr fs2 [] new = none := by
  obtain ⟨nd, -, ha, -, -⟩ := Rename_ok h
  rw [ancestorErr_iff] at ha ⊢
  intro d hd hdn hd0
  obtain ⟨nd2, hn2, hs2⟩ := ha d hd hdn hd0
  refine ⟨nd2, Rename_frame h hn2 ?_ ?_, hs2⟩
  · by_cases hx : old <+: d
    · exact Or.inr (hx.trans hd)
    · exact Or.inl hx
  · intro hx
    exact hdn (List.IsPrefix.eq_of_length hd (Nat.le_antisymm hd.length_le hx.length_le))

theorem ancestorErr_sibling {fs : FS} {p : Path} {a : String} (b : String)
    (h : ancestorErr fs [] (p ++ [a]) = none) : ancestorErr fs [] (p ++ [b]) = none := by
  rw [ancestorErr_iff] at h ⊢
  intro d hd hdn hd0
  rcases List.prefix_concat_iff.1 hd with hx | hx
  · exact absurd hx hdn
  · refine h d (hx.trans (List.prefix_append _ _)) ?_ hd0
    intro h1
    have := hx.length_le
    rw [h1] at this
    simp at this

/-- A call for a path at or below the source directory leaves the directories
down to a category directory in place. -/
theorem organizeFn_keeps_dir (pre post : State) (old : Path) (info : Option Node)
    (er : Option GoErr) (h : organizeFn pre old info er = (post, Res.nil))
    (c : String) (hc : filepathExt c = "") (hold : pre.sourceDir <+: old)
    (d : Path) (hd : d <+: pre.sourceDir ++ [c]) (nd : Node)
    (hk : nodeAt pre.fs d = some nd) : nodeAt post.fs d = some nd := by
  have hp : post = (organizeFn pre old info er).1 := by rw [h]
  have hres : (organizeFn pre old info er).2 = Res.nil := by rw [h]
  subst hp
  cases er with
  | some e => rw [organizeFn_error]; exact hk
  | none =>
    cases hrule : mapGet DefaultRules (filepathExt (render old)) with
    | none => rw [organizeFn_unmatched pre old info hrule]; exact hk
    | some c2 =>
      obtain ⟨fs1, name, hprep, -, -, -, hr, -, -⟩ :=
        organizeFn_moved pre old info c2 hrule hres
      refine Rename_frame hr (hprep.keeps d _ hk) ?_ ?_
      · by_cases hx : old <+: d
        · right
          rcases List.prefix_concat_iff.1 (hx.trans hd) with hy | hy
          · exfalso
            rw [hy, filepathExt_render_concat, hc] at hrule
            have : mapGet DefaultRules "" = none := by decide
            rw [this] at hrule
            simp at hrule
          · have : old = pre.sourceDir :=
              List.IsPrefix.eq_of_length hy (Nat.le_antisymm hy.length_le hold.length_le)
            rw [this, List.append_assoc]
            exact List.prefix_append _ _
        · exact Or.inl hx
      · intro hx
        have h1 := hx.length_le
        have h2 := hd.length_le
        simp at h1 h2
        omega

/-- The collision name depends on the last component of the path only. -/
theorem generateNewFileName_of_name (q : Path) (n : String) (now : Time)
    (hn : ∀ ch ∈ n.data, ch ≠ '/') (hne : n.data ≠ []) :
    generateNewFileName (render (q ++ [n])) now = generateNewFileName n now := by
  have h1 := filepathBase_render_concat q n hn hne
  have h2 : filepathBase n = n := filepathBase_render_concat [] n hn hne
  simp only [generateNewFileName, h1, h2]

/-- A name that comes from a matched file name by collision renaming is a file
name with the same extension, and it is longer unless it is the same. -/
theorem Stamped.props {n nm c : String} (h : Stamped n nm)
    (hn : ∀ ch ∈ n.data, ch ≠ '/')
    (hrule : mapGet DefaultRules (filepathExt n) = some c) :
    (∀ ch ∈ nm.data, ch ≠ '/') ∧ nm.data ≠ [] ∧ filepathExt nm = filepathExt n ∧
      n.length ≤ nm.length ∧ (nm ≠ n → n.length < nm.length) := by
  have hne : n.data ≠ [] := by
    obtain ⟨⟨tail, he, -, -⟩, -, -⟩ := rule_shape hrule
    obtain ⟨stem, hs, -⟩ := filepathExt_suffix n
    rw [hs, he]
    simp
  induction h with
  | base => exact ⟨hn, hne, rfl, Nat.le_refl _, fun h => absurd rfl h⟩
  | @again nm0 t _ ih =>
    obtain ⟨h1, h2, h3, h4, -⟩ := ih
    have hg := generateNewFileName_name [] nm0 t h1 h2
    have hext := (matched_names [] nm0 c t h1 (by rw [h3]; exact hrule)).2.2.2.1
    rw [generateNewFileName_of_name [] nm0 t h1 h2] at hg hext
    have hlt : n.length < (generateNewFileName nm0 t).length := by omega
    refine ⟨hg.2, ?_, by rw [hext, h3], by omega, fun _ => hlt⟩
    intro h0
    simp only [String.length, h0, List.length_nil] at hlt
    omega

theorem Intact.exists {root f : Path} {F : Node} {s : State} (h : Intact root f F s)
    (d : Path) (hd : d <+: f) : nodeAt s.fs d ≠ none := by
  obtain ⟨-, ht, hdirs⟩ := h
  by_cases hdf : d = f
  · rw [hdf, ht.1]; simp
  · obtain ⟨nd, hn, -⟩ := hdirs d hd hdf
    rw [hn]; simp

/-- A call for a path that is not at or above the file leaves it intact. -/
theorem intact_step (root f : Path) (F : Node) (hF : F ≠ Node.dir) (pre post : State)
    (old : Path) (info : Option Node) (er : Option GoErr)
    (h : organizeFn pre old info er = (post, Res.nil))
    (hnr : ¬ Event.replaces ⟨pre, old, info, er, post, Res.nil⟩)
    (hi : Intact root f F pre) (hold : ¬ old <+: f) : Intact root f F post := by
  have hsd : post.sourceDir = pre.sourceDir := by
    have := organizeFn_sourceDir pre old info er
    rw [h] at this
    exact this
  have hex : ∀ k, k <+: f → ∀ d, d <+: k → d.length = pre.sourceDir.length + 2 →
      nodeAt pre.fs d ≠ none := by
    intro k hk d hd _
    exact hi.exists d (hd.trans hk)
  have hkeep : ∀ k nd, k <+: f → nodeAt pre.fs k = some nd → nodeAt post.fs k = some nd :=
    fun k nd hk hn => organizeFn_keeps_node pre post old info er h hnr k nd hn
      (fun hx => hold (hx.trans hk)) (hex k hk)
  obtain ⟨hroot, ht, hdirs⟩ := hi
  refine ⟨by rw [hsd, hroot], ?_, ?_⟩
  · have hp : post = (organizeFn pre old info er).1 := by rw [h]
    have hres : (organizeFn pre old info er).2 = Res.nil := by rw [h]
    have hnr2 : ¬ Event.replaces ⟨pre, old, info, er, (organizeFn pre old info er).1,
        (organizeFn pre old info er).2⟩ := by
      rw [hres, ← hp]; exact hnr
    rcases organizeFn_track pre old info er F f hF hres hnr2 ht (hex f (List.prefix_refl _)) with
      h1 | ⟨c, name, -, -, -, ho, -, -⟩
    · rw [hp]; exact h1
    · exact absurd ho hold
  · intro d hd hne
    obtain ⟨nd, hn, hdir⟩ := hdirs d hd hne
    exact ⟨nd, hkeep d nd hd hn, hdir⟩

/-- The call for the file itself takes it home. -/
theorem visit_step (root q : Path) (n c : String) (id sz : Nat) (pre post : State)
    (info : Option Node) (hn : ∀ ch ∈ n.data, ch ≠ '/')
    (hrule : mapGet DefaultRules (filepathExt n) = some c)
    (h : organizeFn pre (q ++ [n]) info none = (post, Res.nil))
    (hnr : ¬ Event.replaces ⟨pre, q ++ [n], info, none, post, Res.nil⟩)
    (hl : Lstat pre.fs (q ++ [n]) = .ok (Node.file id sz))
    (hi : Intact root (q ++ [n]) (Node.file id sz) pre) :
    Home root q n c (Node.file id sz) post := by
  have hF : Node.file id sz ≠ Node.dir := by simp
  have hsd : post.sourceDir = pre.sourceDir := by
    have := organizeFn_sourceDir pre (q ++ [n]) info none
    rw [h] at this
    exact this
  have hp : post = (organizeFn pre (q ++ [n]) info none).1 := by rw [h]
  have hres : (organizeFn pre (q ++ [n]) info none).2 = Res.nil := by rw [h]
  have hnr2 : ¬ Event.replaces ⟨pre, q ++ [n], info, none,
      (organizeFn pre (q ++ [n]) info none).1, (organizeFn pre (q ++ [n]) info none).2⟩ := by
    rw [hres, ← hp]; exact hnr
  obtain ⟨hrule2, hbase, -, -, -, -⟩ := matched_names q n c (pre.clock pre.ticks) hn hrule
  obtain ⟨-, hne, -, -, -⟩ := Stamped.props (Stamped.base (n := n)) hn hrule
  have hex : ∀ d, d <+: q ++ [n] → d.length = pre.sourceDir.length + 2 →
      nodeAt pre.fs d ≠ none :=
    fun d hd _ => hi.exists d hd
  obtain ⟨hroot, ht, -⟩ := hi
  obtain ⟨nm0, -, -, hgone⟩ := organizeFn_relocates pre q n c info id sz hn hrule hl hres
  obtain ⟨fs1, name2, -, -, -, -, hren, -, -⟩ :=
    organizeFn_moved pre (q ++ [n]) info c hrule2 hres
  have hanc := Rename_dest_ancestors hren
  rw [← hp, hroot] at hanc
  rw [← hp] at hgone
  rcases organizeFn_track pre (q ++ [n]) info none _ _ hF hres hnr2 ht hex with
    h1 | ⟨c2, name, hr2, hext, hname, -, -, htr⟩
  · rw [← hp] at h1
    rw [h1.1] at hgone
    simp at hgone
  · rw [hrule2] at hr2
    simp only [Option.some.injEq] at hr2
    subst hr2
    rw [← hp, List.drop_length, List.append_nil, hroot] at htr
    rw [hbase, generateNewFileName_of_name q n _ hn hne] at hname
    refine ⟨by rw [hsd, hroot], name,
      Lstat_of_nodeAt (ancestorErr_sibling name hanc) htr.1, htr, ?_, ?_⟩
    · rcases hname with hname | hname
      · rw [hname]; exact Stamped.base
      · rw [hname]; exact Stamped.again _ Stamped.base
    · by_cases hq : q = root ++ [c]
      · right
        intro hname2
        have h3 := htr.1
        rw [hname2, ← hq, hgone] at h3
        simp at h3
      · exact Or.inl hq

/-- Paths between `root` and `root/c/nm`. -/
theorem between_root_and_home {root old : Path} {c nm : String} (h1 : root <+: old)
    (h2 : old <+: root ++ [c] ++ [nm]) :
    old = root ∨ old = root ++ [c] ∨ old = root ++ [c] ++ [nm] := by
  rcases List.prefix_concat_iff.1 h2 with h | h
  · exact Or.inr (Or.inr h)
  · rcases List.prefix_concat_iff.1 h with h | h
    · exact Or.inr (Or.inl h)
    · exact Or.inl (List.IsPrefix.eq_of_length h
        (Nat.le_antisymm h.length_le h1.length_le))

/-- A call for a path at or below the source directory leaves the file at
home. -/
theorem home_step (root q : Path) (n c : String) (F : Node) (hF : F ≠ Node.dir)
    (hn : ∀ ch ∈ n.data, ch ≠ '/')
    (hrule : mapGet DefaultRules (filepathExt n) = some c)
    (pre post : State) (old : Path) (info : Option Node) (er : Option GoErr)
    (h : organizeFn pre old info er = (post, Res.nil))
    (hnr : ¬ Event.replaces ⟨pre, old, info, er, post, Res.nil⟩)
    (hh : Home root q n c F pre) (hold : root <+: old) : Home root q n c F post := by
  have hsd : post.sourceDir = pre.sourceDir := by
    have := organizeFn_sourceDir pre old info er
    rw [h] at this
    exact this
  have hp : post = (organizeFn pre old info er).1 := by rw [h]
  have hres : (organizeFn pre old info er).2 = Res.nil := by rw [h]
  have hnr2 : ¬ Event.replaces ⟨pre, old, info, er, (organizeFn pre old info er).1,
      (organizeFn pre old info er).2⟩ := by
    rw [hres, ← hp]; exact hnr
  obtain ⟨hroot, nm, hl, ht, hst, hthird⟩ := hh
  obtain ⟨hslash, hne, hextn, hlen, hlt⟩ := hst.props hn hrule
  have hanc : ∀ nm2, ancestorErr post.fs [] (root ++ [c] ++ [nm2]) = none := by
    intro nm2
    have ha := (Lstat_ok hl).1
    rw [ancestorErr_iff] at ha ⊢
    intro d hd hdn hd0
    rcases List.prefix_concat_iff.1 hd with hx | hx
    · exact absurd hx hdn
    · obtain ⟨nd, hnd, hs⟩ := ha d (hx.trans (List.prefix_append _ _)) (by
        intro h1
        have := hx.length_le
        rw [h1] at this
        simp at this) hd0
      exact ⟨nd, organizeFn_keeps_dir pre post old info er h c (rule_shape hrule).2.2
        (by rw [hroot]; exact hold) d (by rw [hroot]; exact hx) nd hnd, hs⟩
  have hex : ∀ d, d <+: root ++ [c] ++ [nm] → d.length = pre.sourceDir.length + 2 →
      nodeAt pre.fs d ≠ none := by
    intro d hd hlen2
    have : d = root ++ [c] ++ [nm] :=
      List.IsPrefix.eq_of_length hd (by rw [hlen2, hroot]; simp)
    rw [this, ht.1]
    simp
  rcases organizeFn_track pre old info er F _ hF hres hnr2 ht hex with
    h1 | ⟨c2, name, hr2, hext, hname, ho, hnp, htr⟩
  · have h2 : Track F post.fs (root ++ [c] ++ [nm]) := by rw [hp]; exact h1
    exact ⟨by rw [hsd, hroot], nm, Lstat_of_nodeAt (hanc nm) h2.1, h2, hst, hthird⟩
  · rw [hroot] at hnp htr
    rcases between_root_and_home hold ho with hx | hx | hx
    · exfalso
      apply hnp
      rw [hx, List.append_assoc]
      exact List.prefix_append _ _
    · exfalso
      rw [hx, filepathExt_render_concat, (rule_shape hrule).2.2] at hr2
      have : mapGet DefaultRules "" = none := by decide
      rw [this] at hr2
      simp at hr2
    · rw [hx, filepathExt_render_concat, hextn, hrule] at hr2
      simp only [Option.some.injEq] at hr2
      subst hr2
      rw [← hp, hx, List.drop_length, List.append_nil] at htr
      rw [hx, filepathBase_render_concat (root ++ [c]) nm hslash hne,
        generateNewFileName_of_name (root ++ [c]) nm _ hslash hne] at hname
      rcases hname with hname | hname
      · rw [hname] at htr
        exact ⟨by rw [hsd, hroot], nm, Lstat_of_nodeAt (hanc nm) htr.1, htr, hst, hthird⟩
      · have hst2 : Stamped n name := by rw [hname]; exact Stamped.again _ hst
        refine ⟨by rw [hsd, hroot], name, Lstat_of_nodeAt (hanc name) htr.1, htr, hst2,
          Or.inr ?_⟩
        intro hnn
        have hg := (generateNewFileName_name [] nm (pre.clock pre.ticks) hslash hne).1
        rw [generateNewFileName_of_name [] nm _ hslash hne, ← hname, hnn] at hg
        omega

/-- A property of the state that every call without traversal error and
without replacement for a path in `P` keeps, holds at the end of a run of such
calls, unless a call was made for a traversal error or replaced an entry. -/
theorem Run.invariant (G : State → Prop) (P : Path → Prop)
    (hstep : ∀ pre post old info, organizeFn pre old info none = (post, Res.nil) →
      ¬ Event.replaces ⟨pre, old, info, none, post, Res.nil⟩ → G pre → P old → G post)
    {s s2 : State} {evs : List Event} {r : Res}
    (h : Run organizeFn s evs s2 r) (hr : r = Res.nil) (hp : ∀ ev ∈ evs, P ev.path)
    (hs : G s) : (∃ ev ∈ evs, ev.bad) ∨ G s2 := by
  induction h with
  | start => exact Or.inr hs
  | call hrun hfn ih =>
    rename_i s1 s3 evs p i er r
    subst hr
    rcases ih rfl (fun ev hev => hp ev (List.mem_append_left _ hev)) with
      ⟨ev, hev, hrep⟩ | h1
    · exact Or.inl ⟨ev, List.mem_append_left _ hev, hrep⟩
    · by_cases hbad : Event.bad ⟨s1, p, i, er, s3, Res.nil⟩
      · exact Or.inl ⟨_, by simp, hbad⟩
      · have her : er = none := by
          by_contra hx
          exact hbad (Or.inl hx)
        subst her
        exact Or.inr (hstep s1 s3 p i hfn (fun hx => hbad (Or.inr hx)) h1
          (hp ⟨s1, p, i, none, s3, Res.nil⟩ (by simp)))

theorem Calls.below {fn : WalkFn} {root root2 : Path} {s s2 : State} {evs : List Event}
    {r : Res} (h : Calls fn root s evs s2 r) (hr : root2 <+: root) :
    Calls fn root2 s evs s2 r :=
  ⟨h.1, fun ev hev => hr.trans (h.2 ev hev)⟩

theorem Calls.concat {fn : WalkFn} {root : Path} {s s1 s2 : State} {evs1 evs2 : List Event}
    {r : Res} (h1 : Calls fn root s evs1 s1 Res.nil) (h2 : Calls fn root s1 evs2 s2 r) :
    Calls fn root s (evs1 ++ evs2) s2 r := by
  refine ⟨Run.append h1.1 h2.1, ?_⟩
  intro ev hev
  rcases List.mem_append.1 hev with hx | hx
  · exact h1.2 _ hx
  · exact h2.2 _ hx

theorem Calls.one (fn : WalkFn) (root : Path) (s : State) (p : Path) (i : Option Node)
    (er : Option GoErr) (hp : root <+: p) (s1 : State) (r1 : Res)
    (h : some (fn s p i er) = some (s1, r1)) :
    Calls fn root s [callEvent fn s p i er] s1 r1 := by
  simp only [Option.some.injEq] at h
  have h0 := Run.single fn s p i er
  rw [h] at h0
  refine ⟨by simpa [callEvent, h] using h0, ?_⟩
  intro ev hev
  rw [List.mem_singleton.1 hev]
  exact hp

/-- The calls of a part of the walk followed, after a nil result, by the calls
of the next part. -/
theorem thenCalls_calls {fn : WalkFn} {root : Path} {x : Option (State × Res)}
    {next : State → Option (State × Res)} {nextCalls : State → List Event}
    {s s2 : State} {r : Res} {evs1 : List Event}
    (hx : ∀ s1 r1, x = some (s1, r1) → Calls fn root s evs1 s1 r1)
    (hnext : ∀ s1, next s1 = some (s2, r) → Calls fn root s1 (nextCalls s1) s2 r)
    (h : onNil x next = some (s2, r)) :
    Calls fn root s (evs1 ++ thenCalls x nextCalls) s2 r := by
  rcases onNil_eq_some h with ⟨s1, hx1, hn⟩ | ⟨hx1, hne⟩
  · subst hx1
    exact Calls.concat (hx _ _ rfl) (hnext _ hn)
  · subst hx1
    have h0 : thenCalls (some (s2, r)) nextCalls = [] := by
      cases r with
      | nil => exact absurd rfl hne
      | err e => rfl
      | panic => rfl
    rw [h0, List.append_nil]
    exact hx _ _ rfl

/-- The list `walkNamesCalls` is the run of calls that `walkNames` makes. -/
theorem walkNames_calls (fn : WalkFn)
    (descend : Path → Node → State → Option (State × Res))
    (descendCalls : Path → Node → State → List Event)
    (hd : ∀ p i s s2 r, descend p i s = some (s2, r) →
      Calls fn p s (descendCalls p i s) s2 r)
    (path : Path) (names : List String) :
    ∀ s s2 r, walkNames fn descend path names s = some (s2, r) →
      Calls fn path s (walkNamesCalls fn descend descendCalls path names s) s2 r := by
  induction names with
  | nil =>
    intro s s2 r h
    simp only [walkNames, Option.some.injEq, Prod.mk.injEq] at h
    obtain ⟨rfl, rfl⟩ := h
    exact ⟨Run.start s, by simp [walkNamesCalls]⟩
  | cons name rest ih =>
    intro s s2 r h
    simp only [walkNames] at h
    simp only [walkNamesCalls]
    cases hl : Lstat s.fs (path ++ [name]) with
    | error e =>
      simp only [hl] at h ⊢
      exact thenCalls_calls
        (Calls.one fn path s _ _ _ (List.prefix_append _ _))
        (fun s1 => ih s1 s2 r) h
    | ok info =>
      simp only [hl] at h ⊢
      exact thenCalls_calls
        (fun s1 r1 hx => (hd _ _ _ s1 r1 hx).below (List.prefix_append _ _))
        (fun s1 => ih s1 s2 r) h

/-- The list `walkCalls` is the run of calls that `walk` makes. -/
theorem walk_calls (fn : WalkFn) (fuel : Nat) :
    ∀ path info s s2 r, walk fn fuel path info s = some (s2, r) →
      Calls fn path s (walkCalls fn fuel path info s) s2 r := by
  induction fuel with
  | zero => intro path info s s2 r h; simp [walk] at h
  | succ fuel ih =>
    intro path info s s2 r h
    simp only [walk] at h
    simp only [walkCalls]
    by_cases hdir : info.isDir = true
    · simp only [hdir, Bool.not_true, Bool.false_eq_true, if_false] at h ⊢
      cases hn : readDirNames s.fs path with
      | error e =>
        simp only [hn] at h ⊢
        exact Calls.one fn path s _ _ _ (List.prefix_refl _) _ _ h
      | ok names =>
        simp only [hn] at h ⊢
        exact thenCalls_calls (Calls.one fn path s _ _ _ (List.prefix_refl _))
          (fun s1 => walkNames_calls fn (walk fn fuel) (walkCalls fn fuel) ih path names
            s1 s2 r) h
    · simp only [hdir, Bool.not_false, if_true] at h ⊢
      exact Calls.one fn path s _ _ _ (List.prefix_refl _) _ _ h

/-- The list `OrganizeCalls` is the run of calls of the walk function in a run of
`Organize`. -/
theorem Organize_calls (fuel : Nat) (s s2 : State) (r : Res) (rep : Option Report)
    (h : Organize fuel s = some (s2, r, rep)) :
    Calls organizeFn s.sourceDir s (OrganizeCalls fuel s) s2 r := by
  have hw : Walk organizeFn fuel s.sourceDir s = some (s2, r) := by
    unfold Organize at h
    cases hw : Walk organizeFn fuel s.sourceDir s with
    | none => simp [hw] at h
    | some pr =>
      obtain ⟨s1, r1⟩ := pr
      cases r1 <;> simp only [hw, Option.some.injEq, Prod.mk.injEq] at h <;>
        obtain ⟨rfl, rfl, -⟩ := h <;> rfl
  unfold Walk at hw
  unfold OrganizeCalls WalkCalls
  cases hl : Lstat s.fs s.sourceDir with
  | error e =>
    simp only [hl] at hw ⊢
    exact Calls.one organizeFn _ s _ _ _ (List.prefix_refl _) _ _ hw
  | ok info =>
    simp only [hl] at hw ⊢
    exact walk_calls organizeFn fuel _ _ _ _ _ hw

theorem Ends.of_run {root : Path} (G : State → Prop) (P : Path → Prop)
    (hstep : ∀ pre post old info, organizeFn pre old info none = (post, Res.nil) →
      ¬ Event.replaces ⟨pre, old, info, none, post, Res.nil⟩ → G pre → P old → G post)
    {p0 : Path} {s s2 : State} {evs : List Event}
    (h : Calls organizeFn p0 s evs s2 Res.nil)
    (hroot : root <+: p0) (hP : ∀ p, p0 <+: p → P p) (hs : G s) : Ends root G s evs s2 :=
  ⟨h.below hroot, Run.invariant G P hstep h.1 rfl (fun ev hev => hP _ (h.2 ev hev)) hs⟩

/-- Two parts of a walk in a row. -/
theorem Ends.seq {root : Path} {P G : State → Prop} {s s1 s2 : State}
    {evs1 evs2 : List Event}
    (h1 : Ends root P s evs1 s1) (h2 : Calls organizeFn root s1 evs2 s2 Res.nil)
    (h3 : P s1 → Ends root G s1 evs2 s2) : Ends root G s (evs1 ++ evs2) s2 := by
  refine ⟨Calls.concat h1.1 h2, ?_⟩
  rcases h1.2 with ⟨ev, hev, hrep⟩ | hP
  · exact Or.inl ⟨ev, List.mem_append_left _ hev, hrep⟩
  · rcases (h3 hP).2 with ⟨ev, hev, hrep⟩ | hG
    · exact Or.inl ⟨ev, List.mem_append_right _ hev, hrep⟩
    · exact Or.inr hG

/-- One call that changes nothing, then a part of a walk. -/
theorem Ends.after_call {root : Path} {G : State → Prop} {s s2 : State}
    {evs : List Event} (p : Path)
    (i : Option Node) (er : Option GoErr) (hcall : organizeFn s p i er = (s, Res.nil))
    (hp : root <+: p) (h : Ends root G s evs s2) :
    Ends root G s (callEvent organizeFn s p i er :: evs) s2 := by
  have h0 : Calls organizeFn root s [callEvent organizeFn s p i er] s Res.nil :=
    Calls.one organizeFn root s p i er hp s Res.nil (by rw [hcall])
  refine ⟨Calls.concat h0 h.1, ?_⟩
  rcases h.2 with ⟨ev, hev, hrep⟩ | hG
  · exact Or.inl ⟨ev, List.mem_cons_of_mem _ hev, hrep⟩
  · exact Or.inr hG

theorem mem_insertName (a x : String) (l : List String) :
    a ∈ insertName x l ↔ a = x ∨ a ∈ l := by
  induction l with
  | nil => simp [insertName]
  | cons y ys ih =>
    simp only [insertName]
    split_ifs
    · simp
    · simp only [List.mem_cons, ih]
      tauto

theorem mem_sortNames (a : String) (l : List String) : a ∈ sortNames l ↔ a ∈ l := by
  induction l with
  | nil => simp [sortNames]
  | cons y ys ih => simp [sortNames, mem_insertName, ih]

/-- The listing of a directory has the name of each of its entries. -/
theorem readDirNames_mem {fs : FS} {path : Path} {names : List String} {x : String}
    {nd : Node} (h : readDirNames fs path = .ok names)
    (hx : nodeAt fs (path ++ [x]) = some nd) : x ∈ names := by
  unfold readDirNames at h
  cases hs : Stat fs path with
  | error e => simp [hs] at h
  | ok n0 =>
    simp only [hs] at h
    split at h
    · split at h
      · simp only [Except.ok.injEq] at h
        subst h
        rw [mem_sortNames, List.mem_dedup, List.mem_filterMap]
        have hlk : lookupEntry fs (path ++ [x]) = some nd := by
          simpa [nodeAt] using hx
        exact ⟨(path ++ [x], nd), lookupEntry_mem hlk, by simp [childName]⟩
      · simp at h
    · simp at h

/-- A call that moved its entry without replacing one left nothing at the path
of the entry. -/
theorem organizeFn_vacates (pre post : State) (old : Path) (info : Option Node) (c : String)
    (hrule : mapGet DefaultRules (filepathExt (render old)) = some c)
    (h : organizeFn pre old info none = (post, Res.nil))
    (hnr : ¬ Event.replaces ⟨pre, old, info, none, post, Res.nil⟩)
    (hex : ∀ d, d <+: old → nodeAt pre.fs d ≠ none) : nodeAt post.fs old = none := by
  have hp : post = (organizeFn pre old info none).1 := by rw [h]
  have hres : (organizeFn pre old info none).2 = Res.nil := by rw [h]
  subst hp
  obtain ⟨fs1, name, -, -, -, -, hr, -, hdest⟩ := organizeFn_moved pre old info c hrule hres
  have hmv2 : Event.moved ⟨pre, old, info, none, (organizeFn pre old info none).1,
      Res.nil⟩ = true := by
    simp [Event.moved, hrule]
  rw [hres] at hdest
  have hfree : nodeAt pre.fs (pre.sourceDir ++ [c] ++ [name]) = none := by
    by_contra hx
    exact hnr ⟨hmv2, _, hdest, hx⟩
  obtain ⟨n0, -, -, -, hcase⟩ := Rename_ok hr
  rcases hcase with ⟨heq, -⟩ | ⟨-, hnp, -, h2⟩
  · rw [← heq] at hfree
    exact absurd hfree (hex old (List.prefix_refl _))
  · have hold0 : old ≠ [] := by
      intro h0
      exact hnp (by rw [h0]; exact List.nil_prefix)
    rw [h2, nodeAt_moveKeys _ _ _ _ hold0]
    have hno : ¬ (pre.sourceDir ++ [c] ++ [name]) <+: old :=
      fun hx => hex _ hx hfree
    rw [if_neg hno, if_pos (List.prefix_refl _)]

theorem exists_next_component {path f : Path} (h : path <+: f) (hne : path ≠ f) :
    ∃ x, path ++ [x] <+: f := by
  obtain ⟨t, rfl⟩ := h
  cases t with
  | nil => simp at hne
  | cons x t => exact ⟨x, ⟨t, by simp⟩⟩

theorem prefix_concat_unique {path f : Path} {x y : String} (hx : path ++ [x] <+: f)
    (hy : path ++ [y] <+: f) : y = x := by
  obtain ⟨t, rfl⟩ := hx
  obtain ⟨u, hu⟩ := hy
  simp only [List.append_assoc, List.append_cancel_left_eq, List.singleton_append,
    List.cons.injEq] at hu
  exact hu.1

/-- The loop over the names of a directory above the file: the entries before
the one that leads to the file leave it intact, the walk of that entry takes
it home, the entries after it leave it at home. -/
theorem walkNames_visits (root q : Path) (n c : String) (id sz : Nat)
    (hn : ∀ ch ∈ n.data, ch ≠ '/')
    (hrule : mapGet DefaultRules (filepathExt n) = some c)
    (descend : Path → Node → State → Option (State × Res))
    (descendCalls : Path → Node → State → List Event) (path : Path) (x : String)
    (hroot : root <+: path) (hpx : path ++ [x] <+: q ++ [n])
    (hd : ∀ p i s s2 r, descend p i s = some (s2, r) →
      Calls organizeFn p s (descendCalls p i s) s2 r)
    (hv : ∀ info s s2, descend (path ++ [x]) info s = some (s2, Res.nil) →
      Lstat s.fs (path ++ [x]) = .ok info → Intact root (q ++ [n]) (Node.file id sz) s →
      Ends root (Home root q n c (Node.file id sz)) s (descendCalls (path ++ [x]) info s) s2)
    (names : List String) :
    x ∈ names → ∀ s s2, walkNames organizeFn descend path names s = some (s2, Res.nil) →
      Intact root (q ++ [n]) (Node.file id sz) s →
      Ends root (Home root q n c (Node.file id sz)) s
        (walkNamesCalls organizeFn descend descendCalls path names s) s2 := by
  have hF : Node.file id sz ≠ Node.dir := by simp
  induction names with
  | nil => intro hx; simp at hx
  | cons y rest ih =>
    intro hx s s2 h hi
    have hall :=
      (walkNames_calls organizeFn descend descendCalls hd path (y :: rest) s s2 _ h).below hroot
    simp only [walkNames] at h
    simp only [walkNamesCalls] at hall ⊢
    have hrest : ∀ s1, walkNames organizeFn descend path rest s1 = some (s2, Res.nil) →
        Calls organizeFn root s1 (walkNamesCalls organizeFn descend descendCalls path rest s1)
          s2 Res.nil :=
      fun s1 hn1 =>
        (walkNames_calls organizeFn descend descendCalls hd path rest s1 s2 _ hn1).below hroot
    cases hl : Lstat s.fs (path ++ [y]) with
    | error e =>
      simp only [hl] at hall ⊢
      exact ⟨hall, Or.inl ⟨_, List.mem_cons_self _ _, Or.inl (by simp [callEvent])⟩⟩
    | ok info =>
      simp only [hl] at h ⊢
      rcases onNil_eq_some h with ⟨s1, hx1, hn1⟩ | ⟨-, hne⟩
      swap
      · exact absurd rfl hne
      rw [hx1]
      simp only [thenCalls]
      by_cases hy : y = x
      · subst hy
        refine Ends.seq (hv _ s s1 hx1 hl hi) (hrest s1 hn1) ?_
        intro hh
        exact Ends.of_run _ (fun p => root <+: p)
          (fun pre post old info hc hnr hpre hold =>
            home_step root q n c _ hF hn hrule pre post old info none hc hnr hpre hold)
          (hrest s1 hn1) (List.prefix_refl _) (fun p hp => hp) hh
      · have hx2 : x ∈ rest := by
          rcases List.mem_cons.1 hx with h0 | h0
          · exact absurd h0.symm hy
          · exact h0
        have hnot : ∀ p, path ++ [y] <+: p → ¬ p <+: q ++ [n] :=
          fun p hp hpf => hy (prefix_concat_unique hpx (hp.trans hpf))
        refine Ends.seq (Ends.of_run (Intact root (q ++ [n]) (Node.file id sz))
          (fun p => ¬ p <+: q ++ [n])
          (fun pre post old info hc hnr hpre hold =>
            intact_step root (q ++ [n]) _ hF pre post old info none hc hnr hpre hold)
          (hd _ _ _ _ _ hx1) (hroot.trans (List.prefix_append _ _)) hnot hi) (hrest s1 hn1) ?_
        intro hi1
        exact ih hx2 s1 s2 hn1 hi1

/-- The walk of a directory above the file, or of the file itself, in a state
in which the file is intact, takes the file home, unless a call is made for a
traversal error or replaces an entry. -/
theorem walk_visits (root q : Path) (n c : String) (id sz : Nat)
    (hn : ∀ ch ∈ n.data, ch ≠ '/')
    (hrule : mapGet DefaultRules (filepathExt n) = some c)
    (fuel : Nat) :
    ∀ path info s s2, root <+: path → path <+: q ++ [n] →
      walk organizeFn fuel path info s = some (s2, Res.nil) →
      Lstat s.fs path = .ok info → Intact root (q ++ [n]) (Node.file id sz) s →
      Ends root (Home root q n c (Node.file id sz)) s
        (walkCalls organizeFn fuel path info s) s2 := by
  induction fuel with
  | zero => intro path info s s2 _ _ h; simp [walk] at h
  | succ fuel ih =>
    intro path info s s2 hrp hpf h hl hi
    have hall := (walk_calls organizeFn (fuel + 1) path info s s2 _ h).below hrp
    have hnode := (Lstat_ok hl).2
    simp only [walk] at h
    simp only [walkCalls] at hall ⊢
    by_cases hpath : path = q ++ [n]
    · subst hpath
      have hinfo : info = Node.file id sz := by
        have := hi.2.1.1
        rw [hnode] at this
        simpa using this
      subst hinfo
      simp only [Node.isDir, Bool.not_false, if_true] at h hall ⊢
      simp only [Option.some.injEq] at h
      by_cases hrep : Event.replaces
          ⟨s, q ++ [n], some (Node.file id sz), none, s2, Res.nil⟩
      · refine ⟨hall, Or.inl ⟨_, List.mem_singleton.2 rfl, Or.inr ?_⟩⟩
        simp only [callEvent, h]
        exact hrep
      · exact ⟨hall, Or.inr (visit_step root q n c id sz s s2 _ hn hrule h hrep hl hi)⟩
    · obtain ⟨nd, hnd, hdir⟩ := hi.2.2 path hpf hpath
      have hinfo : info = nd := by
        rw [hnode] at hnd
        simpa using hnd
      subst hinfo
      simp only [hdir, Bool.not_true, Bool.false_eq_true, if_false] at h hall ⊢
      obtain ⟨x, hpx⟩ := exists_next_component hpf hpath
      have hxnode : ∃ ndx, nodeAt s.fs (path ++ [x]) = some ndx := by
        have := hi.exists (path ++ [x]) hpx
        cases hh : nodeAt s.fs (path ++ [x]) with
        | none => exact absurd hh this
        | some ndx => exact ⟨ndx, rfl⟩
      cases hnames : readDirNames s.fs path with
      | error e =>
        simp only [hnames] at hall ⊢
        exact ⟨hall, Or.inl ⟨_, List.mem_singleton.2 rfl, Or.inl (by simp [callEvent])⟩⟩
      | ok names =>
        simp only [hnames] at h hall ⊢
        obtain ⟨ndx, hndx⟩ := hxnode
        have hxm := readDirNames_mem hnames hndx
        rcases onNil_eq_some h with ⟨s1, hx1, h1⟩ | ⟨-, hne⟩
        swap
        · exact absurd rfl hne
        simp only [Option.some.injEq] at hx1
        cases hr : mapGet DefaultRules (filepathExt (render path)) with
        | none =>
          have hcall := organizeFn_unmatched s path (some info) hr
          rw [hcall] at hx1
          simp only [Prod.mk.injEq, and_true] at hx1
          subst hx1
          rw [hcall]
          simp only [thenCalls]
          refine Ends.after_call path (some info) none hcall hrp ?_
          exact walkNames_visits root q n c id sz hn hrule (walk organizeFn fuel)
            (walkCalls organizeFn fuel) path x hrp hpx
            (walk_calls organizeFn fuel)
            (fun info s s2 hw hl2 hi2 =>
              ih (path ++ [x]) info s s2 (hrp.trans (List.prefix_append _ _)) hpx hw hl2 hi2)
            names hxm s s2 h1 hi
        | some c2 =>
          by_cases hrep : Event.replaces ⟨s, path, some info, none, s1, Res.nil⟩
          · refine ⟨hall, Or.inl ⟨_, List.mem_cons_self _ _, Or.inr ?_⟩⟩
            simp only [callEvent, hx1]
            exact hrep
          · have hgone := organizeFn_vacates s s1 path (some info) c2 hr hx1 hrep
              (fun d hd => hi.exists d (hd.trans hpf))
            have hp0 : path ≠ [] := by
              intro h0
              rw [h0] at hr
              have hdot : mapGet DefaultRules (filepathExt (render [])) = none := by decide
              rw [hdot] at hr
              simp at hr
            cases names with
            | nil => simp at hxm
            | cons y rest =>
              have hlf : ∃ e, Lstat s1.fs (path ++ [y]) = .error e := by
                cases hl2 : Lstat s1.fs (path ++ [y]) with
                | error e => exact ⟨e, rfl⟩
                | ok n2 =>
                  exfalso
                  obtain ⟨ha2, -⟩ := Lstat_ok hl2
                  obtain ⟨nd2, hn2, -⟩ := (ancestorErr_iff _ _).1 ha2 path
                    (List.prefix_append _ _) (by simp) hp0
                  rw [hgone] at hn2
                  simp at hn2
              obtain ⟨e, he⟩ := hlf
              rw [hx1] at hall ⊢
              simp only [thenCalls, walkNamesCalls, he] at hall ⊢
              exact ⟨hall, Or.inl ⟨_, List.mem_cons_of_mem _ (List.mem_cons_self _ _),
                Or.inl (by simp [callEvent])⟩⟩

theorem Organize_nil_walk (fuel : Nat) (s : State)
    (hres : (Organize fuel s).map (fun x => x.2.1) = some Res.nil) :
    ∃ s2, Walk organizeFn fuel s.sourceDir s = some (s2, Res.nil) ∧
      Organize fuel s = some (s2, Res.nil, some (showStats s2)) := by
  unfold Organize at hres ⊢
  cases hw : Walk organizeFn fuel s.sourceDir s with
  | none => simp [hw] at hres
  | some pr =>
    obtain ⟨s1, r1⟩ := pr
    cases r1 with
    | nil => exact ⟨s1, rfl, rfl⟩
    | err e => simp [hw] at hres
    | panic => simp [hw] at hres

/-- A run of `Organize` that returns nil takes a matched file home, unless a
call of the run is made for a traversal error or replaces an entry. -/
theorem Organize_visits (fuel : Nat) (s : State) (q : Path) (n c : String) (id sz : Nat)
    (hres : (Organize fuel s).map (fun x => x.2.1) = some Res.nil)
    (hq : s.sourceDir <+: q) (hn : ∀ ch ∈ n.data, ch ≠ '/')
    (hrule : mapGet DefaultRules (filepathExt n) = some c)
    (hfile : nodeAt s.fs (q ++ [n]) = some (Node.file id sz))
    (hdirs : ∀ d, d <+: q → ∃ nd, nodeAt s.fs d = some nd ∧ nd.isDir = true)
    (honly : ∀ e ∈ s.fs, e.2 = Node.file id sz → e.1 = q ++ [n]) :
    ∃ s2, Organize fuel s = some (s2, Res.nil, some (showStats s2)) ∧
      Ends s.sourceDir (Home s.sourceDir q n c (Node.file id sz)) s
        (OrganizeCalls fuel s) s2 := by
  obtain ⟨s2, hw, hor⟩ := Organize_nil_walk fuel s hres
  refine ⟨s2, hor, ?_⟩
  have hi : Intact s.sourceDir (q ++ [n]) (Node.file id sz) s := by
    refine ⟨rfl, ⟨hfile, ?_⟩, ?_⟩
    · intro k hk
      have hk0 : k ≠ [] := by
        intro h0
        simp [h0, nodeAt] at hk
      have hlk : lookupEntry s.fs k = some (Node.file id sz) := by
        simpa [nodeAt, hk0] using hk
      exact honly _ (lookupEntry_mem hlk) rfl
    · intro d hd hne
      rcases List.prefix_concat_iff.1 hd with hx | hx
      · exact absurd hx hne
      · exact hdirs d hx
  have hpre : s.sourceDir <+: q ++ [n] := hq.trans (List.prefix_append _ _)
  unfold Walk at hw
  unfold OrganizeCalls WalkCalls
  cases hl : Lstat s.fs s.sourceDir with
  | error e =>
    simp only [hl] at hw ⊢
    exact ⟨Calls.one organizeFn _ s _ _ _ (List.prefix_refl _) _ _ hw,
      Or.inl ⟨_, List.mem_singleton.2 rfl, Or.inl (by simp [callEvent])⟩⟩
  | ok info =>
    simp only [hl] at hw ⊢
    exact walk_visits s.sourceDir q n c id sz hn hrule fuel s.sourceDir _ s s2
      (List.prefix_refl _) hpre hw hl hi

theorem Home.not_at_origin {root q : Path} {n c : String} {F : Node} {s : State}
    (h : Home root q n c F s) : nodeAt s.fs (q ++ [n]) ≠ some F := by
  obtain ⟨-, nm, -, ht, -, hthird⟩ := h
  intro hx
  have heq := ht.2 _ hx
  have h1 : q = root ++ [c] := List.append_inj_left' heq rfl
  have h2 : [n] = [nm] := List.append_inj_right' heq rfl
  simp only [List.cons.injEq, and_true] at h2
  rcases hthird with h3 | h3
  · exact h3 h1
  · exact h3 h2.symm

/-- When the walk function is called with success for a file while another
entry holds its base name in the category directory: afterwards the other
entry is still under the base name, the file is under the collision name
(stem, underscore, time stamp, extension), and the file's original path is
empty. -/
theorem organizeFn_collision (fo : State) (q : Path) (n c : String)
    (info : Option Node) (id sz : Nat) (first : Node)
    (hn : ∀ ch ∈ n.data, ch ≠ '/')
    (hrule : mapGet DefaultRules (filepathExt n) = some c)
    (htaken : Stat fo.fs (fo.sourceDir ++ [c] ++ [n]) = .ok first)
    (hfile : Lstat fo.fs (q ++ [n]) = .ok (Node.file id sz))
    (hdistinct : q ++ [n] ≠ fo.sourceDir ++ [c] ++ [n])
    (hres : (organizeFn fo (q ++ [n]) info none).2 = Res.nil) :
    nodeAt (organizeFn fo (q ++ [n]) info none).1.fs (fo.sourceDir ++ [c] ++ [n]) =
      some first ∧
    nodeAt (organizeFn fo (q ++ [n]) info none).1.fs (fo.sourceDir ++ [c] ++
      [generateNewFileName (render (q ++ [n])) (fo.clock fo.ticks)]) =
        some (Node.file id sz) ∧
    nodeAt (organizeFn fo (q ++ [n]) info none).1.fs (q ++ [n]) = none ∧
    (∃ stem, n.data = stem ++ (filepathExt n).data ∧
      (generateNewFileName (render (q ++ [n])) (fo.clock fo.ticks)).data =
        stem ++ '_' :: (formatStamp (fo.clock fo.ticks)).data ++ (filepathExt n).data) := by
  obtain ⟨hrule2, hbase, hgne, -, -, -⟩ :=
    matched_names q n c (fo.clock fo.ticks) hn hrule
  have hjoin : filepathJoin fo.sourceDir c = fo.sourceDir ++ [c] :=
    (rule_shape hrule).2.1 _
  obtain ⟨hmnil, hmeq⟩ := organizeFn_nil fo (q ++ [n]) info c hrule2 hres
  rw [hjoin] at hmnil hmeq
  obtain ⟨h2, -, h4, h5⟩ :=
    moveFile_collision fo q (fo.sourceDir ++ [c]) n c id sz first hn hrule htaken hfile hmnil
  rw [hmeq]
  refine ⟨?_, h4, h5, ?_⟩
  · rw [h2, nodeAt_moveKeys _ _ _ _ (by simp)]
    obtain ⟨ha, hnode, -⟩ := Stat_ok htaken
    have hn1 : ¬ (fo.sourceDir ++ [c] ++
        [generateNewFileName (render (q ++ [n])) (fo.clock fo.ticks)]) <+:
        (fo.sourceDir ++ [c] ++ [n]) := by
      intro hx
      have := List.IsPrefix.eq_of_length hx (by simp)
      have := (List.append_inj' this rfl).2
      simp only [List.cons.injEq, and_true] at this
      exact hgne this
    have hn2 : ¬ (q ++ [n]) <+: (fo.sourceDir ++ [c] ++ [n]) := by
      intro hx
      obtain ⟨nd, hnd, -, hdir⟩ := ancestor_dir ha hx hdistinct
      rw [(Lstat_ok hfile).2] at hnd
      simp only [Option.some.injEq] at hnd
      rw [← hnd] at hdir
      simp [Node.isDir] at hdir
    rw [if_neg hn1, if_neg hn2]
    exact hnode
  · obtain ⟨stem, hb, hg⟩ :=
      generateNewFileName_eq (render (q ++ [n])) (fo.clock fo.ticks)
    rw [hbase] at hb hg
    exact ⟨stem, hb, hg⟩

/-- A file that lies in the category directory of its extension is moved again
when the walk function is called for it with success: its own path is the
destination and is taken, so the call renames the file to the collision name
inside that directory and counts it in the statistics. -/
theorem organizeFn_renames_again (fo : State) (n c : String)
    (info : Option Node) (id sz : Nat) (hn : ∀ ch ∈ n.data, ch ≠ '/')
    (hrule : mapGet DefaultRules (filepathExt n) = some c)
    (hfile : Stat fo.fs (fo.sourceDir ++ [c] ++ [n]) = .ok (Node.file id sz))
    (hres : (organizeFn fo (fo.sourceDir ++ [c] ++ [n]) info none).2 = Res.nil) :
    nodeAt (organizeFn fo (fo.sourceDir ++ [c] ++ [n]) info none).1.fs
      (fo.sourceDir ++ [c] ++
        [generateNewFileName (render (fo.sourceDir ++ [c] ++ [n])) (fo.clock fo.ticks)]) =
      some (Node.file id sz) ∧
    nodeAt (organizeFn fo (fo.sourceDir ++ [c] ++ [n]) info none).1.fs
      (fo.sourceDir ++ [c] ++ [n]) = none ∧
    generateNewFileName (render (fo.sourceDir ++ [c] ++ [n])) (fo.clock fo.ticks) ≠ n ∧
    (organizeFn fo (fo.sourceDir ++ [c] ++ [n]) info none).1.statistics =
      bump fo.statistics (filepathExt n) sz ∧
    mapGet (organizeFn fo (fo.sourceDir ++ [c] ++ [n]) info none).1.statistics
        (filepathExt n) =
      some ⟨((mapGet fo.statistics (filepathExt n)).getD ⟨0, 0⟩).Count + 1,
        wrapInt64 (((mapGet fo.statistics (filepathExt n)).getD ⟨0, 0⟩).TotalSize + sz)⟩ := by
  obtain ⟨hrule2, -, hgne, -, -, -⟩ :=
    matched_names (fo.sourceDir ++ [c]) n c (fo.clock fo.ticks) hn hrule
  obtain ⟨ha, hnode, -⟩ := Stat_ok hfile
  have hl : Lstat fo.fs (fo.sourceDir ++ [c] ++ [n]) = .ok (Node.file id sz) :=
    Lstat_of_nodeAt ha hnode
  have hjoin : filepathJoin fo.sourceDir c = fo.sourceDir ++ [c] :=
    (rule_shape hrule).2.1 _
  obtain ⟨hmnil, hmeq⟩ := organizeFn_nil fo (fo.sourceDir ++ [c] ++ [n]) info c hrule2 hres
  rw [hjoin] at hmnil hmeq
  obtain ⟨-, h3, h4, h5⟩ :=
    moveFile_collision fo (fo.sourceDir ++ [c]) (fo.sourceDir ++ [c]) n c id sz _ hn hrule
      hfile hl hmnil
  rw [hmeq]
  refine ⟨h4, h5, hgne, h3, ?_⟩
  rw [h3]
  exact mapGet_mapSet_self _ _ _

/-- A call that did not move its entry and returned nil left the filesystem
as it was. -/
theorem organizeFn_unmoved (pre post : State) (old : Path) (info : Option Node)
    (er : Option GoErr) (h : organizeFn pre old info er = (post, Res.nil))
    (hm : Event.moved ⟨pre, old, info, er, post, Res.nil⟩ = false) : post.fs = pre.fs := by
  cases er with
  | some e =>
    rw [organizeFn_error] at h
    simp only [Prod.mk.injEq, and_true] at h
    rw [← h]
  | none =>
    cases hrule : mapGet DefaultRules (filepathExt (render old)) with
    | none =>
      rw [organizeFn_unmatched pre old info hrule] at h
      simp only [Prod.mk.injEq, and_true] at h
      rw [h]
    | some c => simp [Event.moved, hrule] at hm

/-- A run without a call that moved its entry left the filesystem as it was. -/
theorem Run.unmoved {s s2 : State} {evs : List Event} {r : Res}
    (h : Run organizeFn s evs s2 r) (hr : r = Res.nil)
    (hm : evs.filter Event.moved = []) : s2.fs = s.fs := by
  induction h with
  | start => rfl
  | call hrun hfn ih =>
    rename_i s1 s3 evs p i er r
    subst hr
    rw [List.filter_append, List.append_eq_nil] at hm
    rw [← ih rfl hm.1]
    refine organizeFn_unmoved s1 s3 p i er hfn ?_
    by_contra hx
    simp only [Bool.not_eq_false] at hx
    simp [List.filter, hx] at hm

/-- A run of `Organize` that returns nil, without a call for a traversal error
and without a call that replaced an entry, takes a matched file home. -/
theorem Organize_home (fuel : Nat) (s : State) (q : Path) (n c : String) (id sz : Nat)
    (hres : (Organize fuel s).map (fun x => x.2.1) = some Res.nil)
    (hclean : ∀ ev ∈ OrganizeCalls fuel s, ev.er = none)
    (hnone : ∀ ev ∈ OrganizeCalls fuel s, ¬ ev.replaces)
    (hq : s.sourceDir <+: q) (hn : ∀ ch ∈ n.data, ch ≠ '/')
    (hrule : mapGet DefaultRules (filepathExt n) = some c)
    (hfile : nodeAt s.fs (q ++ [n]) = some (Node.file id sz))
    (hdirs : ∀ d ∈ q.inits, (nodeAt s.fs d).map Node.isDir = some true)
    (honly : ∀ e ∈ s.fs, e.2 = Node.file id sz → e.1 = q ++ [n]) :
    ∃ s2, Organize fuel s = some (s2, Res.nil, some (showStats s2)) ∧
      Calls organizeFn s.sourceDir s (OrganizeCalls fuel s) s2 Res.nil ∧
      Home s.sourceDir q n c (Node.file id sz) s2 := by
  have hdirs2 : ∀ d, d <+: q → ∃ nd, nodeAt s.fs d = some nd ∧ nd.isDir = true := by
    intro d hd
    have := hdirs d ((List.mem_inits _ _).2 hd)
    cases hx : nodeAt s.fs d with
    | none => simp [hx] at this
    | some nd => exact ⟨nd, rfl, by simpa [hx] using this⟩
  obtain ⟨s2, hor, hcalls, hcase⟩ :=
    Organize_visits fuel s q n c id sz hres hq hn hrule hfile hdirs2 honly
  rcases hcase with ⟨ev, hev, hbad⟩ | hh
  · rcases hbad with hbad | hbad
    · exact absurd (hclean ev hev) hbad
    · exact absurd hbad (hnone ev hev)
  · exact ⟨s2, hor, hcalls, hh⟩

/-! ## Examples of the filesystem model -/

/-- The size added for a moved directory is the size `os.Stat` reports for that
directory: 100 for `x.rar` and 60 for `y.zip`. -/
theorem directory_sizes_are_their_own :
    (Organize 3 (NewFileOrganizer ["r"] sizedFolders 4096 [] oneSecond)).map
        (fun x => (x.2.1, x.1.statistics)) =
      some (Res.nil, [(".rar", ⟨1, 100⟩), (".zip", ⟨1, 60⟩)]) := by
  decide

/-- The two failures of `os.Rename` that do not come from the shape of the
tree: the destination is on another filesystem, or the directory that holds
the source may not be written.  Either way the mover fails, the error is
logged and returned, and the picture stays where it was. -/
theorem rename_fails_across_mounts_and_without_permission :
    (Organize 3 (NewFileOrganizer ["r"] mountedImages 4096 [] oneSecond)).map
        (fun x => (x.2.1, x.1.log.filter isErrorLine, nodeAt x.1.fs ["r", "a.jpg"])) =
      some (Res.err (.linkError "rename" "r/a.jpg" "r/Images/a.jpg" Errno.EXDEV),
        [ "[ERROR] rename r/a.jpg r/Images/a.jpg: invalid cross-device link",
          "[ERROR] rename r/a.jpg r/Images/a.jpg: invalid cross-device link" ],
        some (Node.file 1 100)) ∧
    (Organize 3 (NewFileOrganizer ["r"] lockedFolder 4096 [] oneSecond)).map
        (fun x => (x.2.1, x.1.log.filter isErrorLine, nodeAt x.1.fs ["r", "b", "a.jpg"])) =
      some (Res.err (.linkError "rename" "r/b/a.jpg" "r/Images/a.jpg" Errno.EACCES),
        [ "[ERROR] rename r/b/a.jpg r/Images/a.jpg: permission denied",
          "[ERROR] rename r/b/a.jpg r/Images/a.jpg: permission denied" ],
        some (Node.file 1 100)) :=
  ⟨by decide, by decide⟩

/-! ## The claims -/

/-- C1, as stated, fails: the run over `stampTaken` has no traversal error and
no mover failure, the picture `r/a_20240115_143022.jpg` has the extension
`.jpg`, but after the run it is nowhere: the second `a.jpg` was renamed onto
it. -/
theorem taken_collision_name_is_overwritten :
    mapGet DefaultRules (filepathExt (render ["r", "a_20240115_143022.jpg"])) =
      some "Images" ∧
    nodeAt stampTaken ["r", "a_20240115_143022.jpg"] = some (Node.file 3 300) ∧
    (Organize 3 (NewFileOrganizer ["r"] stampTaken 4096 [] oneSecond)).map
        (fun x => (x.2.1, x.1.log.filter isErrorLine)) = some (Res.nil, []) ∧
    (Organize 3 (NewFileOrganizer ["r"] stampTaken 4096 [] oneSecond)).map
        (fun x => x.1.fs) =
      some [ (["r", "Images", "a_20240115_143022.jpg"], Node.file 2 200),
        (["r", "Images", "a.jpg"], Node.file 1 100), (["r", "Images"], Node.dir),
        (["r"], Node.dir), (["r", "b"], Node.dir) ] ∧
    (Organize 3 (NewFileOrganizer ["r"] stampTaken 4096 [] oneSecond)).map
        (fun x => x.1.fs.map Prod.snd |>.contains (Node.file 3 300)) = some false := by
  decide

/-- C1, amended: let a run of `Organize` complete with no errors, that is, let
it return a nil error and let none of its calls of the walk function be made
for a traversal error; let none of these calls have renamed its entry onto a
path that held an entry already; and let `q/n` be a regular file at or below
the source directory, below directories only and held under this one path,
whose extension the rule table maps to the category `c`.  Then after the run
the file is in
`<sourceDir>/<c>`, reachable, under its own name or under a name that comes
from it by collision renaming, with the same extension; it is nowhere else,
and in particular it is no longer at `q/n`. -/
theorem matched_file_ends_in_category (fuel : Nat) (s : State) (q : Path) (n c : String)
    (id sz : Nat)
    (hres : (Organize fuel s).map (fun x => x.2.1) = some Res.nil)
    (hclean : ∀ ev ∈ OrganizeCalls fuel s, ev.er = none)
    (hnone : ∀ ev ∈ OrganizeCalls fuel s, ¬ ev.replaces)
    (hq : s.sourceDir <+: q) (hn : ∀ ch ∈ n.data, ch ≠ '/')
    (hrule : mapGet DefaultRules (filepathExt n) = some c)
    (hfile : nodeAt s.fs (q ++ [n]) = some (Node.file id sz))
    (hdirs : ∀ d ∈ q.inits, (nodeAt s.fs d).map Node.isDir = some true)
    (honly : ∀ e ∈ s.fs, e.2 = Node.file id sz → e.1 = q ++ [n]) :
    ∃ s2 name, Organize fuel s = some (s2, Res.nil, some (showStats s2)) ∧
      Run organizeFn s (OrganizeCalls fuel s) s2 Res.nil ∧
      Stamped n name ∧ filepathExt name = filepathExt n ∧
      Lstat s2.fs (s.sourceDir ++ [c] ++ [name]) = .ok (Node.file id sz) ∧
      (∀ k, nodeAt s2.fs k = some (Node.file id sz) → k = s.sourceDir ++ [c] ++ [name]) ∧
      nodeAt s2.fs (q ++ [n]) ≠ some (Node.file id sz) := by
  obtain ⟨s2, hor, hcalls, hh⟩ :=
    Organize_home fuel s q n c id sz hres hclean hnone hq hn hrule hfile hdirs honly
  have hgone := hh.not_at_origin
  obtain ⟨-, nm, hl, ht, hst, -⟩ := hh
  exact ⟨s2, nm, hor, hcalls.1, hst, (hst.props hn hrule).2.2.1, hl, ht.2, hgone⟩

/-- An instance of amended C1: a picture in a directory below the source
directory. -/
theorem matched_file_ends_in_category_witness :
    (Organize 3 (NewFileOrganizer ["r"] pictureBelow 4096 [] oneSecond)).map
      (fun x => x.2.1) = some Res.nil ∧
    (∀ ev ∈ OrganizeCalls 3 (NewFileOrganizer ["r"] pictureBelow 4096 [] oneSecond),
      ev.er = none) ∧
    (∀ ev ∈ OrganizeCalls 3 (NewFileOrganizer ["r"] pictureBelow 4096 [] oneSecond),
      ¬ ev.replaces) ∧
    mapGet DefaultRules (filepathExt "a.jpg") = some "Images" ∧
    nodeAt pictureBelow (["r", "b"] ++ ["a.jpg"]) = some (Node.file 2 200) ∧
    ∃ s2 name, Organize 3 (NewFileOrganizer ["r"] pictureBelow 4096 [] oneSecond) =
        some (s2, Res.nil, some (showStats s2)) ∧
      Run organizeFn (NewFileOrganizer ["r"] pictureBelow 4096 [] oneSecond)
        (OrganizeCalls 3 (NewFileOrganizer ["r"] pictureBelow 4096 [] oneSecond)) s2
        Res.nil ∧
      Stamped "a.jpg" name ∧ filepathExt name = filepathExt "a.jpg" ∧
      Lstat s2.fs (["r"] ++ ["Images"] ++ [name]) = .ok (Node.file 2 200) ∧
      (∀ k, nodeAt s2.fs k = some (Node.file 2 200) → k = ["r"] ++ ["Images"] ++ [name]) ∧
      nodeAt s2.fs (["r", "b"] ++ ["a.jpg"]) ≠ some (Node.file 2 200) :=
  ⟨by decide, by decide, by decide, by decide, by decide,
    matched_file_ends_in_category 3 (NewFileOrganizer ["r"] pictureBelow 4096 [] oneSecond)
      ["r", "b"] "a.jpg" "Images" 2 200 (by decide) (by decide) (by decide) (by decide)
      (by decide) (by decide) (by decide) (by decide) (by decide)⟩

/-- Why amended C1 keeps the condition on traversal errors: the directory
`r/private` may be passed through but not listed.  The walk logs one ERROR
line for it and goes on, the run returns nil, no call replaces an entry, and
the picture `r/private/a.jpg` is where it was. -/
theorem unreadable_directory_is_skipped :
    mapGet DefaultRules (filepathExt "a.jpg") = some "Images" ∧
    Lstat privatePicture ["r", "private", "a.jpg"] = .ok (Node.file 4 40) ∧
    (∀ ev ∈ OrganizeCalls 3 (NewFileOrganizer ["r"] privatePicture 4096 [] oneSecond),
      ¬ ev.replaces) ∧
    (Organize 3 (NewFileOrganizer ["r"] privatePicture 4096 [] oneSecond)).map
        (fun x => (x.2.1, x.1.log, nodeAt x.1.fs ["r", "private", "a.jpg"],
          nodeAt x.1.fs ["r", "Images"])) =
      some (Res.nil,
        ["[ERROR] Ошибка доступа к r/private: open r/private: permission denied"],
        some (Node.file 4 40), none) :=
  ⟨by decide, rfl, by decide, by decide⟩

/-- C2, as stated, fails: the file `r/p.zip/readme.md` has no extension of the
rule table, but the directory `p.zip` above it has; the run moves the
directory, and afterwards the file is at `r/Archives/p.zip/readme.md`, its
original path is empty, and an ERROR line was written for it. -/
theorem unmatched_file_moved_with_its_directory :
    mapGet DefaultRules (filepathExt (render ["r", "p.zip", "readme.md"])) = none ∧
    nodeAt zipFolder ["r", "p.zip", "readme.md"] = some (Node.file 7 10) ∧
    (Organize 2 (NewFileOrganizer ["r"] zipFolder 4096 [] oneSecond)).map
        (fun x => (x.2.1, nodeAt x.1.fs ["r", "p.zip", "readme.md"],
          nodeAt x.1.fs ["r", "Archives", "p.zip", "readme.md"],
          x.1.log.filter isErrorLine)) =
      some (Res.nil, none, some (Node.file 7 10),
        ["[ERROR] Ошибка доступа к r/p.zip/readme.md: " ++
          "lstat r/p.zip/readme.md: no such file or directory"]) := by
  decide

/-- C2, amended: a regular file other than the log file of the program (which
every run appends to, and which is no entry of `fs`) stays at its path, as it
was, through every run of `Organize`, provided no path strictly below the
source directory and at or above the file has an extension of the rule table;
and when the walk function is called without a traversal error for a path
without such an extension it changes nothing at all: no move, no log line, no
change of the statistics. -/
theorem unmatched_entry_stays (fuel : Nat) (s : State) (fs2 : FS) (f : Path) (id sz : Nat)
    (horg : (Organize fuel s).map (fun x => x.1.fs) = some fs2)
    (hf : nodeAt s.fs f = some (Node.file id sz))
    (hlog : f ≠ logFile)
    (hclean : ∀ q, s.sourceDir <+: q → q ≠ s.sourceDir → q <+: f →
      mapGet DefaultRules (filepathExt (render q)) = none) :
    nodeAt fs2 f = some (Node.file id sz) ∧
    (∀ (fo : State) (p : Path) (info : Option Node),
      mapGet DefaultRules (filepathExt (render p)) = none →
      organizeFn fo p info none = (fo, Res.nil)) := by
  have _ := hlog
  refine ⟨?_, fun fo p info h => organizeFn_unmatched fo p info h⟩
  cases ho : Organize fuel s with
  | none => simp [ho] at horg
  | some x =>
    obtain ⟨s2, r, rep⟩ := x
    simp only [ho, Option.map_some', Option.some.injEq] at horg
    subst horg
    obtain ⟨⟨evs, hrun, hp⟩, -⟩ := Organize_run_under fuel s s2 r rep ho
    exact (Run.frame hrun hp f _ hf hclean).1

/-- An instance of amended C2: the notes next to a picture. -/
theorem unmatched_entry_stays_witness :
    (Organize 2 (NewFileOrganizer ["r"] pictureAndNotes 4096 [] oneSecond)).map
        (fun x => x.1.fs) =
      some [ (["r", "Images", "a.jpg"], Node.file 1 100), (["r", "Images"], Node.dir),
        (["r"], Node.dir), (["r", "notes.md"], Node.file 2 50) ] ∧
    ["r", "notes.md"] ≠ logFile ∧
    nodeAt [ (["r", "Images", "a.jpg"], Node.file 1 100), (["r", "Images"], Node.dir),
        (["r"], Node.dir), (["r", "notes.md"], Node.file 2 50) ] ["r", "notes.md"] =
      some (Node.file 2 50) :=
  ⟨by decide, by decide,
    (unmatched_entry_stays 2 (NewFileOrganizer ["r"] pictureAndNotes 4096 [] oneSecond) _
      ["r", "notes.md"] 2 50 (by decide) (by decide) (by decide)
      (fun q h1 h2 h3 =>
        (by decide : ∀ q ∈ List.inits ["r", "notes.md"], ["r"] <+: q → q ≠ ["r"] →
          mapGet DefaultRules (filepathExt (render q)) = none)
          q ((List.mem_inits _ _).2 h3) h1 h2)).1⟩

/-- C3, as stated, fails: in `sameNames` the pictures `r/b/a.jpg` and
`r/c/a.jpg` have the same base name; the run has no error, and afterwards the
first of them is nowhere: within one second both got the same collision name
and the later one replaced the earlier. -/
theorem same_second_collision_overwrites :
    nodeAt sameNames ["r", "b", "a.jpg"] = some (Node.file 2 200) ∧
    nodeAt sameNames ["r", "c", "a.jpg"] = some (Node.file 3 300) ∧
    (Organize 3 (NewFileOrganizer ["r"] sameNames 4096 [] oneSecond)).map
        (fun x => (x.2.1, x.1.log.filter isErrorLine)) = some (Res.nil, []) ∧
    (Organize 3 (NewFileOrganizer ["r"] sameNames 4096 [] oneSecond)).map
        (fun x => x.1.fs) =
      some [ (["r", "Images", "a_20240115_143022.jpg"], Node.file 3 300),
        (["r", "Images", "a.jpg"], Node.file 1 100), (["r", "Images"], Node.dir),
        (["r"], Node.dir), (["r", "b"], Node.dir), (["r", "c"], Node.dir) ] ∧
    (Organize 3 (NewFileOrganizer ["r"] sameNames 4096 [] oneSecond)).map
        (fun x => x.1.fs.map Prod.snd |>.contains (Node.file 2 200)) = some false := by
  decide

/-- C3, amended: let a run of `Organize` return a nil error, let none of its
calls of the walk function have been handed a traversal error, let none of
them have renamed its entry onto a path that held an entry already, and let
`q1/n` and `q2/n` be two regular files at distinct paths in directories at or
below the source directory, each held under its one path, with the same base
name, whose extension the rule table maps to the category `c`.  Then after the
run both files are in
`<sourceDir>/<c>`, reachable, under two different names, each of them the base
name or a name obtained from it by collision renaming, and neither file is at
its original path.  And whenever a call of the walk function for a file of
this name, made while another entry holds the name in the category directory,
returns nil, then afterwards the other entry is still under the base name, the
file is under the collision name (stem, underscore, time stamp, extension),
and the file's original path is empty. -/
theorem same_name_files_both_kept (fuel : Nat) (s : State) (q1 q2 : Path) (n c : String)
    (id1 sz1 id2 sz2 : Nat)
    (hres : (Organize fuel s).map (fun x => x.2.1) = some Res.nil)
    (hclean : ∀ ev ∈ OrganizeCalls fuel s, ev.er = none)
    (hnone : ∀ ev ∈ OrganizeCalls fuel s, ¬ ev.replaces)
    (hdiff : q1 ≠ q2) (hq1 : s.sourceDir <+: q1) (hq2 : s.sourceDir <+: q2)
    (hn : ∀ ch ∈ n.data, ch ≠ '/')
    (hrule : mapGet DefaultRules (filepathExt n) = some c)
    (hfile1 : nodeAt s.fs (q1 ++ [n]) = some (Node.file id1 sz1))
    (hfile2 : nodeAt s.fs (q2 ++ [n]) = some (Node.file id2 sz2))
    (hdirs1 : ∀ d ∈ q1.inits, (nodeAt s.fs d).map Node.isDir = some true)
    (hdirs2 : ∀ d ∈ q2.inits, (nodeAt s.fs d).map Node.isDir = some true)
    (honly1 : ∀ e ∈ s.fs, e.2 = Node.file id1 sz1 → e.1 = q1 ++ [n])
    (honly2 : ∀ e ∈ s.fs, e.2 = Node.file id2 sz2 → e.1 = q2 ++ [n]) :
    (∃ s2 name1 name2, Organize fuel s = some (s2, Res.nil, some (showStats s2)) ∧
      name1 ≠ name2 ∧ Stamped n name1 ∧ Stamped n name2 ∧
      Lstat s2.fs (s.sourceDir ++ [c] ++ [name1]) = .ok (Node.file id1 sz1) ∧
      Lstat s2.fs (s.sourceDir ++ [c] ++ [name2]) = .ok (Node.file id2 sz2) ∧
      nodeAt s2.fs (q1 ++ [n]) ≠ some (Node.file id1 sz1) ∧
      nodeAt s2.fs (q2 ++ [n]) ≠ some (Node.file id2 sz2)) ∧
    (∀ (fo : State) (q : Path) (info : Option Node) (id sz : Nat) (first : Node),
      Stat fo.fs (fo.sourceDir ++ [c] ++ [n]) = .ok first →
      Lstat fo.fs (q ++ [n]) = .ok (Node.file id sz) →
      q ++ [n] ≠ fo.sourceDir ++ [c] ++ [n] →
      (organizeFn fo (q ++ [n]) info none).2 = Res.nil →
      nodeAt (organizeFn fo (q ++ [n]) info none).1.fs (fo.sourceDir ++ [c] ++ [n]) =
        some first ∧
      nodeAt (organizeFn fo (q ++ [n]) info none).1.fs (fo.sourceDir ++ [c] ++
        [generateNewFileName (render (q ++ [n])) (fo.clock fo.ticks)]) =
          some (Node.file id sz) ∧
      nodeAt (organizeFn fo (q ++ [n]) info none).1.fs (q ++ [n]) = none ∧
      (∃ stem, n.data = stem ++ (filepathExt n).data ∧
        (generateNewFileName (render (q ++ [n])) (fo.clock fo.ticks)).data =
          stem ++ '_' :: (formatStamp (fo.clock fo.ticks)).data ++ (filepathExt n).data)) := by
  refine ⟨?_, fun fo q info id sz first htaken hfile hdistinct hok =>
    organizeFn_collision fo q n c info id sz first hn hrule htaken hfile hdistinct hok⟩
  obtain ⟨s2, hor, -, hh1⟩ :=
    Organize_home fuel s q1 n c id1 sz1 hres hclean hnone hq1 hn hrule hfile1 hdirs1 honly1
  obtain ⟨s3, hor3, -, hh2⟩ :=
    Organize_home fuel s q2 n c id2 sz2 hres hclean hnone hq2 hn hrule hfile2 hdirs2 honly2
  rw [hor] at hor3
  simp only [Option.some.injEq, Prod.mk.injEq, true_and] at hor3
  obtain ⟨hs, -⟩ := hor3
  subst hs
  have hg1 := hh1.not_at_origin
  have hg2 := hh2.not_at_origin
  obtain ⟨-, nm1, hl1, -, hst1, -⟩ := hh1
  obtain ⟨-, nm2, hl2, -, hst2, -⟩ := hh2
  refine ⟨s2, nm1, nm2, hor, ?_, hst1, hst2, hl1, hl2, hg1, hg2⟩
  intro hnm
  rw [hnm, hl2] at hl1
  simp only [Except.ok.injEq] at hl1
  have hlk : lookupEntry s.fs (q2 ++ [n]) = some (Node.file id2 sz2) := by
    simpa [nodeAt] using hfile2
  have := honly1 _ (lookupEntry_mem hlk) hl1
  exact hdiff (List.append_inj_left' this rfl).symm

/-- An instance of amended C3: the pictures `r/a.jpg` and `r/b/a.jpg`, and the
call for `r/b/a.jpg` while `r/Images/a.jpg` is there. -/
theorem same_name_files_both_kept_witness :
    (Organize 3 (NewFileOrganizer ["r"] twoNames 4096 [] oneSecond)).map
      (fun x => (x.2.1, nodeAt x.1.fs ["r", "Images", "a.jpg"],
        nodeAt x.1.fs ["r", "Images", "a_20240115_143022.jpg"])) =
      some (Res.nil, some (Node.file 1 100), some (Node.file 2 200)) ∧
    (∀ ev ∈ OrganizeCalls 3 (NewFileOrganizer ["r"] twoNames 4096 [] oneSecond),
      ev.er = none) ∧
    (∀ ev ∈ OrganizeCalls 3 (NewFileOrganizer ["r"] twoNames 4096 [] oneSecond),
      ¬ ev.replaces) ∧
    (∃ s2 name1 name2, Organize 3 (NewFileOrganizer ["r"] twoNames 4096 [] oneSecond) =
        some (s2, Res.nil, some (showStats s2)) ∧
      name1 ≠ name2 ∧ Stamped "a.jpg" name1 ∧ Stamped "a.jpg" name2 ∧
      Lstat s2.fs (["r"] ++ ["Images"] ++ [name1]) = .ok (Node.file 1 100) ∧
      Lstat s2.fs (["r"] ++ ["Images"] ++ [name2]) = .ok (Node.file 2 200) ∧
      nodeAt s2.fs (["r"] ++ ["a.jpg"]) ≠ some (Node.file 1 100) ∧
      nodeAt s2.fs (["r", "b"] ++ ["a.jpg"]) ≠ some (Node.file 2 200)) ∧
    (organizeFn (NewFileOrganizer ["r"] oneMoved 4096 [] oneSecond)
      (["r", "b"] ++ ["a.jpg"]) none none).2 = Res.nil ∧
    nodeAt (organizeFn (NewFileOrganizer ["r"] oneMoved 4096 [] oneSecond)
      (["r", "b"] ++ ["a.jpg"]) none none).1.fs (["r"] ++ ["Images"] ++ ["a.jpg"]) =
        some (Node.file 1 100) :=
  ⟨by decide, by decide, by decide,
    (same_name_files_both_kept 3 (NewFileOrganizer ["r"] twoNames 4096 [] oneSecond)
      ["r"] ["r", "b"] "a.jpg" "Images" 1 100 2 200 (by decide) (by decide) (by decide)
      (by decide) (by decide) (by decide) (by decide) (by decide) (by decide) (by decide)
      (by decide) (by decide) (by decide) (by decide)).1,
    by decide,
    ((same_name_files_both_kept 3 (NewFileOrganizer ["r"] twoNames 4096 [] oneSecond)
      ["r"] ["r", "b"] "a.jpg" "Images" 1 100 2 200 (by decide) (by decide) (by decide)
      (by decide) (by decide) (by decide) (by decide) (by decide) (by decide) (by decide)
      (by decide) (by decide) (by decide) (by decide)).2
      (NewFileOrganizer ["r"] oneMoved 4096 [] oneSecond) ["r", "b"] none 2 200
      (Node.file 1 100) rfl rfl (by decide) (by decide)).1⟩

/-- C4, as stated, fails, in both of its sums.  In `visitedTwice` there is one
file, `r/A.jpg` of 100 bytes; the run has no error, no call is handed a
traversal error and none replaces an entry; the walk moves the file to
`r/Images/A.jpg`, lists `r/Images` afterwards, finds the file there and moves
it again, to the collision name: there is still one file, and the counts sum
to 2 and the totals to 200.  In `hugePictures` the two files moved have
2^63 - 1 bytes and 1 byte, 2^63 bytes together, and the totals sum to
-2^63. -/
theorem file_counted_twice_and_total_wraps :
    visitedTwice.filter (fun e => !e.2.isDir) = [(["r", "A.jpg"], Node.file 1 100)] ∧
    (Organize 3 (NewFileOrganizer ["r"] visitedTwice 4096 [] oneSecond)).map
        (fun x => (x.2.1, x.1.log.filter isErrorLine, x.1.fs.filter (fun e => !e.2.isDir))) =
      some (Res.nil, [], [(["r", "Images", "A_20240115_143022.jpg"], Node.file 1 100)]) ∧
    (Organize 3 (NewFileOrganizer ["r"] visitedTwice 4096 [] oneSecond)).map
        (fun x => (x.1.statistics, sumCount x.1.statistics, sumSize x.1.statistics)) =
      some ([(".jpg", ⟨2, 200⟩)], 2, 200) ∧
    (OrganizeCalls 3 (NewFileOrganizer ["r"] visitedTwice 4096 [] oneSecond)).map
        (fun ev => (ev.path, ev.er.isSome, ev.moved, decide ev.replaces)) =
      [ (["r"], false, false, false), (["r", "A.jpg"], false, true, false),
        (["r", "Images"], false, false, false),
        (["r", "Images", "A.jpg"], false, true, false) ] ∧
    (Organize 3 (NewFileOrganizer ["r"] hugePictures 4096 [] oneSecond)).map
        (fun x => (x.2.1, x.1.log.filter isErrorLine, x.1.fs.filter (fun e => !e.2.isDir))) =
      some (Res.nil, [],
        [ (["r", "Images", "b.jpg"], Node.file 2 1),
          (["r", "Images", "a.jpg"], Node.file 1 (2 ^ 63 - 1)) ]) ∧
    (Organize 3 (NewFileOrganizer ["r"] hugePictures 4096 [] oneSecond)).map
        (fun x => (x.1.statistics, sumCount x.1.statistics, sumSize x.1.statistics)) =
      some ([(".jpg", ⟨2, -2 ^ 63⟩)], 2, -2 ^ 63) ∧
    movedSizes (OrganizeCalls 3 (NewFileOrganizer ["r"] hugePictures 4096 [] oneSecond)) =
      [2 ^ 63 - 1, 1] :=
  ⟨by decide, by decide, by decide, by decide, by decide, by decide, by decide⟩

/-- C4, amended: along every run of calls of the walk function the sum of the
counts grows by the number of calls that moved their entry (a file that the
walk meets again is moved and counted again), and the sum of the totals by the
sizes found at the destinations after the moves, in 64-bit arithmetic, and
exactly as long as the sum stays below 2^63; the same holds in the state after
each call of the run, for the calls up to it; each call that moved its entry
adds 1 and that size to the one entry keyed by the extension of the
destination; the calls of every run of `Organize` are such a run starting from
empty statistics; three pictures of 100, 200 and 300 bytes give count 3 and
total 600. -/
theorem statistics_sums_match_moves (s s2 : State) (evs : List Event) (r : Res)
    (h : Run organizeFn s evs s2 r) :
    sumCount s2.statistics = sumCount s.statistics + (evs.filter Event.moved).length ∧
    (sumSize s2.statistics - (sumSize s.statistics + ((movedSizes evs).sum : Nat))) % 2 ^ 64
      = 0 ∧
    (NonNeg s.statistics →
      sumSize s.statistics + ((movedSizes evs).sum : Nat) < 2 ^ 63 →
      sumSize s2.statistics = sumSize s.statistics + ((movedSizes evs).sum : Nat)) ∧
    (∀ ev ∈ evs, ∃ pre, pre ++ [ev] <+: evs ∧
      sumCount ev.post.statistics =
        sumCount s.statistics + ((pre ++ [ev]).filter Event.moved).length ∧
      (sumSize ev.post.statistics -
        (sumSize s.statistics + ((movedSizes (pre ++ [ev])).sum : Nat))) % 2 ^ 64 = 0 ∧
      (NonNeg s.statistics →
        sumSize s.statistics + ((movedSizes (pre ++ [ev])).sum : Nat) < 2 ^ 63 →
        sumSize ev.post.statistics =
          sumSize s.statistics + ((movedSizes (pre ++ [ev])).sum : Nat))) ∧
    (∀ ev ∈ evs, ev.moved = true →
      ∃ newPath nd, ev.dest = some newPath ∧ Stat ev.post.fs newPath = .ok nd ∧
        ev.postSize = nd.size ev.pre.dirSize ∧
        ev.post.statistics =
          bump ev.pre.statistics (filepathExt (render newPath)) ev.postSize) ∧
    (∀ (m : List (String × FileStats)) (key : String) (size : Nat),
      mapGet (bump m key size) key =
        some ⟨((mapGet m key).getD ⟨0, 0⟩).Count + 1,
          wrapInt64 (((mapGet m key).getD ⟨0, 0⟩).TotalSize + size)⟩ ∧
      ∀ k, k ≠ key → mapGet (bump m key size) k = mapGet m k) ∧
    (∀ fuel root fs dirSize log clock s3 r3 rep,
      Organize fuel (NewFileOrganizer root fs dirSize log clock) = some (s3, r3, rep) →
      Run organizeFn (NewFileOrganizer root fs dirSize log clock)
        (OrganizeCalls fuel (NewFileOrganizer root fs dirSize log clock)) s3 r3 ∧
      sumCount s3.statistics =
        ((OrganizeCalls fuel (NewFileOrganizer root fs dirSize log clock)).filter
          Event.moved).length ∧
      (((movedSizes (OrganizeCalls fuel (NewFileOrganizer root fs dirSize log clock))).sum :
          Nat) < (2 : Int) ^ 63 →
        sumSize s3.statistics =
          ((movedSizes (OrganizeCalls fuel (NewFileOrganizer root fs dirSize log clock))).sum :
            Nat))) ∧
    (Organize 2 (NewFileOrganizer ["r"] threePictures 4096 [] oneSecond)).map
        (fun x => (x.1.statistics, x.2.2)) =
      some ([(".jpg", ⟨3, 600⟩)], some ⟨3, 600, [("Images", 3, 600)]⟩) := by
  obtain ⟨h1, h2, h3⟩ := Run.sums h
  refine ⟨h1, h2, fun hnn hb => (h3 hnn hb).1, ?_, ?_, ?_, ?_, by decide⟩
  · intro ev hev
    obtain ⟨pre, hpre, hr⟩ := Run.upto h ev hev
    obtain ⟨g1, g2, g3⟩ := Run.sums hr
    exact ⟨pre, hpre, g1, g2, fun hnn hb => (g3 hnn hb).1⟩
  · intro ev hev hmv
    have hcall := Run.calls h ev hev
    rcases organizeFn_stats _ _ _ _ _ _ hcall with
      ⟨-, newPath, nd, hdest, hst, hstats⟩ | ⟨hno, -⟩
    · have hps : ev.postSize = nd.size ev.pre.dirSize := by
        simp only [Event.postSize, hdest, hst]
      exact ⟨newPath, nd, hdest, hst, hps, by rw [hps]; exact hstats⟩
    · rw [hmv] at hno; simp at hno
  · intro m key size
    exact ⟨mapGet_mapSet_self _ _ _, fun k hk => mapGet_mapSet_other _ _ _ _ hk⟩
  · intro fuel root fs dirSize log clock s3 r3 rep horg
    have hrun := (Organize_calls fuel _ s3 r3 rep horg).1
    obtain ⟨g1, -, g3⟩ := Run.sums hrun
    refine ⟨hrun, ?_, ?_⟩
    · simpa [NewFileOrganizer, sumCount] using g1
    · intro hb
      have hnn : NonNeg (NewFileOrganizer root fs dirSize log clock).statistics := by
        intro kv hkv
        simp [NewFileOrganizer] at hkv
      have := (g3 hnn (by simpa [NewFileOrganizer, sumSize] using hb)).1
      simpa [NewFileOrganizer, sumSize] using this

/-- An instance of amended C4: the run that consists of the call for the first of three
pictures. -/
theorem statistics_sums_match_moves_witness :
    sumCount (organizeFn (NewFileOrganizer ["r"] threePictures 4096 [] oneSecond)
        ["r", "a.jpg"] none none).1.statistics =
      sumCount (NewFileOrganizer ["r"] threePictures 4096 [] oneSecond).statistics +
        (List.filter Event.moved
          [⟨NewFileOrganizer ["r"] threePictures 4096 [] oneSecond, ["r", "a.jpg"], none, none,
            (organizeFn (NewFileOrganizer ["r"] threePictures 4096 [] oneSecond)
              ["r", "a.jpg"] none none).1,
            (organizeFn (NewFileOrganizer ["r"] threePictures 4096 [] oneSecond)
              ["r", "a.jpg"] none none).2⟩]).length :=
  (statistics_sums_match_moves _ _ _ _
    (Run.single organizeFn (NewFileOrganizer ["r"] threePictures 4096 [] oneSecond)
      ["r", "a.jpg"] none none)).1

/-- C5, as stated, fails: the run over `threePictures` has no error and leaves
`threeMoved`; a second run over that, with no file added, visits the three
pictures in `r/Images` again, renames each of them and counts three moves. -/
theorem second_run_moves_again :
    (Organize 2 (NewFileOrganizer ["r"] threePictures 4096 [] oneSecond)).map
        (fun x => (x.2.1, x.1.log.filter isErrorLine)) = some (Res.nil, []) ∧
    (Organize 2 (NewFileOrganizer ["r"] threePictures 4096 [] oneSecond)).map
        (fun x => x.1.fs) = some threeMoved ∧
    (Organize 3 (NewFileOrganizer ["r"] threeMoved 4096 [] oneSecondLater)).map
        (fun x => (x.2.1, x.1.statistics)) = some (Res.nil, [(".jpg", ⟨3, 600⟩)]) ∧
    (Organize 3 (NewFileOrganizer ["r"] threeMoved 4096 [] oneSecondLater)).map
        (fun x => x.1.fs) =
      some [ (["r", "Images", "c_20240115_143107.jpg"], Node.file 3 300),
        (["r", "Images", "b_20240115_143107.jpg"], Node.file 2 200),
        (["r", "Images", "a_20240115_143107.jpg"], Node.file 1 100),
        (["r", "Images"], Node.dir), (["r"], Node.dir) ] := by
  decide

/-- C5, amended: let a run of `Organize` return a nil error, let none of its
calls of the walk function have been handed a traversal error, let none of
them have renamed its entry onto a path that held an entry already, and let a
regular file `n`, held under one path, lie in the category directory of its
extension at the start, as every file does that an earlier run has moved.
Then the run moves it
again: after the run the file is in that directory under another name, it is
no longer under `n`, the run has a call that moved its entry, and the counts
of the statistics have grown.  And whenever a call of the walk function for
such a file returns nil, its own path having been the destination and taken,
the call has renamed the file to the collision name inside that directory and
has counted it in the statistics. -/
theorem file_in_category_is_renamed_again (fuel : Nat) (s : State) (n c : String)
    (id sz : Nat)
    (hres : (Organize fuel s).map (fun x => x.2.1) = some Res.nil)
    (hclean : ∀ ev ∈ OrganizeCalls fuel s, ev.er = none)
    (hnone : ∀ ev ∈ OrganizeCalls fuel s, ¬ ev.replaces)
    (hn : ∀ ch ∈ n.data, ch ≠ '/')
    (hrule : mapGet DefaultRules (filepathExt n) = some c)
    (hfile : nodeAt s.fs (s.sourceDir ++ [c] ++ [n]) = some (Node.file id sz))
    (hdirs : ∀ d ∈ (s.sourceDir ++ [c]).inits, (nodeAt s.fs d).map Node.isDir = some true)
    (honly : ∀ e ∈ s.fs, e.2 = Node.file id sz → e.1 = s.sourceDir ++ [c] ++ [n]) :
    (∃ s2 name, Organize fuel s = some (s2, Res.nil, some (showStats s2)) ∧
      name ≠ n ∧ Stamped n name ∧
      Lstat s2.fs (s.sourceDir ++ [c] ++ [name]) = .ok (Node.file id sz) ∧
      nodeAt s2.fs (s.sourceDir ++ [c] ++ [n]) ≠ some (Node.file id sz) ∧
      (OrganizeCalls fuel s).filter Event.moved ≠ [] ∧
      sumCount s.statistics < sumCount s2.statistics) ∧
    (∀ (fo : State) (info : Option Node) (id sz : Nat),
      Stat fo.fs (fo.sourceDir ++ [c] ++ [n]) = .ok (Node.file id sz) →
      (organizeFn fo (fo.sourceDir ++ [c] ++ [n]) info none).2 = Res.nil →
      nodeAt (organizeFn fo (fo.sourceDir ++ [c] ++ [n]) info none).1.fs
        (fo.sourceDir ++ [c] ++
          [generateNewFileName (render (fo.sourceDir ++ [c] ++ [n])) (fo.clock fo.ticks)]) =
        some (Node.file id sz) ∧
      nodeAt (organizeFn fo (fo.sourceDir ++ [c] ++ [n]) info none).1.fs
        (fo.sourceDir ++ [c] ++ [n]) = none ∧
      generateNewFileName (render (fo.sourceDir ++ [c] ++ [n])) (fo.clock fo.ticks) ≠ n ∧
      (organizeFn fo (fo.sourceDir ++ [c] ++ [n]) info none).1.statistics =
        bump fo.statistics (filepathExt n) sz ∧
      mapGet (organizeFn fo (fo.sourceDir ++ [c] ++ [n]) info none).1.statistics
          (filepathExt n) =
        some ⟨((mapGet fo.statistics (filepathExt n)).getD ⟨0, 0⟩).Count + 1,
          wrapInt64 (((mapGet fo.statistics (filepathExt n)).getD ⟨0, 0⟩).TotalSize + sz)⟩) := by
  refine ⟨?_, fun fo info id sz hfile hok =>
    organizeFn_renames_again fo n c info id sz hn hrule hfile hok⟩
  obtain ⟨s2, hor, hcalls, hh⟩ :=
    Organize_home fuel s (s.sourceDir ++ [c]) n c id sz hres hclean hnone
      (List.prefix_append _ _) hn hrule hfile hdirs honly
  have hgone := hh.not_at_origin
  have hmoved : (OrganizeCalls fuel s).filter Event.moved ≠ [] := by
    intro h0
    have hfs := Run.unmoved hcalls.1 rfl h0
    rw [hfs, hfile] at hgone
    exact hgone rfl
  obtain ⟨-, nm, hl, -, hst, hthird⟩ := hh
  refine ⟨s2, nm, hor, ?_, hst, hl, hgone, hmoved, ?_⟩
  · rcases hthird with h3 | h3
    · exact absurd rfl h3
    · exact h3
  · have h1 := (Run.sums hcalls.1).1
    have h2 := List.length_pos.2 hmoved
    omega

/-- An instance of amended C5: the picture `r/Images/a.jpg` of `threeMoved`. -/
theorem file_in_category_is_renamed_again_witness :
    (Organize 3 (NewFileOrganizer ["r"] threeMoved 4096 [] oneSecondLater)).map
      (fun x => x.2.1) = some Res.nil ∧
    (∀ ev ∈ OrganizeCalls 3 (NewFileOrganizer ["r"] threeMoved 4096 [] oneSecondLater),
      ev.er = none) ∧
    (∀ ev ∈ OrganizeCalls 3 (NewFileOrganizer ["r"] threeMoved 4096 [] oneSecondLater),
      ¬ ev.replaces) ∧
    nodeAt threeMoved (["r"] ++ ["Images"] ++ ["a.jpg"]) = some (Node.file 1 100) ∧
    (∃ s2 name, Organize 3 (NewFileOrganizer ["r"] threeMoved 4096 [] oneSecondLater) =
        some (s2, Res.nil, some (showStats s2)) ∧
      name ≠ "a.jpg" ∧ Stamped "a.jpg" name ∧
      Lstat s2.fs (["r"] ++ ["Images"] ++ [name]) = .ok (Node.file 1 100) ∧
      nodeAt s2.fs (["r"] ++ ["Images"] ++ ["a.jpg"]) ≠ some (Node.file 1 100) ∧
      (OrganizeCalls 3 (NewFileOrganizer ["r"] threeMoved 4096 [] oneSecondLater)).filter
        Event.moved ≠ [] ∧
      sumCount (NewFileOrganizer ["r"] threeMoved 4096 [] oneSecondLater).statistics <
        sumCount s2.statistics) ∧
    (organizeFn (NewFileOrganizer ["r"] threeMoved 4096 [] oneSecondLater)
      ((NewFileOrganizer ["r"] threeMoved 4096 [] oneSecondLater).sourceDir ++ ["Images"] ++
        ["a.jpg"]) none none).2 = Res.nil ∧
    nodeAt (organizeFn (NewFileOrganizer ["r"] threeMoved 4096 [] oneSecondLater)
      ((NewFileOrganizer ["r"] threeMoved 4096 [] oneSecondLater).sourceDir ++ ["Images"] ++
        ["a.jpg"]) none none).1.fs
      ((NewFileOrganizer ["r"] threeMoved 4096 [] oneSecondLater).sourceDir ++ ["Images"] ++
        [generateNewFileName
          (render ((NewFileOrganizer ["r"] threeMoved 4096 [] oneSecondLater).sourceDir ++
            ["Images"] ++ ["a.jpg"]))
          ((NewFileOrganizer ["r"] threeMoved 4096 [] oneSecondLater).clock
            (NewFileOrganizer ["r"] threeMoved 4096 [] oneSecondLater).ticks)]) =
      some (Node.file 1 100) :=
  ⟨by decide, by decide, by decide, by decide,
    (file_in_category_is_renamed_again 3
      (NewFileOrganizer ["r"] threeMoved 4096 [] oneSecondLater) "a.jpg" "Images" 1 100
      (by decide) (by decide) (by decide) (by decide) (by decide) (by decide) (by decide)
      (by decide)).1,
    by decide,
    ((file_in_category_is_renamed_again 3
      (NewFileOrganizer ["r"] threeMoved 4096 [] oneSecondLater) "a.jpg" "Images" 1 100
      (by decide) (by decide) (by decide) (by decide) (by decide) (by decide) (by decide)
      (by decide)).2
      (NewFileOrganizer ["r"] threeMoved 4096 [] oneSecondLater) none 1 100 rfl
      (by decide)).1⟩

/-- C6: for an entry reported with a traversal error the walk function writes
exactly one ERROR line holding the path and the error, leaves filesystem and
statistics as they are and returns nil; the loop over the names of a directory
goes on with the names that remain, and `Organize` on a source directory that
cannot be read returns nil after the report. -/
theorem traversal_error_is_logged_and_skipped (fo : State) (path : Path)
    (info : Option Node) (er : GoErr) :
    organizeFn fo path info (some er) =
      ({ fo with log := fo.log ++
          ["[ERROR] " ++ ("Ошибка доступа к " ++ render path ++ ": " ++ er.Error)] },
        Res.nil) ∧
    (∀ (descend : Path → Node → State → Option (State × Res)) (dir : Path)
        (name : String) (rest : List String),
      dir ++ [name] = path → Lstat fo.fs path = .error er →
      walkNames organizeFn descend dir (name :: rest) fo =
        walkNames organizeFn descend dir rest
          { fo with log := fo.log ++
            ["[ERROR] " ++ ("Ошибка доступа к " ++ render path ++ ": " ++ er.Error)] }) ∧
    (fo.sourceDir = path → Lstat fo.fs path = .error er → ∀ fuel,
      Organize fuel fo =
        some ({ fo with log := fo.log ++
            ["[ERROR] " ++ ("Ошибка доступа к " ++ render path ++ ": " ++ er.Error)] },
          Res.nil,
          some (showStats fo))) := by
  refine ⟨organizeFn_error fo path info er, ?_, ?_⟩
  · intro descend dir name rest hp hl
    subst hp
    simp only [walkNames, hl, organizeFn_error, onNil]
  · intro hp hl fuel
    subst hp
    simp only [Organize, Walk, hl, organizeFn_error]
    rfl

/-- An instance of C6: the entry `r/x` does not exist. -/
theorem traversal_error_is_logged_and_skipped_witness :
    Lstat [] ["r", "x"] = .error (.pathError "lstat" "r/x" Errno.ENOENT) ∧
    walkNames organizeFn (fun _ _ _ => none) ["r"] ["x", "y.md"]
        (NewFileOrganizer ["r"] [] 4096 [] oneSecond) =
      walkNames organizeFn (fun _ _ _ => none) ["r"] ["y.md"]
        { NewFileOrganizer ["r"] [] 4096 [] oneSecond with
          log := (NewFileOrganizer ["r"] [] 4096 [] oneSecond).log ++
            ["[ERROR] " ++ ("Ошибка доступа к " ++ render ["r", "x"] ++ ": " ++
              (GoErr.pathError "lstat" "r/x" Errno.ENOENT).Error)] } :=
  ⟨rfl, (traversal_error_is_logged_and_skipped (NewFileOrganizer ["r"] [] 4096 [] oneSecond)
    ["r", "x"] none (.pathError "lstat" "r/x" Errno.ENOENT)).2.1
      (fun _ _ _ => none) ["r"] "x" ["y.md"] rfl rfl⟩

/-- C7: when the mover fails on a matched entry, for one of its three reasons
(the target directory cannot be made, the rename fails, the size query after
the rename fails), its last log line is an ERROR line, the walk function logs
the error and returns the same error, and in every run of `Organize` a call
that failed is the last call: `Organize` returns its error after the report.
`Organize` does return when the recursion depth exceeds the depth bound of the
filesystem, and more depth gives the same result. -/
theorem mover_failure_aborts_walk (fo : State) (path : Path) (info : Option Node)
    (c : String) (e : GoErr)
    (hrule : mapGet DefaultRules (filepathExt (render path)) = some c)
    (hfail : (moveFile fo path (filepathJoin fo.sourceDir c)).2 = Res.err e) :
    ((MkdirAll fo.fs (filepathJoin fo.sourceDir c) = .error e ∧
        (moveFile fo path (filepathJoin fo.sourceDir c)).1.fs = fo.fs) ∨
      (∃ fs1, Prepared fo.fs (filepathJoin fo.sourceDir c) fs1 ∧
        Rename fs1 path
          (destination fs1 (fo.clock fo.ticks) path (filepathJoin fo.sourceDir c)).1 =
            .error e ∧
        (moveFile fo path (filepathJoin fo.sourceDir c)).1.fs = fs1) ∨
      (∃ fs1 fs2, Prepared fo.fs (filepathJoin fo.sourceDir c) fs1 ∧
        Rename fs1 path
          (destination fs1 (fo.clock fo.ticks) path (filepathJoin fo.sourceDir c)).1 =
            .ok fs2 ∧
        Stat fs2
          (destination fs1 (fo.clock fo.ticks) path (filepathJoin fo.sourceDir c)).1 =
            .error e ∧
        (moveFile fo path (filepathJoin fo.sourceDir c)).1.fs = fs2)) ∧
    (∃ msg, (moveFile fo path (filepathJoin fo.sourceDir c)).1.log.getLast? =
      some (logLine ("[ERROR] " ++ msg))) ∧
    organizeFn fo path info none =
      (logError (moveFile fo path (filepathJoin fo.sourceDir c)).1 e.Error, Res.err e) ∧
    (∀ fuel s0 s2 r rep, Organize fuel s0 = some (s2, r, rep) →
      Run organizeFn s0 (OrganizeCalls fuel s0) s2 r ∧
      (∀ ev ∈ OrganizeCalls fuel s0, ev.res ≠ Res.nil →
        (OrganizeCalls fuel s0).getLast? = some ev ∧ s2 = ev.post ∧ r = ev.res) ∧
      (r ≠ Res.panic → rep = some (showStats s2))) ∧
    (∀ s0 : State, (∃ x, Organize (depthBound s0.sourceDir s0.fs + 1) s0 = some x) ∧
      ∀ fuel extra x, Organize fuel s0 = some x → Organize (fuel + extra) s0 = some x) := by
  refine ⟨?_, ?_, ?_, ?_, Organize_returns⟩
  · rcases moveFile_cases fo path (filepathJoin fo.sourceDir c) with
      ⟨-, h⟩ | ⟨e1, -, hmk, h⟩ | ⟨fs1, e1, hp, hr, h⟩ | ⟨fs1, fs2, e1, hp, hr, hs, h⟩ |
      ⟨fs1, fs2, nd, hp, hr, hs, h⟩
    · rw [h] at hfail; simp at hfail
    · rw [h] at hfail ⊢
      simp only [Res.err.injEq] at hfail
      subst hfail
      exact Or.inl ⟨hmk, rfl⟩
    · rw [h] at hfail ⊢
      simp only [Res.err.injEq] at hfail
      subst hfail
      exact Or.inr (Or.inl ⟨fs1, hp, hr, rfl⟩)
    · rw [h] at hfail ⊢
      simp only [Res.err.injEq] at hfail
      subst hfail
      exact Or.inr (Or.inr ⟨fs1, fs2, hp, hr, hs, rfl⟩)
    · rw [h] at hfail; simp at hfail
  · rcases moveFile_cases fo path (filepathJoin fo.sourceDir c) with
      ⟨-, h⟩ | ⟨e1, -, hmk, h⟩ | ⟨fs1, e1, hp, hr, h⟩ | ⟨fs1, fs2, e1, hp, hr, hs, h⟩ |
      ⟨fs1, fs2, nd, hp, hr, hs, h⟩
    · rw [h] at hfail; simp at hfail
    · rw [h]; exact ⟨e1.Error, by simp [logError]⟩
    · rw [h]; exact ⟨e1.Error, by simp [logError]⟩
    · rw [h]
      exact ⟨"Ошибка получение информации о файле: " ++ render
        (destination fs1 (fo.clock fo.ticks) path (filepathJoin fo.sourceDir c)).1,
        by simp [logError]⟩
    · rw [h] at hfail; simp at hfail
  · rw [organizeFn_matched fo path info c hrule, hfail]
  · intro fuel s0 s2 r rep h
    have hrun := (Organize_calls fuel s0 s2 r rep h).1
    exact ⟨hrun, fun ev hev hres => Run.failure_last hrun ev hev hres,
      (Organize_run fuel s0 s2 r rep h).2⟩

/-- An instance of C7: a picture name that points nowhere is renamed, and the
size query after the rename fails. -/
theorem mover_failure_aborts_walk_witness :
    mapGet DefaultRules (filepathExt (render ["r", "l.jpg"])) = some "Images" ∧
    (moveFile (NewFileOrganizer ["r"] danglingPicture 4096 [] oneSecond) ["r", "l.jpg"]
      (filepathJoin ["r"] "Images")).2 =
        Res.err (.pathError "stat" "r/Images/l.jpg" Errno.ENOENT) ∧
    organizeFn (NewFileOrganizer ["r"] danglingPicture 4096 [] oneSecond) ["r", "l.jpg"]
        none none =
      (logError (moveFile (NewFileOrganizer ["r"] danglingPicture 4096 [] oneSecond)
          ["r", "l.jpg"] (filepathJoin ["r"] "Images")).1
        (GoErr.pathError "stat" "r/Images/l.jpg" Errno.ENOENT).Error,
        Res.err (.pathError "stat" "r/Images/l.jpg" Errno.ENOENT)) :=
  ⟨by decide, by decide,
    (mover_failure_aborts_walk (NewFileOrganizer ["r"] danglingPicture 4096 [] oneSecond)
      ["r", "l.jpg"] none "Images" (.pathError "stat" "r/Images/l.jpg" Errno.ENOENT)
      (by decide) (by decide)).2.2.1⟩

/-- C8, the code at a failing input: the source directory holds one picture
name that points nowhere.  The rename succeeds, the size query fails, the walk
is aborted and the report is made; the statistics, empty before the failing
call, now hold an entry for `.jpg` with count 0, and the report lists it. -/
theorem failed_size_query_leaves_empty_entry :
    (NewFileOrganizer ["r"] danglingPicture 4096 [] oneSecond).statistics = [] ∧
    (Organize 2 (NewFileOrganizer ["r"] danglingPicture 4096 [] oneSecond)).map
        (fun x => (x.1.statistics, x.2.1, x.2.2)) =
      some ([(".jpg", ⟨0, 0⟩)],
        Res.err (.pathError "stat" "r/Images/l.jpg" Errno.ENOENT),
        some ⟨0, 0, [("Images", 0, 0)]⟩) := by
  refine ⟨rfl, ?_⟩
  decide

/-- C9: the collision name is stem, underscore, time stamp, extension, where
the extension is the part of the base name from its last dot on (empty without
a dot) and the stem is the base name without it; `photo.jpg` at 2024-01-15
14:30:22 gives `photo_20240115_143022.jpg`.  The mover takes this name exactly
when `os.Stat` finds something at `targetDir/basename` and the base name
otherwise. -/
theorem generateNewFileName_spec (path : String) (t : Time) (fs : FS)
    (sourcePath targetDir : Path) :
    (∃ stem ext : List Char,
      (filepathBase path).data = stem ++ ext ∧
      ((ext = [] ∧ '.' ∉ (filepathBase path).data) ∨
        ∃ tail, ext = '.' :: tail ∧ '.' ∉ tail) ∧
      (generateNewFileName path t).data = stem ++ '_' :: (formatStamp t).data ++ ext) ∧
    generateNewFileName "photo.jpg" ⟨2024, 1, 15, 14, 30, 22⟩ = "photo_20240115_143022.jpg" ∧
    generateNewFileName "docs/a.b/notes" ⟨987, 12, 5, 4, 3, 2⟩ = "notes_09871205_040302" ∧
    (((∃ n, Stat fs (filepathJoin targetDir (filepathBase (render sourcePath))) = .ok n) ∧
        destination fs t sourcePath targetDir =
          (filepathJoin targetDir (generateNewFileName (render sourcePath) t), true)) ∨
      ((∀ n, Stat fs (filepathJoin targetDir (filepathBase (render sourcePath))) ≠ .ok n) ∧
        destination fs t sourcePath targetDir =
          (filepathJoin targetDir (filepathBase (render sourcePath)), false))) := by
  refine ⟨?_, by decide, by decide, ?_⟩
  · obtain ⟨stem, hstem, hgen⟩ := generateNewFileName_eq path t
    refine ⟨stem, _, hstem, ?_, hgen⟩
    obtain ⟨_, -, hshape⟩ := filepathExt_suffix (filepathBase path)
    rcases hshape with h | ⟨tail, h, htail⟩
    · refine Or.inl ⟨h, ?_⟩
      rcases filepathBase_no_slash path with hb | hb
      · rw [hb]; decide
      · intro hdot
        have hsc : extScan (filepathBase path).data.reverse [] = [] := h
        exact (extScan_cases _ []).1
          ⟨hsc, fun c hc => hb c (List.mem_reverse.1 hc)⟩ '.' (List.mem_reverse.2 hdot) rfl
    · exact Or.inr ⟨tail, h, fun hd => (htail _ hd).1 rfl⟩
  · unfold destination fileExists
    cases hst : Stat fs (filepathJoin targetDir (filepathBase (render sourcePath))) with
    | error e => right; simp [hst]
    | ok n => left; simp [hst]

/-- C10: the lookup in the rule table is an exact, case-sensitive match on the
extension with its dot: each category is returned for its own extensions only,
every other string is not found, in particular `.JPG` and `jpg`. -/
theorem DefaultRules_lookup_exact (e : String) :
    (mapGet DefaultRules e = some "Images" ↔ e = ".jpg" ∨ e = ".jpeg" ∨ e = ".png") ∧
    (mapGet DefaultRules e = some "Documents" ↔
      e = ".pdf" ∨ e = ".doc" ∨ e = ".docx" ∨ e = ".txt") ∧
    (mapGet DefaultRules e = some "Music" ↔ e = ".mp3" ∨ e = ".wav") ∧
    (mapGet DefaultRules e = some "Video" ↔ e = ".mp4" ∨ e = ".avi") ∧
    (mapGet DefaultRules e = some "Archives" ↔ e = ".zip" ∨ e = ".rar") ∧
    (mapGet DefaultRules e = none ↔
      e ∉ [".jpg", ".jpeg", ".png", ".pdf", ".doc", ".docx", ".txt", ".mp3", ".wav",
        ".mp4", ".avi", ".zip", ".rar"]) ∧
    mapGet DefaultRules ".JPG" = none ∧ mapGet DefaultRules "jpg" = none := by
  refine ⟨?_, ?_, ?_, ?_, ?_, ?_, by decide, by decide⟩
  · rw [mapGet_eq_some _ _ _ rules_nodup]; simp [DefaultRules]
  · rw [mapGet_eq_some _ _ _ rules_nodup]; simp [DefaultRules]
  · rw [mapGet_eq_some _ _ _ rules_nodup]; simp [DefaultRules]
  · rw [mapGet_eq_some _ _ _ rules_nodup]; simp [DefaultRules]
  · rw [mapGet_eq_some _ _ _ rules_nodup]; simp [DefaultRules]
  · rw [mapGet_eq_none]; simp [DefaultRules]

end FilesOrganizer
